import Mathlib

/-!
# The C-minus code generator `cgen.c`

A shallow embedding of the code generator of `cgen.c` (the TINY/TM code
generator of Louden's *Compiler Construction*, extended with a function
table) and theorems about the temporary-offset discipline, the
backpatching of jumps and the layout of the generated stream.

The cursors and offsets of the generator, C `int` values that move by
one or two at a time, are modelled by `Int`. The declaration count of
`getSizeOfGlobal` and the count `codeGen` hands to `emitSkip`, which the
declared array lengths of a program take to the limits of `int`, are
computed with 32-bit wrap-around (`wrapInt`). A call that overruns a local
buffer of the source (`comment[128]`, `tmp[128]`, `parameters[SIZE]`) or an
array of 1024 names has no defined result and returns `none`.
-/

namespace CGen

/-! ## Syntax tree (`globals.h`) -/

/-- The node kind discriminator `tree->nodekind`. -/
inductive NodeKind where
  | StmtK
  | ExpK
  | other (n : Nat)
  deriving DecidableEq, Repr

/-- The member `kind.stmt` of the union `tree->kind`; `VarArrayK` is the
enumerator `getSizeOfGlobal` compares this member with. -/
inductive StmtKind where
  | IfK
  | RepeatK
  | AssignK
  | ReadK
  | WriteK
  | VarArrayK
  | other (n : Nat)
  deriving DecidableEq, Repr

/-- The member `kind.exp` of the union `tree->kind`. -/
inductive ExpKind where
  | OpK
  | ConstK
  | IdK
  | other (n : Nat)
  deriving DecidableEq, Repr

/-- The operator token stored in `attr.op`. -/
inductive TokenType where
  | PLUS
  | MINUS
  | TIMES
  | OVER
  | LT
  | EQ
  | other (n : Nat)
  deriving DecidableEq, Repr

/-- Modelled from the spec: `globals.h`, which declares `TreeNode`, is not
among the sources. The scalar fields the generator reads from a node: the
kind discriminator, the two members of the union `kind` and the three
members of the union `attr`. Each union member is kept as a field of its
own, so no assumption is made on how the enumerators of the two kind
enumerations are numbered. -/
structure NodeInfo where
  nodekind : NodeKind
  kindStmt : StmtKind
  kindExp : ExpKind
  attrOp : TokenType
  attrVal : Int
  attrName : String
  deriving DecidableEq, Repr

/-- A `TreeNode *`: either `NULL` or a node with `child[0]`, `child[1]`,
`child[2]` and `sibling`. -/
inductive TreeNode where
  | null : TreeNode
  | node (info : NodeInfo) (child0 child1 child2 sibling : TreeNode) : TreeNode
  deriving DecidableEq, Repr

/-! ## Instruction stream (`code.h`, `code.c`) -/

/-- The TM opcodes the generator emits. -/
inductive Opcode where
  | HALT | IN | OUT | ADD | SUB | MUL | DIV
  | LD | ST | LDA | LDC | JLT | JEQ
  deriving DecidableEq, Repr

/-- Modelled from the spec: `code.h` is not among the sources. The primary
accumulator register. -/
def ac : Int := 0
/-- Modelled from the spec: `code.h` is not among the sources. The secondary
accumulator register. -/
def ac1 : Int := 1
/-- Modelled from the spec: `code.h` is not among the sources. The global
pointer register. -/
def gp : Int := 5
/-- Modelled from the spec: `code.h` is not among the sources. The memory
pointer register, base of the scratch region. -/
def mp : Int := 6
/-- Modelled from the spec: `code.h` is not among the sources. The program
counter register. -/
def pc : Int := 7

/-- An instruction record: register-only `op r,s,t` or register-memory
`op r,d(s)`, each with its comment string. -/
inductive Instr where
  | RO (op : Opcode) (r s t : Int) (c : String)
  | RM (op : Opcode) (r d s : Int) (c : String)
  deriving DecidableEq, Repr

/-- One line of the generated code file: a comment, or an instruction
written at a location of the stream. -/
inductive Line where
  | comment (c : String)
  | instr (loc : Int) (ins : Instr)
  deriving DecidableEq, Repr

/-- The globals of `cgen.c` (`tmpOffset`, `forFunctionTable`, `locMain`)
together with the state of the emitter: the cursor `emitLoc`, the append
position `highEmitLoc` and the lines written so far, newest first. -/
structure GenState where
  emitLoc : Int
  highEmitLoc : Int
  code : List Line
  tmpOffset : Int
  forFunctionTable : Int
  locMain : Int
  deriving DecidableEq, Repr

/-- The state at program start: every counter is 0 (`locMain` has no
initialiser and is zero-initialised) and nothing has been written. -/
def initState : GenState :=
  { emitLoc := 0, highEmitLoc := 0, code := [], tmpOffset := 0,
    forFunctionTable := 0, locMain := 0 }

/-- The instruction the finished stream holds at index `i`: the one of the
newest line written at location `i`, if any. -/
def instrAt : List Line → Int → Option Instr
  | [], _ => none
  | Line.comment _ :: rest, i => instrAt rest i
  | Line.instr loc ins :: rest, i => if loc = i then some ins else instrAt rest i

/-- The most recently emitted instruction line, comments skipped. -/
def lastInstr : List Line → Option (Int × Instr)
  | [] => none
  | Line.comment _ :: rest => lastInstr rest
  | Line.instr loc ins :: _ => some (loc, ins)

/-- Modelled from the spec: `emitComment` of `code.c`, which is not among the
sources. Puts a comment line into the output. -/
def emitComment (c : String) (s : GenState) : GenState :=
  { s with code := Line.comment c :: s.code }

/-- Modelled from the spec: the emit-instruction contract of `code.c`, which
is not among the sources. Writes one line at the cursor, advances the cursor
by one and raises the append position to the cursor if it is passed. -/
def emitLine (ins : Instr) (s : GenState) : GenState :=
  { s with
    code := Line.instr s.emitLoc ins :: s.code
    emitLoc := s.emitLoc + 1
    highEmitLoc := max s.highEmitLoc (s.emitLoc + 1) }

/-- Modelled from the spec: `emitRO` of `code.c`, which is not among the
sources. Emits a register-only instruction at the cursor. -/
def emitRO (op : Opcode) (r s t : Int) (c : String) (st : GenState) : GenState :=
  emitLine (Instr.RO op r s t c) st

/-- Modelled from the spec: `emitRM` of `code.c`, which is not among the
sources. Emits a register-memory instruction at the cursor. -/
def emitRM (op : Opcode) (r d s : Int) (c : String) (st : GenState) : GenState :=
  emitLine (Instr.RM op r d s c) st

/-- Modelled from the spec: `emitRM_Abs` of `code.c`, which is not among the
sources. Emits a register-memory instruction whose absolute target `a` is
turned into a displacement relative to the program counter, which at run
time is one past the instruction. -/
def emitRM_Abs (op : Opcode) (r a : Int) (c : String) (st : GenState) : GenState :=
  emitLine (Instr.RM op r (a - (st.emitLoc + 1)) pc c) st

/-- Modelled from the spec: `emitSkip` of `code.c`, which is not among the
sources. Reserves `howMany` slots: returns the cursor and moves it on. -/
def emitSkip (howMany : Int) (s : GenState) : Int × GenState :=
  (s.emitLoc,
   { s with
     emitLoc := s.emitLoc + howMany
     highEmitLoc := max s.highEmitLoc (s.emitLoc + howMany) })

/-- Modelled from the spec: `emitBackup` of `code.c`, which is not among the
sources. Moves the cursor back to a reserved slot. -/
def emitBackup (loc : Int) (s : GenState) : GenState :=
  { s with emitLoc := loc }

/-- Modelled from the spec: `emitRestore` of `code.c`, which is not among the
sources. Returns the cursor to the append position. -/
def emitRestore (s : GenState) : GenState :=
  { s with emitLoc := s.highEmitLoc }

/-- What the generator takes from its surroundings: the flag `TraceCode` and
the symbol-table functions `st_lookup` and `st_get_location` of `symtab.c`. -/
structure Env where
  TraceCode : Bool
  st_lookup : String → Int
  st_get_location : String → String → Int

/-- Emits a comment only when `TraceCode` is set:
`if (TraceCode) emitComment(c)`. -/
def traceComment (env : Env) (c : String) (s : GenState) : GenState :=
  if env.TraceCode then emitComment c s else s

/-! ## The generator (`cgen.c`) -/

/-- The operator instructions of an `OpK` node: the inner `switch` on
`tree->attr.op` of `genExp`. -/
def genOp (op : TokenType) (s : GenState) : GenState :=
  match op with
  | TokenType.PLUS => emitRO Opcode.ADD ac ac1 ac "op +" s
  | TokenType.MINUS => emitRO Opcode.SUB ac ac1 ac "op -" s
  | TokenType.TIMES => emitRO Opcode.MUL ac ac1 ac "op *" s
  | TokenType.OVER => emitRO Opcode.DIV ac ac1 ac "op /" s
  | TokenType.LT =>
    let s := emitRO Opcode.SUB ac ac1 ac "op <" s
    let s := emitRM Opcode.JLT ac 2 pc "br if true" s
    let s := emitRM Opcode.LDC ac 0 ac "false case" s
    let s := emitRM Opcode.LDA pc 1 pc "unconditional jmp" s
    emitRM Opcode.LDC ac 1 ac "true case" s
  | TokenType.EQ =>
    let s := emitRO Opcode.SUB ac ac1 ac "op ==" s
    let s := emitRM Opcode.JEQ ac 2 pc "br if true" s
    let s := emitRM Opcode.LDC ac 0 ac "false case" s
    let s := emitRM Opcode.LDA pc 1 pc "unconditional jmp" s
    emitRM Opcode.LDC ac 1 ac "true case" s
  | TokenType.other _ => emitComment "BUG: Unknown operator" s

mutual

/-- Procedure `genStmt`: generates code at a statement node. The source
is never called on `NULL`; the model returns the state unchanged there. -/
def genStmt (env : Env) (tree : TreeNode) (s : GenState) : GenState :=
  match tree with
  | TreeNode.null => s
  | TreeNode.node info p1 p2 p3 _ =>
    match info.kindStmt with
    | StmtKind.IfK =>
      let s := traceComment env "-> if" s
      let s := cGen env p1 s
      let savedLoc1 := (emitSkip 1 s).1
      let s := (emitSkip 1 s).2
      let s := emitComment "if: jump to else belongs here" s
      let s := cGen env p2 s
      let savedLoc2 := (emitSkip 1 s).1
      let s := (emitSkip 1 s).2
      let s := emitComment "if: jump to end belongs here" s
      let currentLoc := (emitSkip 0 s).1
      let s := (emitSkip 0 s).2
      let s := emitBackup savedLoc1 s
      let s := emitRM_Abs Opcode.JEQ ac currentLoc "if: jmp to else" s
      let s := emitRestore s
      let s := cGen env p3 s
      let currentLoc := (emitSkip 0 s).1
      let s := (emitSkip 0 s).2
      let s := emitBackup savedLoc2 s
      let s := emitRM_Abs Opcode.LDA pc currentLoc "jmp to end" s
      let s := emitRestore s
      traceComment env "<- if" s
    | StmtKind.RepeatK =>
      let s := traceComment env "-> repeat" s
      let savedLoc1 := (emitSkip 0 s).1
      let s := (emitSkip 0 s).2
      let s := emitComment "repeat: jump after body comes back here" s
      let s := cGen env p1 s
      let s := cGen env p2 s
      let s := emitRM_Abs Opcode.JEQ ac savedLoc1 "repeat: jmp back to body" s
      traceComment env "<- repeat" s
    | StmtKind.AssignK =>
      let s := traceComment env "-> assign" s
      let s := cGen env p1 s
      let loc := env.st_lookup info.attrName
      let s := emitRM Opcode.ST ac loc gp "assign: store value" s
      traceComment env "<- assign" s
    | StmtKind.ReadK =>
      let s := emitRO Opcode.IN ac 0 0 "read integer value" s
      let loc := env.st_lookup info.attrName
      emitRM Opcode.ST ac loc gp "read: store value" s
    | StmtKind.WriteK =>
      let s := cGen env p1 s
      emitRO Opcode.OUT ac 0 0 "write ac" s
    | _ => s
termination_by (sizeOf tree, 0)

/-- Procedure `genExp`: generates code at an expression node. The source
is never called on `NULL`; the model returns the state unchanged there. -/
def genExp (env : Env) (tree : TreeNode) (s : GenState) : GenState :=
  match tree with
  | TreeNode.null => s
  | TreeNode.node info p1 p2 _ _ =>
    match info.kindExp with
    | ExpKind.ConstK =>
      let s := traceComment env "-> Const" s
      let s := emitRM Opcode.LDC ac info.attrVal 0 "load const" s
      traceComment env "<- Const" s
    | ExpKind.IdK =>
      let s := traceComment env "-> Id" s
      let loc := env.st_lookup info.attrName
      let s := emitRM Opcode.LD ac loc gp "load id value" s
      traceComment env "<- Id" s
    | ExpKind.OpK =>
      let s := traceComment env "-> Op" s
      let s := cGen env p1 s
      let s := emitRM Opcode.ST ac s.tmpOffset mp "op: push left"
        { s with tmpOffset := s.tmpOffset - 1 }
      let s := cGen env p2 s
      let s := { s with tmpOffset := s.tmpOffset + 1 }
      let s := emitRM Opcode.LD ac1 s.tmpOffset mp "op: load left" s
      let s := genOp info.attrOp s
      traceComment env "<- Op" s
    | _ => s
termination_by (sizeOf tree, 0)

/-- Procedure `cGen`: recursively generates code by tree traversal. -/
def cGen (env : Env) (tree : TreeNode) (s : GenState) : GenState :=
  match tree with
  | TreeNode.null => s
  | TreeNode.node info c0 c1 c2 sibling =>
    let s :=
      match info.nodekind with
      | NodeKind.StmtK => genStmt env (TreeNode.node info c0 c1 c2 sibling) s
      | NodeKind.ExpK => genExp env (TreeNode.node info c0 c1 c2 sibling) s
      | _ => s
    cGen env sibling s
termination_by (sizeOf tree, 1)

end

/-- Arithmetic on the C type `int` as the compiled code does it: 32 bits,
two's complement, a result out of range wraps around. -/
def wrapInt (x : Int) : Int :=
  (x + 2147483648) % 4294967296 - 2147483648

/-- The loop of `getSizeOfGlobal`, `result` being the running total, an
`int`: `result += tree->child[0]->attr.val` and `result++` wrap around. A
`VarArrayK` node with no `child[0]` makes the source dereference `NULL`:
`none`. -/
def getSizeOfGlobalLoop : TreeNode → Int → Option Int
  | TreeNode.null, result => some result
  | TreeNode.node info child0 _ _ sibling, result =>
    if info.nodekind = NodeKind.ExpK ∧ info.kindStmt = StmtKind.VarArrayK then
      match child0 with
      | TreeNode.null => none
      | TreeNode.node cinfo _ _ _ _ =>
        getSizeOfGlobalLoop sibling (wrapInt (result + cinfo.attrVal))
    else
      getSizeOfGlobalLoop sibling (wrapInt (result + 1))

/-- Function `getSizeOfGlobal`: the footprint of the top-level sibling list. -/
def getSizeOfGlobal (syntaxTree : TreeNode) : Option Int :=
  getSizeOfGlobalLoop syntaxTree 0

/-- The count `codeGen` hands to `emitSkip`: the expression
`getSizeOfGlobal(syntaxTree)*2 + 1` of the source, computed on `int`, `size`
being the value `getSizeOfGlobal` returned. -/
def tableSlots (size : Int) : Int :=
  wrapInt (wrapInt (size * 2) + 1)

/-- The first part of `codeGen`: the header comments, the standard prelude
and the reservation of the function table, `size` being the value
`getSizeOfGlobal` returned. -/
def codeGenPrelude (codefile : String) (size : Int) (s : GenState) : GenState :=
  let s := emitComment "TINY Compilation to TM Code" s
  let s := emitComment ("File: " ++ codefile) s
  let s := emitComment "Standard prelude:" s
  let s := emitRM Opcode.LD mp 0 ac "load maxaddress from location 0" s
  let s := emitRM Opcode.ST ac 0 ac "clear location 0" s
  let s := emitComment "End of standard prelude." s
  { (emitSkip (tableSlots size) s).2 with forFunctionTable := (emitSkip (tableSlots size) s).1 }

/-- The last part of `codeGen`, after the traversal: the jump to main is
patched in at `forFunctionTable` and the final `HALT` is appended. The
source also computes `st_get_location("~", "main")` here, into a variable it
never reads. -/
def codeGenFinish (s : GenState) : GenState :=
  let s := emitBackup s.forFunctionTable s
  let s := emitRM Opcode.LDC pc s.locMain 0 "jump to main" s
  let s := emitRestore s
  let s := emitComment "End of execution." s
  emitRO Opcode.HALT 0 0 0 "done" s

/-- Procedure `codeGen`: generates the code of the whole syntax tree.
`none` when `getSizeOfGlobal` dereferences `NULL`. -/
def codeGen (env : Env) (syntaxTree : TreeNode) (codefile : String) (s : GenState) :
    Option GenState :=
  match getSizeOfGlobal syntaxTree with
  | none => none
  | some size => some (codeGenFinish (cGen env syntaxTree (codeGenPrelude codefile size s)))

/-- Function `pushArguments`: evaluates the argument chain from its last
element to its first and stores each value in the scratch region; returns
the depth reached. -/
def pushArguments (env : Env) : Int → TreeNode → GenState → Int × GenState
  | depth, TreeNode.null, s => (depth, s)
  | depth, TreeNode.node info c0 c1 c2 sibling, s =>
    let r := pushArguments env (depth + 1) sibling s
    let s := genExp env (TreeNode.node info c0 c1 c2 sibling) r.2
    let s := { s with tmpOffset := s.tmpOffset - 1 }
    (r.1, emitRM Opcode.ST ac s.tmpOffset mp "op: push argument(reverse order)" s)

/-- A text `sprintf` writes, with its terminating zero byte, fits a local
buffer of 128 bytes: `char comment[128]` of `insertFunction`,
`char tmp[128]` of `pushParameters`. -/
def fitsBuffer (text : String) : Prop :=
  text.utf8ByteSize + 1 ≤ 128

instance (text : String) : Decidable (fitsBuffer text) := by
  unfold fitsBuffer; infer_instance

/-- Both comment texts of the call `insertFunction(functionLocation, name)`,
`"function %s is at %d"` with the name and its resolved location and
`"load function location(%d)"`, fit the buffer. -/
def CommentsFit (env : Env) (functionLocation : Int) (name : String) : Prop :=
  fitsBuffer ("function " ++ name ++ " is at " ++
    toString (env.st_get_location "~" name)) ∧
  fitsBuffer ("load function location(" ++ toString functionLocation ++ ")")

instance (env : Env) (functionLocation : Int) (name : String) :
    Decidable (CommentsFit env functionLocation name) := by
  unfold CommentsFit; infer_instance

/-- The emitter calls of `insertFunction`, with the two texts it builds in
`comment`: the next two function-table slots are patched with the entry of
the function. -/
def insertFunctionPatch (env : Env) (functionLocation : Int) (name : String) (s : GenState) :
    GenState :=
  let memloc := env.st_get_location "~" name
  let s := emitBackup s.forFunctionTable s
  let s := { s with forFunctionTable := s.forFunctionTable + 2 }
  let s := traceComment env ("function " ++ name ++ " is at " ++ toString memloc) s
  let s := emitRM Opcode.LDC ac functionLocation 0
    ("load function location(" ++ toString functionLocation ++ ")") s
  let s := emitRM Opcode.ST ac memloc gp "add into memory" s
  emitRestore s

/-- Function `insertFunction`. The source builds both comment texts with
`sprintf` in `char comment[128]`, the first whether `TraceCode` is set or
not: when a text does not fit, the call overruns the buffer and has no
defined result, `none`. -/
def insertFunction (env : Env) (functionLocation : Int) (name : String) (s : GenState) :
    Option GenState :=
  if CommentsFit env functionLocation name then
    some (insertFunctionPatch env functionLocation name s)
  else none

/-! ## Name stacks and parameter binding (`cgen.c`, `symtab.h`) -/

/-- Modelled from the spec: `symtab.h` is not among the sources. An entry of
the hash table of a scope, with the two fields `pushParameters` reads: the
name and its memory location, the slot index of a parameter. -/
structure BucketListRec where
  name : String
  memloc : Int

/-- Modelled from the spec: `symtab.h` is not among the sources. A scope as
`pushParameters` walks it: the buckets `bucket[0]`, ..., `bucket[SIZE-1]`,
each a chain of entries. -/
abbrev ScopeList := List (List BucketListRec)

/-- The two name stacks of `cgen.c`: arrays of 1024 `char *`, `none` being
the null pointer, each with the index of its top. -/
structure NameStacks where
  localNameStack : Int → Option String
  localNameStackIndex : Int
  parameterStack : Int → Option String
  parameterStackIndex : Int

/-- The name stacks at program start: all entries null, both indices at
1024. -/
def initNameStacks : NameStacks :=
  { localNameStack := fun _ => none, localNameStackIndex := 1024,
    parameterStack := fun _ => none, parameterStackIndex := 1024 }

/-- Sets one entry of an array of names. -/
def setEntry (arr : Int → Option String) (i : Int) (v : Option String) : Int → Option String :=
  fun j => if j = i then v else arr j

/-- The search loop of `getLocalNameOffset` and `getParameterOffset`:
`fuel` is the number of iterations left, `i` the loop variable and `index`
the top of the stack. -/
def searchStack (stack : Int → Option String) (name : String) (index : Int) :
    Nat → Int → Int
  | 0, _ => -1
  | fuel + 1, i =>
    if stack i = some name then i - index
    else searchStack stack name index fuel (i + 1)

/-- Function `getLocalNameOffset`: the loop runs from the top of the stack
to index 1023. -/
def getLocalNameOffset (st : NameStacks) (name : String) : Int :=
  searchStack st.localNameStack name st.localNameStackIndex
    (1024 - st.localNameStackIndex).toNat st.localNameStackIndex

/-- Function `getParameterOffset`: the loop runs from the top of the stack
to index 1023. -/
def getParameterOffset (st : NameStacks) (name : String) : Int :=
  searchStack st.parameterStack name st.parameterStackIndex
    (1024 - st.parameterStackIndex).toNat st.parameterStackIndex

/-- The body of the first loop of `pushParameters` at one entry: `max` is
raised to the memory location and the name is stored at it in the local
array `parameters`. -/
def collectParameter (acc : Int × (Int → Option String)) (l : BucketListRec) :
    Int × (Int → Option String) :=
  (if acc.1 < l.memloc then l.memloc else acc.1, setEntry acc.2 l.memloc (some l.name))

/-- The second loop of `pushParameters` with `count` iterations left: the
loop variable is `count - 1` and runs down to 0. -/
def pushFrom (parameters : Int → Option String) : Nat → NameStacks → NameStacks
  | 0, st => st
  | k + 1, st =>
    pushFrom parameters k
      { st with
        parameterStackIndex := st.parameterStackIndex - 1
        parameterStack := setEntry st.parameterStack (st.parameterStackIndex - 1) (parameters k) }

/-- The nested first loop of `pushParameters` over the buckets
`bucket[0]`, ..., `bucket[SIZE - 1]` of a scope and the chain of each: the
result is `max` and the local array `parameters`, which starts as `junk`. -/
def collectParameters (SIZE : Nat) (scope : ScopeList) (junk : Int → Option String) :
    Int × (Int → Option String) :=
  (scope.take SIZE).foldl (fun acc bucket => bucket.foldl collectParameter acc) (0, junk)

/-- Every store `parameters[l->memloc] = l->name` of the first loop of
`pushParameters` is inside the local array `char* parameters[SIZE]`. -/
def ParametersFit (SIZE : Nat) (scope : ScopeList) : Prop :=
  ∀ l ∈ (scope.take SIZE).flatten, 0 ≤ l.memloc ∧ l.memloc < SIZE

instance (SIZE : Nat) (scope : ScopeList) : Decidable (ParametersFit SIZE scope) := by
  unfold ParametersFit; infer_instance

/-- Function `pushParameters`. `SIZE` is the constant of `symtab.h`, which is
not among the sources: the number of buckets of a scope and the length of
the local array `parameters`; `getScope` is the scope lookup of `symtab.c`
and `junk` the content of the uninitialised array `parameters`. The call has
no defined result, `none`, when `sprintf` overruns `char tmp[128]` with
`"~:"` and the function name, when a memory location of the scope indexes
outside `parameters[SIZE]`, when the second loop reads outside it, or when a
store of the second loop is outside `parameterStack[1024]`. -/
def pushParameters (SIZE : Nat) (getScope : String → Option ScopeList)
    (junk : Int → Option String) (functionName : String) (st : NameStacks) :
    Option NameStacks :=
  if fitsBuffer ("~:" ++ functionName) then
    match getScope ("~:" ++ functionName) with
    | none => some st
    | some scope =>
      if ParametersFit SIZE scope then
        let r := collectParameters SIZE scope junk
        if r.1 < SIZE ∧ 0 ≤ st.parameterStackIndex - (r.1 + 1) ∧
            st.parameterStackIndex ≤ 1024 then
          some (pushFrom r.2 (r.1.toNat + 1) st)
        else none
      else none
  else none

/-! ## The target machine -/

/-- The state of the TM machine: registers, data memory, pending input and
the values output so far, oldest first. -/
structure TMState where
  reg : Int → Int
  dMem : Int → Int
  input : List Int
  output : List Int

/-- The result of one step of the TM machine. -/
inductive StepResult where
  | okay | halt | imemErr | dmemErr | zeroDivide
  deriving DecidableEq, Repr

/-- Sets one cell of a register file or memory. -/
def setCell (f : Int → Int) (i v : Int) : Int → Int :=
  fun j => if j = i then v else f j

/-- Modelled from the spec: the TM machine is not among the sources. Its
instruction and data memories have 1024 cells. -/
def ADDR_SIZE : Int := 1024

/-- Modelled from the spec: the TM machine is not among the sources. The
machine at start: registers 0, data memory 0 except cell 0, which holds the
highest data address. -/
def tmInit (input : List Int) : TMState :=
  { reg := fun _ => 0
    dMem := fun a => if a = 0 then ADDR_SIZE - 1 else 0
    input := input
    output := [] }

/-- Modelled from the spec: the TM machine is not among the sources. The
instruction memory loaded from a code file: unwritten cells are `HALT`. -/
def loadProgram (code : List Line) : Int → Instr :=
  fun i => (instrAt code i).getD (Instr.RO Opcode.HALT 0 0 0 "")

/-- Modelled from the spec: the TM machine is not among the sources. One
step: fetch at `pc`, advance `pc`, execute. Register-only instructions
compute on registers (`r := s op t`); `LD`/`ST` access data memory at
`d + reg[s]`; `LDA` loads that address, `LDC` the constant `d`; `JLT`/`JEQ`
set `pc` to the address when `reg[r]` is negative / zero. -/
def tmStep (iMem : Int → Instr) (st : TMState) : StepResult × TMState :=
  let p := st.reg pc
  if p < 0 ∨ ADDR_SIZE ≤ p then (StepResult.imemErr, st)
  else
    let st := { st with reg := setCell st.reg pc (p + 1) }
    match iMem p with
    | Instr.RO Opcode.HALT _ _ _ _ => (StepResult.halt, st)
    | Instr.RO Opcode.IN r _ _ _ =>
      match st.input with
      | [] => (StepResult.halt, st)
      | v :: rest => (StepResult.okay, { st with reg := setCell st.reg r v, input := rest })
    | Instr.RO Opcode.OUT r _ _ _ =>
      (StepResult.okay, { st with output := st.output ++ [st.reg r] })
    | Instr.RO Opcode.ADD r s t _ =>
      (StepResult.okay, { st with reg := setCell st.reg r (st.reg s + st.reg t) })
    | Instr.RO Opcode.SUB r s t _ =>
      (StepResult.okay, { st with reg := setCell st.reg r (st.reg s - st.reg t) })
    | Instr.RO Opcode.MUL r s t _ =>
      (StepResult.okay, { st with reg := setCell st.reg r (st.reg s * st.reg t) })
    | Instr.RO Opcode.DIV r s t _ =>
      if st.reg t = 0 then (StepResult.zeroDivide, st)
      else (StepResult.okay, { st with reg := setCell st.reg r (Int.tdiv (st.reg s) (st.reg t)) })
    | Instr.RM Opcode.LD r d s _ =>
      let m := d + st.reg s
      if m < 0 ∨ ADDR_SIZE ≤ m then (StepResult.dmemErr, st)
      else (StepResult.okay, { st with reg := setCell st.reg r (st.dMem m) })
    | Instr.RM Opcode.ST r d s _ =>
      let m := d + st.reg s
      if m < 0 ∨ ADDR_SIZE ≤ m then (StepResult.dmemErr, st)
      else (StepResult.okay, { st with dMem := setCell st.dMem m (st.reg r) })
    | Instr.RM Opcode.LDA r d s _ =>
      (StepResult.okay, { st with reg := setCell st.reg r (d + st.reg s) })
    | Instr.RM Opcode.LDC r d _ _ =>
      (StepResult.okay, { st with reg := setCell st.reg r d })
    | Instr.RM Opcode.JLT r d s _ =>
      (StepResult.okay,
        if st.reg r < 0 then { st with reg := setCell st.reg pc (d + st.reg s) } else st)
    | Instr.RM Opcode.JEQ r d s _ =>
      (StepResult.okay,
        if st.reg r = 0 then { st with reg := setCell st.reg pc (d + st.reg s) } else st)
    | _ => (StepResult.halt, st)

/-- Runs the machine for at most `fuel` steps, stopping at the first step
that is not `okay`. -/
def tmRun (iMem : Int → Instr) : Nat → TMState → StepResult × TMState
  | 0, st => (StepResult.okay, st)
  | fuel + 1, st =>
    match tmStep iMem st with
    | (StepResult.okay, st') => tmRun iMem fuel st'
    | r => r

/-! ## Example trees -/

/-- A node record with the given kinds and every payload member empty. -/
def mkInfo (nk : NodeKind) (sk : StmtKind) (ek : ExpKind) : NodeInfo :=
  { nodekind := nk, kindStmt := sk, kindExp := ek, attrOp := TokenType.other 0,
    attrVal := 0, attrName := "" }

/-- A constant expression node. -/
def constNode (v : Int) (sibling : TreeNode) : TreeNode :=
  TreeNode.node { mkInfo NodeKind.ExpK (StmtKind.other 0) ExpKind.ConstK with attrVal := v }
    TreeNode.null TreeNode.null TreeNode.null sibling

/-- An identifier expression node. -/
def idNode (name : String) (sibling : TreeNode) : TreeNode :=
  TreeNode.node { mkInfo NodeKind.ExpK (StmtKind.other 0) ExpKind.IdK with attrName := name }
    TreeNode.null TreeNode.null TreeNode.null sibling

/-- A binary operation node. -/
def opNode (op : TokenType) (l r sibling : TreeNode) : TreeNode :=
  TreeNode.node { mkInfo NodeKind.ExpK (StmtKind.other 0) ExpKind.OpK with attrOp := op }
    l r TreeNode.null sibling

/-- An assignment statement node. -/
def assignNode (name : String) (rhs sibling : TreeNode) : TreeNode :=
  TreeNode.node { mkInfo NodeKind.StmtK StmtKind.AssignK (ExpKind.other 0) with attrName := name }
    rhs TreeNode.null TreeNode.null sibling

/-- A write statement node. -/
def writeNode (e sibling : TreeNode) : TreeNode :=
  TreeNode.node (mkInfo NodeKind.StmtK StmtKind.WriteK (ExpKind.other 0))
    e TreeNode.null TreeNode.null sibling

/-- An if statement node. -/
def ifNode (test thenPart elsePart sibling : TreeNode) : TreeNode :=
  TreeNode.node (mkInfo NodeKind.StmtK StmtKind.IfK (ExpKind.other 0))
    test thenPart elsePart sibling

/-- A repeat statement node. -/
def repeatNode (body test sibling : TreeNode) : TreeNode :=
  TreeNode.node (mkInfo NodeKind.StmtK StmtKind.RepeatK (ExpKind.other 0))
    body test TreeNode.null sibling

/-- An array declaration node of the given declared length. -/
def arrayNode (len : Int) (sibling : TreeNode) : TreeNode :=
  TreeNode.node (mkInfo NodeKind.ExpK StmtKind.VarArrayK (ExpKind.other 0))
    (constNode len TreeNode.null) TreeNode.null TreeNode.null sibling

/-- The program `x := 2 + 3; write x`. -/
def progSum : TreeNode :=
  assignNode "x" (opNode TokenType.PLUS (constNode 2 TreeNode.null) (constNode 3 TreeNode.null)
    TreeNode.null) (writeNode (idNode "x" TreeNode.null) TreeNode.null)

/-- An environment without tracing in which every name is at location 0. -/
def env0 : Env :=
  { TraceCode := false, st_lookup := fun _ => 0, st_get_location := fun _ _ => 0 }

/-! ## Notions used in the statements -/

/-- The state `s'` extends `s`, both seen at the append position: the
cursor of `s'` is at the append position and not before that of `s`, no
slot outside `[s.emitLoc, s'.emitLoc)` has changed, every slot inside is
written except possibly the holes `H`, and the function-table cursor and
`locMain` are those of `s`. -/
structure Ext (H : Int → Prop) (s s' : GenState) : Prop where
  atEnd : s'.emitLoc = s'.highEmitLoc
  le : s.emitLoc ≤ s'.emitLoc
  below : ∀ i, i < s.emitLoc → instrAt s'.code i = instrAt s.code i
  above : ∀ i, s'.emitLoc ≤ i → instrAt s'.code i = instrAt s.code i
  filled : ∀ i, s.emitLoc ≤ i → i < s'.emitLoc → ¬ H i → (instrAt s'.code i).isSome = true
  table : s'.forFunctionTable = s.forFunctionTable
  main : s'.locMain = s.locMain

/-- No hole. -/
def noHole : Int → Prop := fun _ => False

/-- The slot reserved after the test of an if statement. -/
def ifSlot1 (env : Env) (p1 : TreeNode) (s : GenState) : Int :=
  (cGen env p1 (traceComment env "-> if" s)).emitLoc

/-- The state in which the then-part of an if statement has been generated. -/
def ifAfterThen (env : Env) (p1 p2 : TreeNode) (s : GenState) : GenState :=
  cGen env p2 (emitComment "if: jump to else belongs here"
    (emitSkip 1 (cGen env p1 (traceComment env "-> if" s))).2)

/-- The slot reserved after the then-part of an if statement. -/
def ifSlot2 (env : Env) (p1 p2 : TreeNode) (s : GenState) : Int :=
  (ifAfterThen env p1 p2 s).emitLoc

/-- The state in which the else-part of an if statement is generated: both
slots are reserved and the first one is patched. -/
def ifBeforeElse (env : Env) (p1 p2 : TreeNode) (s : GenState) : GenState :=
  let s2 := emitComment "if: jump to end belongs here" (emitSkip 1 (ifAfterThen env p1 p2 s)).2
  emitRestore (emitRM_Abs Opcode.JEQ ac (emitSkip 0 s2).1 "if: jmp to else"
    (emitBackup (ifSlot1 env p1 s) (emitSkip 0 s2).2))

/-- The state in which the else-part of an if statement has been generated. -/
def ifAfterElse (env : Env) (p1 p2 p3 : TreeNode) (s : GenState) : GenState :=
  cGen env p3 (ifBeforeElse env p1 p2 s)

/-- An if statement whose test is `1`, whose then-part writes 1 and whose
else-part writes 2. -/
def ifSample : TreeNode :=
  ifNode (constNode 1 TreeNode.null) (writeNode (constNode 1 TreeNode.null) TreeNode.null)
    (writeNode (constNode 2 TreeNode.null) TreeNode.null) TreeNode.null

/-- A node is an array declaration when `getSizeOfGlobal` takes it as one. -/
def isArrayDecl (info : NodeInfo) : Prop :=
  info.nodekind = NodeKind.ExpK ∧ info.kindStmt = StmtKind.VarArrayK

instance (info : NodeInfo) : Decidable (isArrayDecl info) := by
  unfold isArrayDecl; infer_instance

/-- The declared length of an array declaration: the value of its first
child. -/
def declaredLength : TreeNode → Int
  | TreeNode.null => 0
  | TreeNode.node cinfo _ _ _ _ => cinfo.attrVal

/-- The declaration count `D` in the words of the specification: the sum
over the top-level sibling list of the declared length for an array
declaration and of 1 for every other declaration. -/
def declCount : TreeNode → Int
  | TreeNode.null => 0
  | TreeNode.node info child0 _ _ sibling =>
    (if isArrayDecl info then declaredLength child0 else 1) + declCount sibling

/-- Every array declaration of the sibling list has its length child. -/
def ArraysHaveLength : TreeNode → Prop
  | TreeNode.null => True
  | TreeNode.node info child0 _ _ sibling =>
    (isArrayDecl info → child0 ≠ TreeNode.null) ∧ ArraysHaveLength sibling

/-- The instruction lines of an output, comments dropped, newest first. -/
def instrLines : List Line → List (Int × Instr)
  | [] => []
  | Line.comment _ :: rest => instrLines rest
  | Line.instr loc ins :: rest => (loc, ins) :: instrLines rest

/-- A state in which nothing has been emitted yet. -/
def Fresh (s : GenState) : Prop :=
  s.emitLoc = 0 ∧ s.highEmitLoc = 0 ∧ s.code = []

/-- A top-level list of one array declaration of 2^30 elements. -/
def hugeArray : TreeNode :=
  arrayNode 1073741824 TreeNode.null

/-- A top-level list of an array declaration of 2^31 - 1 elements followed by
a write. -/
def wideDecls : TreeNode :=
  arrayNode 2147483647 (writeNode (constNode 1 TreeNode.null) TreeNode.null)

/-- A top-level list of one array declaration whose declared length is -2. -/
def negArray : TreeNode :=
  arrayNode (-2) TreeNode.null

/-- A top-level list of an array of length 3 followed by a write. -/
def declSample : TreeNode :=
  arrayNode 3 (writeNode (constNode 1 TreeNode.null) TreeNode.null)

/-- Nothing is written at or beyond the append position. -/
def Capped (s : GenState) : Prop :=
  ∀ i : Int, s.highEmitLoc ≤ i → instrAt s.code i = none

/-- The program `write 1`. -/
def progWrite : TreeNode :=
  writeNode (constNode 1 TreeNode.null) TreeNode.null

/-- The machine cycles through the prelude: no output so far, the
accumulator holds 0 and `pc` is 0, 1 or 2. -/
def InPrelude (st : TMState) : Prop :=
  st.output = [] ∧ st.reg ac = 0 ∧ (st.reg pc = 0 ∨ st.reg pc = 1 ∨ st.reg pc = 2)

/-- The lines `codeGen` writes for `x := 2 + 3; write x` without tracing,
from the initial state, newest first. -/
def progSumCode : List Line :=
  [Line.instr 15 (Instr.RO Opcode.HALT 0 0 0 "done"),
   Line.comment "End of execution.",
   Line.instr 2 (Instr.RM Opcode.LDC pc 0 0 "jump to main"),
   Line.instr 14 (Instr.RO Opcode.OUT ac 0 0 "write ac"),
   Line.instr 13 (Instr.RM Opcode.LD ac 0 gp "load id value"),
   Line.instr 12 (Instr.RM Opcode.ST ac 0 gp "assign: store value"),
   Line.instr 11 (Instr.RO Opcode.ADD ac ac1 ac "op +"),
   Line.instr 10 (Instr.RM Opcode.LD ac1 0 mp "op: load left"),
   Line.instr 9 (Instr.RM Opcode.LDC ac 3 0 "load const"),
   Line.instr 8 (Instr.RM Opcode.ST ac 0 mp "op: push left"),
   Line.instr 7 (Instr.RM Opcode.LDC ac 2 0 "load const"),
   Line.comment "End of standard prelude.",
   Line.instr 1 (Instr.RM Opcode.ST ac 0 ac "clear location 0"),
   Line.instr 0 (Instr.RM Opcode.LD mp 0 ac "load maxaddress from location 0"),
   Line.comment "Standard prelude:",
   Line.comment "File: out.tm",
   Line.comment "TINY Compilation to TM Code"]

/-- The nodes of a sibling chain, first to last. -/
def chain : TreeNode → List TreeNode
  | TreeNode.null => []
  | TreeNode.node info c0 c1 c2 sibling => TreeNode.node info c0 c1 c2 sibling :: chain sibling

/-- One argument pushed: its code is generated by `genExp`, then its value
is stored in the scratch slot just below `tmpOffset`, which moves down to
that slot. -/
def pushOne (env : Env) (a : TreeNode) (s : GenState) : GenState :=
  emitRM Opcode.ST ac ((genExp env a s).tmpOffset - 1) mp "op: push argument(reverse order)"
    { genExp env a s with tmpOffset := (genExp env a s).tmpOffset - 1 }

/-- The arguments of a chain pushed from the last to the first:
`pushOne a1 (pushOne a2 (... (pushOne an s)))`. -/
def pushChain (env : Env) (args : List TreeNode) (s : GenState) : GenState :=
  args.foldr (pushOne env) s

/-- A chain of two constant arguments, `1` and `2`. -/
def argsSample : TreeNode :=
  constNode 1 (constNode 2 TreeNode.null)

/-- A scope of two buckets holding the parameters `a` at location 0 and `b`
at location 1. -/
def scopeSample : ScopeList :=
  [[{ name := "b", memloc := 1 }], [{ name := "a", memloc := 0 }]]

/-- The parameter names of `scopeSample` by location. -/
def paramSample : Nat → String
  | 0 => "a"
  | _ => "b"

/-! ## The push protocol of `pushArguments` -/

/-- The argument chain `(1 + 2, 5)`. -/
def argsClobber : TreeNode :=
  opNode TokenType.PLUS (constNode 1 TreeNode.null) (constNode 2 TreeNode.null)
    (constNode 5 TreeNode.null)

/-- A machine state in the middle of a run: `mp` holds 1023, everything
else is 0. -/
def tmFrame : TMState :=
  { reg := setCell (fun _ => 0) mp 1023, dMem := fun _ => 0, input := [], output := [] }

/-- The lines `pushArguments` writes for the chain `(1 + 2, 5)` without
tracing, from the initial state, newest first. -/
def argsClobberCode : List Line :=
  [Line.instr 7 (Instr.RM Opcode.ST ac (-2) mp "op: push argument(reverse order)"),
   Line.instr 6 (Instr.RO Opcode.ADD ac ac1 ac "op +"),
   Line.instr 5 (Instr.RM Opcode.LD ac1 (-1) mp "op: load left"),
   Line.instr 4 (Instr.RM Opcode.LDC ac 2 0 "load const"),
   Line.instr 3 (Instr.RM Opcode.ST ac (-1) mp "op: push left"),
   Line.instr 2 (Instr.RM Opcode.LDC ac 1 0 "load const"),
   Line.instr 1 (Instr.RM Opcode.ST ac (-1) mp "op: push argument(reverse order)"),
   Line.instr 0 (Instr.RM Opcode.LDC ac 5 0 "load const")]

/-! ## Parameter binding and lookup -/

/-- A function name of 126 letters `a`. -/
def longFunctionName : String :=
  String.mk (List.replicate 126 'a')

/-- The name of `k` letters `a`. -/
def nameOf (k : Nat) : String :=
  String.mk (List.replicate k 'a')

/-- A scope of `n + 1` buckets holding `n + 2` parameters, `nameOf k` at
location `k`, all in the first bucket. -/
def wideScope (n : Nat) : ScopeList :=
  (List.range (n + 2)).map
    (fun k => ({ name := nameOf k, memloc := (k : Int) } : BucketListRec)) ::
    List.replicate n []

/-! ## The function table entries of `insertFunction` -/

/-- The emitter calls of successive calls of `insertFunction`, one for each
pair of a function location and a name, first to last. -/
def insertFunctionsPatch (env : Env) (fs : List (Int × String)) (s : GenState) : GenState :=
  fs.foldl (fun u f => insertFunctionPatch env f.1 f.2 u) s

/-- Successive calls of `insertFunction`, one for each pair of a function
location and a name, first to last; `none` when one of them has no defined
result. -/
def insertFunctions (env : Env) : List (Int × String) → GenState → Option GenState
  | [], s => some s
  | f :: rest, s =>
    match insertFunction env f.1 f.2 s with
    | none => none
    | some u => insertFunctions env rest u

/-- A name of 124 characters. -/
def longName : String :=
  String.mk (List.replicate 124 'a')

/-! ## The layout of the stream -/

/-- An array declaration of 2^30 elements followed by `write 1`. -/
def hugeProg : TreeNode :=
  arrayNode 1073741824 progWrite

/-- An array declaration of declared length -3 followed by `write 1`. -/
def negProg : TreeNode :=
  arrayNode (-3) progWrite

/-! ## Nodes the generator does not handle -/

/-- A node none of the three procedures has a case for: its node kind is
neither `StmtK` nor `ExpK`, or it is a statement whose sub-kind is none of
`IfK`, `RepeatK`, `AssignK`, `ReadK`, `WriteK`, or an expression whose
sub-kind is none of `ConstK`, `IdK`, `OpK`. -/
def Unhandled (info : NodeInfo) : Prop :=
  (info.nodekind ≠ NodeKind.StmtK ∧ info.nodekind ≠ NodeKind.ExpK) ∨
  (info.nodekind = NodeKind.StmtK ∧ info.kindStmt ≠ StmtKind.IfK ∧
    info.kindStmt ≠ StmtKind.RepeatK ∧ info.kindStmt ≠ StmtKind.AssignK ∧
    info.kindStmt ≠ StmtKind.ReadK ∧ info.kindStmt ≠ StmtKind.WriteK) ∨
  (info.nodekind = NodeKind.ExpK ∧ info.kindExp ≠ ExpKind.ConstK ∧
    info.kindExp ≠ ExpKind.IdK ∧ info.kindExp ≠ ExpKind.OpK)

/-- A declaration node, of a node kind the generator has no case for, with
a write statement as its child and a write statement as its sibling. -/
def declNode : TreeNode :=
  TreeNode.node (mkInfo (NodeKind.other 0) (StmtKind.other 0) (ExpKind.other 0))
    (writeNode (constNode 7 TreeNode.null) TreeNode.null) TreeNode.null TreeNode.null
    (writeNode (constNode 1 TreeNode.null) TreeNode.null)

/-- A parameter stack on which `x` is bound twice, at the indices 1021 and
1023, with `y` between them. -/
def stackSample : NameStacks :=
  { initNameStacks with
    parameterStackIndex := 1021
    parameterStack := fun i =>
      if i = 1021 then some "x" else if i = 1022 then some "y"
      else if i = 1023 then some "x" else none }

/-! ## Binary operations -/

/-- The state in which the left operand of an operation node has been
generated. -/
def opAfterLeft (env : Env) (p1 : TreeNode) (s : GenState) : GenState :=
  cGen env p1 (traceComment env "-> Op" s)

/-- The state in which the left operand has been pushed. -/
def opPushed (env : Env) (p1 : TreeNode) (s : GenState) : GenState :=
  emitRM Opcode.ST ac (opAfterLeft env p1 s).tmpOffset mp "op: push left"
    { opAfterLeft env p1 s with tmpOffset := (opAfterLeft env p1 s).tmpOffset - 1 }

/-- The state in which the right operand of an operation node has been
generated. -/
def opAfterRight (env : Env) (p1 p2 : TreeNode) (s : GenState) : GenState :=
  cGen env p2 (opPushed env p1 s)

/-- The state in which the left operand has been popped into the secondary
register. -/
def opPopped (env : Env) (p1 p2 : TreeNode) (s : GenState) : GenState :=
  emitRM Opcode.LD ac1 ((opAfterRight env p1 p2 s).tmpOffset + 1) mp "op: load left"
    { opAfterRight env p1 p2 s with tmpOffset := (opAfterRight env p1 p2 s).tmpOffset + 1 }

/-- An operator token that is none of the six operators. -/
def NotOperator (op : TokenType) : Prop :=
  op ≠ TokenType.PLUS ∧ op ≠ TokenType.MINUS ∧ op ≠ TokenType.TIMES ∧
  op ≠ TokenType.OVER ∧ op ≠ TokenType.LT ∧ op ≠ TokenType.EQ

/-- An operation node with an operator token that is none of the six. -/
def opUnknownSample : TreeNode :=
  opNode (TokenType.other 0) (constNode 1 TreeNode.null) (constNode 2 TreeNode.null)
    TreeNode.null

/-! ## Runs of the target machine -/

/-- The machine gets from `st` to `st'` in some number of steps, none of
which stops it. -/
def Reaches (iMem : Int → Instr) (st st' : TMState) : Prop :=
  ∃ n : Nat, tmRun iMem n st = (StepResult.okay, st')

/-- The register file after the fetch: `pc` advanced by one. -/
def fetched (st : TMState) : TMState :=
  { st with reg := setCell st.reg pc (st.reg pc + 1) }

/-- An operation node `1 < 2`. -/
def ltSample : TreeNode :=
  opNode TokenType.LT (constNode 1 TreeNode.null) (constNode 2 TreeNode.null) TreeNode.null

/-- A machine state standing at instruction 4 with secondary = 1 and
primary = 2. -/
def cmpState : TMState :=
  { reg := setCell (setCell (setCell (fun _ => 0) pc 4) ac1 1) ac 2, dMem := fun _ => 0,
    input := [], output := [] }

/-! ## Code sizes -/

/-- The number of instructions the operator of an operation node takes. -/
def opSize : TokenType → Nat
  | TokenType.PLUS => 1
  | TokenType.MINUS => 1
  | TokenType.TIMES => 1
  | TokenType.OVER => 1
  | TokenType.LT => 5
  | TokenType.EQ => 5
  | TokenType.other _ => 0

/-- The number of instruction slots `genStmt` takes at a node whose children
take `n0`, `n1` and `n2` slots. -/
def stmtPart (info : NodeInfo) (n0 n1 n2 : Nat) : Nat :=
  match info.kindStmt with
  | StmtKind.IfK => n0 + 1 + n1 + 1 + n2
  | StmtKind.RepeatK => n0 + n1 + 1
  | StmtKind.AssignK => n0 + 1
  | StmtKind.ReadK => 2
  | StmtKind.WriteK => n0 + 1
  | _ => 0

/-- The number of instruction slots `genExp` takes at a node whose first two
children take `n0` and `n1` slots. -/
def expPart (info : NodeInfo) (n0 n1 : Nat) : Nat :=
  match info.kindExp with
  | ExpKind.ConstK => 1
  | ExpKind.IdK => 1
  | ExpKind.OpK => n0 + 1 + n1 + 1 + opSize info.attrOp
  | _ => 0

/-- The number of instruction slots `cGen` takes for a tree: `|tree|`. -/
def codeSize : TreeNode → Nat
  | TreeNode.null => 0
  | TreeNode.node info c0 c1 c2 sibling =>
    (match info.nodekind with
      | NodeKind.StmtK => stmtPart info (codeSize c0) (codeSize c1) (codeSize c2)
      | NodeKind.ExpK => expPart info (codeSize c0) (codeSize c1)
      | _ => 0) + codeSize sibling

/-- The state `s'` is at the append position, `n` slots after `s`. -/
def Grows (n : Int) (s s' : GenState) : Prop :=
  s'.emitLoc = s'.highEmitLoc ∧ s'.emitLoc = s.emitLoc + n

/-! ## Scratch stores -/

/-- The line `l` is a store to the scratch slot at offset `d` from `mp`. -/
def ScratchStore (l : Line) (d : Int) : Prop :=
  ∃ (loc r : Int) (c : String), l = Line.instr loc (Instr.RM Opcode.ST r d mp c)

/-- No line of `new` stores to a scratch offset above `u`. -/
def StoresAtMost (u : Int) (new : List Line) : Prop :=
  ∀ l ∈ new, ∀ d : Int, ScratchStore l d → d ≤ u

/-- The instruction `ins` is no store to a scratch offset above `u`. -/
def Harmless (u : Int) (ins : Instr) : Prop :=
  ∀ (r d : Int) (c : String), ins = Instr.RM Opcode.ST r d mp c → d ≤ u

/-- From `s` to `s'` lines have only been added, none of them a store to a
scratch offset above the `tmpOffset` of `s`, and `tmpOffset` is the same. -/
def Tidy (s s' : GenState) : Prop :=
  s'.tmpOffset = s.tmpOffset ∧
  ∃ new : List Line, s'.code = new ++ s.code ∧ StoresAtMost s.tmpOffset new

/-! ## The value of an expression -/

/-- The value of `l op r`: what the operator of an operation node leaves in
the accumulator when the secondary register holds `l` and the accumulator
`r`. Division is the truncating division of the machine and has no value when
`r` is zero; a token that is no operator leaves the right value. -/
def opVal (op : TokenType) (l r : Int) : Option Int :=
  match op with
  | TokenType.PLUS => some (l + r)
  | TokenType.MINUS => some (l - r)
  | TokenType.TIMES => some (l * r)
  | TokenType.OVER => if r = 0 then none else some (Int.tdiv l r)
  | TokenType.LT => some (if l < r then 1 else 0)
  | TokenType.EQ => some (if l = r then 1 else 0)
  | TokenType.other _ => some r

/-- An expression tree: constants, identifiers and operations on expression
trees, each an expression node without sibling. -/
def PureExp : TreeNode → Prop
  | TreeNode.null => False
  | TreeNode.node info c0 c1 _ sibling =>
    info.nodekind = NodeKind.ExpK ∧ sibling = TreeNode.null ∧
    (info.kindExp = ExpKind.ConstK ∨ info.kindExp = ExpKind.IdK ∨
      (info.kindExp = ExpKind.OpK ∧ PureExp c0 ∧ PureExp c1))

/-- The value of an expression tree when the global pointer is `g` and the
data memory is `mem`; an identifier whose address is no data address has
none. -/
def expVal (env : Env) (g : Int) (mem : Int → Int) : TreeNode → Option Int
  | TreeNode.null => none
  | TreeNode.node info c0 c1 _ _ =>
    match info.kindExp with
    | ExpKind.ConstK => some info.attrVal
    | ExpKind.IdK =>
      if 0 ≤ env.st_lookup info.attrName + g ∧ env.st_lookup info.attrName + g < ADDR_SIZE then
        some (mem (env.st_lookup info.attrName + g))
      else none
    | ExpKind.OpK =>
      match expVal env g mem c0, expVal env g mem c1 with
      | some l, some r => opVal info.attrOp l r
      | _, _ => none
    | _ => none

/-- The number of scratch slots the code of an expression tree uses. -/
def tempDepth : TreeNode → Nat
  | TreeNode.null => 0
  | TreeNode.node info c0 c1 _ _ =>
    match info.kindExp with
    | ExpKind.OpK => max (tempDepth c0) (tempDepth c1 + 1)
    | _ => 0

/-- Every identifier of the expression tree has its address at most `B`. -/
def VarsBelow (env : Env) (g B : Int) : TreeNode → Prop
  | TreeNode.null => True
  | TreeNode.node info c0 c1 _ _ =>
    match info.kindExp with
    | ExpKind.IdK => env.st_lookup info.attrName + g ≤ B
    | ExpKind.OpK => VarsBelow env g B c0 ∧ VarsBelow env g B c1
    | _ => True

/-- The machine gets from `st` to `st'`, which stands at instruction `q`
with `v` in the accumulator; only the accumulator, the secondary register
and `pc` and the data cells in `(lo, hi]` may have changed. -/
structure Lands (iMem : Int → Instr) (st st' : TMState) (q v lo hi : Int) : Prop where
  reach : Reaches iMem st st'
  pcAt : st'.reg pc = q
  acIs : st'.reg ac = v
  regs : ∀ k : Int, k ≠ ac → k ≠ ac1 → k ≠ pc → st'.reg k = st.reg k
  mem : ∀ a : Int, a ≤ lo ∨ hi < a → st'.dMem a = st.dMem a
  out : st'.output = st.output
  inp : st'.input = st.input

/-- The code of the expression tree `e` computes its value: generated at the
append position and run from its first instruction, it reaches its end with
the value in the accumulator, having changed only the accumulator, the
secondary register, `pc` and the scratch slots it uses. -/
def Computes (env : Env) (iMem : Int → Instr) (B : Int) (e : TreeNode) : Prop :=
  ∀ (s : GenState) (st : TMState) (v : Int),
    PureExp e → s.emitLoc = s.highEmitLoc →
    (∀ i : Int, s.emitLoc ≤ i → i < (cGen env e s).emitLoc →
      iMem i = loadProgram (cGen env e s).code i) →
    st.reg pc = s.emitLoc → 0 ≤ s.emitLoc → (cGen env e s).emitLoc ≤ ADDR_SIZE →
    VarsBelow env (st.reg gp) B e →
    B + tempDepth e ≤ st.reg mp + s.tmpOffset → st.reg mp + s.tmpOffset < ADDR_SIZE →
    expVal env (st.reg gp) st.dMem e = some v →
    ∃ st' : TMState, Lands iMem st st' (cGen env e s).emitLoc v
      (st.reg mp + s.tmpOffset - tempDepth e) (st.reg mp + s.tmpOffset)

/-- The operation node `7 - 4 / 2`. -/
def minusSample : TreeNode :=
  opNode TokenType.MINUS (constNode 7 TreeNode.null)
    (opNode TokenType.OVER (constNode 4 TreeNode.null) (constNode 2 TreeNode.null)
      TreeNode.null) TreeNode.null

/-! ## Reserved slots -/

@[simp] theorem emitComment_tmpOffset (c : String) (s : GenState) :
    (emitComment c s).tmpOffset = s.tmpOffset := rfl

@[simp] theorem emitLine_tmpOffset (ins : Instr) (s : GenState) :
    (emitLine ins s).tmpOffset = s.tmpOffset := rfl

@[simp] theorem emitRO_tmpOffset (op : Opcode) (r a b : Int) (c : String) (s : GenState) :
    (emitRO op r a b c s).tmpOffset = s.tmpOffset := rfl

@[simp] theorem emitRM_tmpOffset (op : Opcode) (r a b : Int) (c : String) (s : GenState) :
    (emitRM op r a b c s).tmpOffset = s.tmpOffset := rfl

@[simp] theorem emitRM_Abs_tmpOffset (op : Opcode) (r a : Int) (c : String) (s : GenState) :
    (emitRM_Abs op r a c s).tmpOffset = s.tmpOffset := rfl

@[simp] theorem emitSkip_tmpOffset (n : Int) (s : GenState) :
    (emitSkip n s).2.tmpOffset = s.tmpOffset := rfl

@[simp] theorem emitBackup_tmpOffset (loc : Int) (s : GenState) :
    (emitBackup loc s).tmpOffset = s.tmpOffset := rfl

@[simp] theorem emitRestore_tmpOffset (s : GenState) :
    (emitRestore s).tmpOffset = s.tmpOffset := rfl

@[simp] theorem traceComment_tmpOffset (env : Env) (c : String) (s : GenState) :
    (traceComment env c s).tmpOffset = s.tmpOffset := by
  unfold traceComment; split <;> rfl

@[simp] theorem genOp_tmpOffset (op : TokenType) (s : GenState) :
    (genOp op s).tmpOffset = s.tmpOffset := by
  cases op <;> rfl

/-- The three procedures leave `tmpOffset` as they found it. -/
theorem tmpOffset_preserved (env : Env) (tree : TreeNode) :
    ∀ s : GenState, (cGen env tree s).tmpOffset = s.tmpOffset ∧
      (genStmt env tree s).tmpOffset = s.tmpOffset ∧
      (genExp env tree s).tmpOffset = s.tmpOffset := by
  induction tree with
  | null => intro s; simp [cGen, genStmt, genExp]
  | node info c0 c1 c2 sib ih0 ih1 ih2 ihs =>
    have hS : ∀ s : GenState,
        (genStmt env (TreeNode.node info c0 c1 c2 sib) s).tmpOffset = s.tmpOffset := by
      intro s
      rw [genStmt]
      split <;> simp [(ih0 _).1, (ih1 _).1, (ih2 _).1]
    have hE : ∀ s : GenState,
        (genExp env (TreeNode.node info c0 c1 c2 sib) s).tmpOffset = s.tmpOffset := by
      intro s
      rw [genExp]
      split <;> simp [(ih0 _).1, (ih1 _).1]
    intro s
    refine ⟨?_, hS s, hE s⟩
    rw [cGen, (ihs _).1]
    split
    · exact hS s
    · exact hE s
    · rfl

/-! ## Appending generation: frame and fill -/

@[simp] theorem instrAt_comment (c : String) (l : List Line) (i : Int) :
    instrAt (Line.comment c :: l) i = instrAt l i := rfl

@[simp] theorem instrAt_instr (loc : Int) (ins : Instr) (l : List Line) (i : Int) :
    instrAt (Line.instr loc ins :: l) i = if loc = i then some ins else instrAt l i := rfl

theorem Ext.refl {s : GenState} (hs : s.emitLoc = s.highEmitLoc) : Ext noHole s s where
  atEnd := hs
  le := le_refl _
  below := fun _ _ => rfl
  above := fun _ _ => rfl
  filled := fun _ h1 h2 _ => absurd h2 (not_lt.mpr h1)
  table := rfl
  main := rfl

theorem Ext.weaken {H H' : Int → Prop} {s s' : GenState} (h : Ext H s s')
    (hH : ∀ i, H i → H' i) : Ext H' s s' where
  atEnd := h.atEnd
  le := h.le
  below := h.below
  above := h.above
  filled := fun i h1 h2 h3 => h.filled i h1 h2 (fun hi => h3 (hH i hi))
  table := h.table
  main := h.main

theorem Ext.trans {H1 H2 : Int → Prop} {s s' s'' : GenState} (h1 : Ext H1 s s')
    (h2 : Ext H2 s' s'') : Ext (fun i => H1 i ∨ H2 i) s s'' where
  atEnd := h2.atEnd
  le := le_trans h1.le h2.le
  below := fun i hi => by
    rw [h2.below i (lt_of_lt_of_le hi h1.le), h1.below i hi]
  above := fun i hi => by
    rw [h2.above i hi, h1.above i (le_trans h2.le hi)]
  filled := fun i hlo hhi hH => by
    by_cases hi : i < s'.emitLoc
    · rw [h2.below i hi]
      exact h1.filled i hlo hi (fun h => hH (Or.inl h))
    · exact h2.filled i (not_lt.mp hi) hhi (fun h => hH (Or.inr h))
  table := by rw [h2.table, h1.table]
  main := by rw [h2.main, h1.main]

/-- Running a generator that extends without holes keeps the holes. -/
theorem Ext.gen {H : Int → Prop} {s s' : GenState} (h : Ext H s s')
    {g : GenState → GenState}
    (hg : ∀ u : GenState, u.emitLoc = u.highEmitLoc → Ext noHole u (g u)) :
    Ext H s (g s') :=
  (h.trans (hg s' h.atEnd)).weaken (fun _ hi => hi.elim id False.elim)

theorem ext_emitLine (ins : Instr) (u : GenState) (hu : u.emitLoc = u.highEmitLoc) :
    Ext noHole u (emitLine ins u) where
  atEnd := by simp [emitLine, hu]
  le := by simp [emitLine]
  below := fun i hi => by
    have : u.emitLoc ≠ i := ne_of_gt hi
    simp [emitLine, this]
  above := fun i hi => by
    have hi' : u.emitLoc + 1 ≤ i := hi
    have : u.emitLoc ≠ i := by omega
    simp [emitLine, this]
  filled := fun i h1 h2 _ => by
    have h2' : i < u.emitLoc + 1 := h2
    have : u.emitLoc = i := by omega
    simp [emitLine, this]
  table := rfl
  main := rfl

theorem ext_emitComment (c : String) (u : GenState) (hu : u.emitLoc = u.highEmitLoc) :
    Ext noHole u (emitComment c u) where
  atEnd := hu
  le := le_refl _
  below := fun _ _ => rfl
  above := fun _ _ => rfl
  filled := fun _ h1 h2 _ => absurd h2 (not_lt.mpr h1)
  table := rfl
  main := rfl

theorem ext_traceComment (env : Env) (c : String) (u : GenState)
    (hu : u.emitLoc = u.highEmitLoc) : Ext noHole u (traceComment env c u) := by
  unfold traceComment
  split
  · exact ext_emitComment c u hu
  · exact Ext.refl hu

theorem ext_setTmpOffset (v : Int) (u : GenState) (hu : u.emitLoc = u.highEmitLoc) :
    Ext noHole u { u with tmpOffset := v } where
  atEnd := hu
  le := le_refl _
  below := fun _ _ => rfl
  above := fun _ _ => rfl
  filled := fun _ h1 h2 _ => absurd h2 (not_lt.mpr h1)
  table := rfl
  main := rfl

theorem ext_emitSkip (n : Int) (hn : 0 ≤ n) (u : GenState) (hu : u.emitLoc = u.highEmitLoc) :
    Ext (fun i => u.emitLoc ≤ i ∧ i < u.emitLoc + n) u (emitSkip n u).2 where
  atEnd := by
    show u.emitLoc + n = max u.highEmitLoc (u.emitLoc + n)
    rw [← hu]; omega
  le := by show u.emitLoc ≤ u.emitLoc + n; omega
  below := fun _ _ => rfl
  above := fun _ _ => rfl
  filled := fun i h1 h2 h3 => absurd ⟨h1, h2⟩ h3
  table := rfl
  main := rfl

theorem Ext.emitLine {H : Int → Prop} {s s' : GenState} (h : Ext H s s') (ins : Instr) :
    Ext H s (CGen.emitLine ins s') :=
  h.gen (ext_emitLine ins)

theorem Ext.emitComment {H : Int → Prop} {s s' : GenState} (h : Ext H s s') (c : String) :
    Ext H s (CGen.emitComment c s') :=
  h.gen (ext_emitComment c)

theorem Ext.traceComment {H : Int → Prop} {s s' : GenState} (h : Ext H s s') (env : Env)
    (c : String) : Ext H s (CGen.traceComment env c s') :=
  h.gen (ext_traceComment env c)

theorem Ext.setTmpOffset {H : Int → Prop} {s s' : GenState} (h : Ext H s s') (v : Int) :
    Ext H s { s' with tmpOffset := v } :=
  h.gen (g := fun u => { u with tmpOffset := v }) (ext_setTmpOffset v)

/-- Reserving one slot adds it as a hole. -/
theorem Ext.skip1 {H : Int → Prop} {s s' : GenState} (h : Ext H s s') :
    Ext (fun i => H i ∨ i = s'.emitLoc) s (emitSkip 1 s').2 :=
  (h.trans (ext_emitSkip 1 (by decide) s' h.atEnd)).weaken
    (fun i hi => hi.elim Or.inl (fun hr => Or.inr (by omega)))

/-- Asking for the current position changes nothing. -/
theorem Ext.skip0 {H : Int → Prop} {s s' : GenState} (h : Ext H s s') :
    Ext H s (emitSkip 0 s').2 :=
  (h.trans (ext_emitSkip 0 (le_refl _) s' h.atEnd)).weaken
    (fun i hi => hi.elim id (fun hr => by omega))

/-- Backing up to a slot `a` of the extension, writing one instruction there
and restoring the cursor fills the hole `a` and changes nothing else. -/
theorem Ext.patch {H : Int → Prop} {s s' : GenState} (h : Ext H s s') (a : Int)
    (ha : s.emitLoc ≤ a) (ha' : a < s'.emitLoc) (ins : Instr) :
    Ext (fun i => H i ∧ i ≠ a) s (emitRestore (CGen.emitLine ins (emitBackup a s'))) where
  atEnd := rfl
  le := by
    have := h.le
    have := h.atEnd
    show s.emitLoc ≤ max s'.highEmitLoc (a + 1)
    omega
  below := fun i hi => by
    have : a ≠ i := by omega
    simp [emitRestore, CGen.emitLine, emitBackup, this, h.below i hi]
  above := fun i hi => by
    have hi' : max s'.highEmitLoc (a + 1) ≤ i := hi
    have := h.atEnd
    have : a ≠ i := by omega
    simp [emitRestore, CGen.emitLine, emitBackup, this]
    exact h.above i (by omega)
  filled := fun i h1 h2 h3 => by
    have h2' : i < max s'.highEmitLoc (a + 1) := h2
    have := h.atEnd
    by_cases hia : a = i
    · simp [emitRestore, CGen.emitLine, emitBackup, hia]
    · simp [emitRestore, CGen.emitLine, emitBackup, hia]
      exact h.filled i h1 (by omega) (fun hH => h3 ⟨hH, fun e => hia e.symm⟩)
  table := h.table
  main := h.main

/-- The cursor after a patch is where it was before. -/
theorem patch_emitLoc {H : Int → Prop} {s s' : GenState} (h : Ext H s s') (a : Int)
    (ha' : a < s'.emitLoc) (ins : Instr) :
    (emitRestore (emitLine ins (emitBackup a s'))).emitLoc = s'.emitLoc := by
  have := h.atEnd
  show max s'.highEmitLoc (a + 1) = s'.emitLoc
  omega

theorem ext_genOp (op : TokenType) (u : GenState) (hu : u.emitLoc = u.highEmitLoc) :
    Ext noHole u (genOp op u) := by
  have h0 := Ext.refl hu
  cases op <;> unfold genOp
  · exact h0.emitLine _
  · exact h0.emitLine _
  · exact h0.emitLine _
  · exact h0.emitLine _
  · exact ((((h0.emitLine _).emitLine _).emitLine _).emitLine _).emitLine _
  · exact ((((h0.emitLine _).emitLine _).emitLine _).emitLine _).emitLine _
  · exact h0.emitComment _

/-- The if case of `genStmt` in terms of its stages. -/
theorem genStmt_ifK (env : Env) (info : NodeInfo) (p1 p2 p3 sib : TreeNode) (s : GenState)
    (hk : info.kindStmt = StmtKind.IfK) :
    genStmt env (TreeNode.node info p1 p2 p3 sib) s =
      traceComment env "<- if"
        (emitRestore (emitRM_Abs Opcode.LDA pc (ifAfterElse env p1 p2 p3 s).emitLoc "jmp to end"
          (emitBackup (ifSlot2 env p1 p2 s) (emitSkip 0 (ifAfterElse env p1 p2 p3 s)).2))) := by
  rw [genStmt]
  simp only [hk]
  rfl

@[simp] theorem emitSkip_emitLoc (n : Int) (s : GenState) :
    (emitSkip n s).2.emitLoc = s.emitLoc + n := rfl

@[simp] theorem emitSkip_fst (n : Int) (s : GenState) : (emitSkip n s).1 = s.emitLoc := rfl

@[simp] theorem emitComment_emitLoc (c : String) (s : GenState) :
    (emitComment c s).emitLoc = s.emitLoc := rfl

@[simp] theorem traceComment_emitLoc (env : Env) (c : String) (s : GenState) :
    (traceComment env c s).emitLoc = s.emitLoc := by
  unfold traceComment; split <;> rfl

/-- The stages of an if statement generated at the append position: the
state after the then-part extends `s` with the first slot as its only hole,
and the slots are in order. -/
theorem if_stages (env : Env) (p1 p2 p3 : TreeNode) (s : GenState)
    (hs : s.emitLoc = s.highEmitLoc)
    (g1 : ∀ u : GenState, u.emitLoc = u.highEmitLoc → Ext noHole u (cGen env p1 u))
    (g2 : ∀ u : GenState, u.emitLoc = u.highEmitLoc → Ext noHole u (cGen env p2 u))
    (g3 : ∀ u : GenState, u.emitLoc = u.highEmitLoc → Ext noHole u (cGen env p3 u)) :
    s.emitLoc ≤ ifSlot1 env p1 s ∧ ifSlot1 env p1 s < ifSlot2 env p1 p2 s ∧
    (ifBeforeElse env p1 p2 s).emitLoc = ifSlot2 env p1 p2 s + 1 ∧
    ifSlot2 env p1 p2 s < (ifAfterElse env p1 p2 p3 s).emitLoc ∧
    Ext (fun i => i = ifSlot2 env p1 p2 s) s (ifBeforeElse env p1 p2 s) ∧
    Ext noHole (ifBeforeElse env p1 p2 s) (ifAfterElse env p1 p2 p3 s) := by
  have h0 := Ext.refl hs
  have h1 : Ext noHole s (cGen env p1 (traceComment env "-> if" s)) :=
    (h0.traceComment env "-> if").gen g1
  have h1s := (h1.skip1).emitComment "if: jump to else belongs here"
  have k2 : Ext noHole _ (ifAfterThen env p1 p2 s) := g2 _ h1s.atEnd
  have h2 : Ext _ s (ifAfterThen env p1 p2 s) := h1s.gen g2
  have h2s := ((h2.skip1).emitComment "if: jump to end belongs here").skip0
  have l12 : ifSlot1 env p1 s < ifSlot2 env p1 p2 s := by
    have := k2.le
    simp only [emitComment_emitLoc, emitSkip_emitLoc] at this
    unfold ifSlot1 ifSlot2
    omega
  have hlt : ifSlot1 env p1 s <
      (emitSkip 0 (emitComment "if: jump to end belongs here"
        (emitSkip 1 (ifAfterThen env p1 p2 s)).2)).2.emitLoc := by
    simp only [emitComment_emitLoc, emitSkip_emitLoc]
    unfold ifSlot2 at l12
    omega
  have h3 := h2s.patch (ifSlot1 env p1 s) h1.le hlt
    (Instr.RM Opcode.JEQ ac
      ((emitSkip 0 (emitComment "if: jump to end belongs here"
        (emitSkip 1 (ifAfterThen env p1 p2 s)).2)).1 - (ifSlot1 env p1 s + 1)) pc
      "if: jmp to else")
  have e3 := patch_emitLoc h2s (ifSlot1 env p1 s) hlt
    (Instr.RM Opcode.JEQ ac
      ((emitSkip 0 (emitComment "if: jump to end belongs here"
        (emitSkip 1 (ifAfterThen env p1 p2 s)).2)).1 - (ifSlot1 env p1 s + 1)) pc
      "if: jmp to else")
  have h3' : Ext _ s (ifBeforeElse env p1 p2 s) := h3
  have e3' : (ifBeforeElse env p1 p2 s).emitLoc = ifSlot2 env p1 p2 s + 1 := by
    have : (ifBeforeElse env p1 p2 s).emitLoc = _ := e3
    rw [this]
    simp only [emitComment_emitLoc, emitSkip_emitLoc]
    unfold ifSlot2
    omega
  have k3 : Ext noHole (ifBeforeElse env p1 p2 s) (ifAfterElse env p1 p2 p3 s) :=
    g3 _ h3'.atEnd
  refine ⟨h1.le, l12, e3', ?_, ?_, k3⟩
  · have := k3.le
    omega
  · refine h3'.weaken ?_
    intro i hi
    simp only [noHole] at hi
    unfold ifSlot1 at hi
    unfold ifSlot2
    rcases hi with ⟨(⟨h | h⟩ | h), hne⟩
    · exact h.elim
    · exact absurd h hne
    · exact h

/-- An if statement generated at the append position extends the state
without leaving a hole. -/
theorem ext_ifK (env : Env) (info : NodeInfo) (p1 p2 p3 sib : TreeNode) (s : GenState)
    (hk : info.kindStmt = StmtKind.IfK) (hs : s.emitLoc = s.highEmitLoc)
    (g1 : ∀ u : GenState, u.emitLoc = u.highEmitLoc → Ext noHole u (cGen env p1 u))
    (g2 : ∀ u : GenState, u.emitLoc = u.highEmitLoc → Ext noHole u (cGen env p2 u))
    (g3 : ∀ u : GenState, u.emitLoc = u.highEmitLoc → Ext noHole u (cGen env p3 u)) :
    Ext noHole s (genStmt env (TreeNode.node info p1 p2 p3 sib) s) := by
  obtain ⟨l1, _, _, l3, hb, k3⟩ := if_stages env p1 p2 p3 s hs g1 g2 g3
  have h4 := ((hb.trans k3).skip0).patch (ifSlot2 env p1 p2 s) (by omega)
    (by simp only [emitSkip_emitLoc]; omega)
    (Instr.RM Opcode.LDA pc
      ((ifAfterElse env p1 p2 p3 s).emitLoc - (ifSlot2 env p1 p2 s + 1)) pc "jmp to end")
  rw [genStmt_ifK env info p1 p2 p3 sib s hk]
  refine ((h4.traceComment env "<- if")).weaken ?_
  intro i hi
  simp only [noHole] at hi
  rcases hi with ⟨(h | h), hne⟩
  · exact absurd h hne
  · exact h.elim

/-- Generation at the append position extends the state without leaving a
hole: nothing before the cursor is touched, every slot from the cursor to the
new append position is written, and the cursor ends at the append position. -/
theorem gen_ext (env : Env) (tree : TreeNode) :
    ∀ s : GenState, s.emitLoc = s.highEmitLoc →
      Ext noHole s (cGen env tree s) ∧ Ext noHole s (genStmt env tree s) ∧
      Ext noHole s (genExp env tree s) := by
  induction tree with
  | null =>
    intro s hs
    simp only [cGen, genStmt, genExp]
    exact ⟨Ext.refl hs, Ext.refl hs, Ext.refl hs⟩
  | node info c0 c1 c2 sib ih0 ih1 ih2 ihs =>
    have g0 : ∀ u : GenState, u.emitLoc = u.highEmitLoc → Ext noHole u (cGen env c0 u) :=
      fun u hu => (ih0 u hu).1
    have g1 : ∀ u : GenState, u.emitLoc = u.highEmitLoc → Ext noHole u (cGen env c1 u) :=
      fun u hu => (ih1 u hu).1
    have g2 : ∀ u : GenState, u.emitLoc = u.highEmitLoc → Ext noHole u (cGen env c2 u) :=
      fun u hu => (ih2 u hu).1
    have hS : ∀ s : GenState, s.emitLoc = s.highEmitLoc →
        Ext noHole s (genStmt env (TreeNode.node info c0 c1 c2 sib) s) := by
      intro s hs
      have h0 := Ext.refl hs
      by_cases hk : info.kindStmt = StmtKind.IfK
      · exact ext_ifK env info c0 c1 c2 sib s hk hs g0 g1 g2
      · rw [genStmt]
        split
        · exact absurd (by assumption) hk
        · exact ((((((h0.traceComment env _).skip0).emitComment _).gen g0).gen g1).emitLine
            _).traceComment env _
        · exact (((h0.traceComment env _).gen g0).emitLine _).traceComment env _
        · exact (h0.emitLine _).emitLine _
        · exact (h0.gen g0).emitLine _
        · exact h0
    have hE : ∀ s : GenState, s.emitLoc = s.highEmitLoc →
        Ext noHole s (genExp env (TreeNode.node info c0 c1 c2 sib) s) := by
      intro s hs
      have h0 := Ext.refl hs
      rw [genExp]
      split
      · exact ((h0.traceComment env _).emitLine _).traceComment env _
      · exact ((h0.traceComment env _).emitLine _).traceComment env _
      · exact (((((((h0.traceComment env _).gen g0).setTmpOffset _).emitLine _).gen g1).setTmpOffset
          _).emitLine _ |>.gen (ext_genOp info.attrOp)).traceComment env _
      · exact h0
    intro s hs
    refine ⟨?_, hS s hs, hE s hs⟩
    rw [cGen]
    have hsib : ∀ u : GenState, u.emitLoc = u.highEmitLoc → Ext noHole u (cGen env sib u) :=
      fun u hu => (ihs u hu).1
    split
    · exact (hS s hs).gen hsib
    · exact (hE s hs).gen hsib
    · exact (Ext.refl hs).gen hsib

/-- C1: balance of the temporary offset. For every syntax tree and every
starting state, so every starting value of `tmpOffset`, the value of
`tmpOffset` after `cGen` on the tree equals its value before the call, and so
does its value after `genExp` on any node. -/
theorem tmpOffset_balance (env : Env) (tree : TreeNode) (s : GenState) :
    (cGen env tree s).tmpOffset = s.tmpOffset ∧
      (genExp env tree s).tmpOffset = s.tmpOffset :=
  ⟨(tmpOffset_preserved env tree s).1, (tmpOffset_preserved env tree s).2.2⟩

/-! ## Conditionals and loops -/

theorem traceComment_instrAt (env : Env) (c : String) (s : GenState) (i : Int) :
    instrAt (traceComment env c s).code i = instrAt s.code i := by
  unfold traceComment; split <;> rfl

theorem traceComment_lastInstr (env : Env) (c : String) (s : GenState) :
    lastInstr (traceComment env c s).code = lastInstr s.code := by
  unfold traceComment; split <;> rfl

/-- `cGen` at the append position extends the state without a hole. -/
theorem cGen_ext (env : Env) (tree : TreeNode) (u : GenState)
    (hu : u.emitLoc = u.highEmitLoc) : Ext noHole u (cGen env tree u) :=
  (gen_ext env tree u hu).1

/-- The lines written between the then-part and the else-part of an if
statement: the comment of the second slot and the patch of the first. -/
theorem ifBeforeElse_code (env : Env) (p1 p2 : TreeNode) (s : GenState) :
    (ifBeforeElse env p1 p2 s).code =
      Line.instr (ifSlot1 env p1 s)
        (Instr.RM Opcode.JEQ ac (ifSlot2 env p1 p2 s + 1 - (ifSlot1 env p1 s + 1)) pc
          "if: jmp to else") ::
      Line.comment "if: jump to end belongs here" :: (ifAfterThen env p1 p2 s).code := rfl

/-- One step of the machine at a `JEQ r,d(pc)` stored at `loc`: control goes
to `d + loc + 1` when register `r` holds 0 and to `loc + 1` otherwise. -/
theorem tmStep_JEQ (iMem : Int → Instr) (st : TMState) (loc r d : Int) (c : String)
    (hpc : st.reg pc = loc) (h0 : 0 ≤ loc) (h1 : loc < ADDR_SIZE) (hr : r ≠ pc)
    (hi : iMem loc = Instr.RM Opcode.JEQ r d pc c) :
    (tmStep iMem st).1 = StepResult.okay ∧
      (tmStep iMem st).2.reg pc = (if st.reg r = 0 then d + loc + 1 else loc + 1) := by
  have hno : ¬ (loc < 0 ∨ ADDR_SIZE ≤ loc) := by omega
  unfold tmStep
  simp only [hpc, hno, if_false, hi]
  by_cases hz : st.reg r = 0
  · simp [setCell, hr, hz]; omega
  · simp [setCell, hr, hz]

/-- C4: for every `RepeatK` node the last instruction `genStmt` emits for
the node is a `JEQ` on the accumulator, relative to `pc`, whose absolute
target (displacement + its index + 1) is the emit position on entry to the
node, before any body instruction is generated; generated at the append
position that entry is not after the jump, and executing the jump sets `pc`
to the entry when the accumulator holds 0 and to the next instruction
otherwise. -/
theorem repeat_jumps_back_to_entry (env : Env) (info : NodeInfo)
    (p1 p2 p3 sib : TreeNode) (s : GenState) (hk : info.kindStmt = StmtKind.RepeatK) :
    ∃ loc d : Int,
      lastInstr (genStmt env (TreeNode.node info p1 p2 p3 sib) s).code =
        some (loc, Instr.RM Opcode.JEQ ac d pc "repeat: jmp back to body") ∧
      d + loc + 1 = s.emitLoc ∧
      (s.emitLoc = s.highEmitLoc → s.emitLoc ≤ loc) ∧
      ∀ (iMem : Int → Instr) (st : TMState), st.reg pc = loc → 0 ≤ loc → loc < ADDR_SIZE →
        iMem loc = Instr.RM Opcode.JEQ ac d pc "repeat: jmp back to body" →
        (tmStep iMem st).1 = StepResult.okay ∧
        (tmStep iMem st).2.reg pc = (if st.reg ac = 0 then s.emitLoc else loc + 1) := by
  have hgen : genStmt env (TreeNode.node info p1 p2 p3 sib) s =
      traceComment env "<- repeat"
        (emitRM_Abs Opcode.JEQ ac s.emitLoc "repeat: jmp back to body"
          (cGen env p2 (cGen env p1 (emitComment "repeat: jump after body comes back here"
            (emitSkip 0 (traceComment env "-> repeat" s)).2)))) := by
    rw [genStmt]
    simp only [hk, emitSkip_fst, traceComment_emitLoc]
  refine ⟨(cGen env p2 (cGen env p1 (emitComment "repeat: jump after body comes back here"
      (emitSkip 0 (traceComment env "-> repeat" s)).2))).emitLoc,
    s.emitLoc - ((cGen env p2 (cGen env p1 (emitComment "repeat: jump after body comes back here"
      (emitSkip 0 (traceComment env "-> repeat" s)).2))).emitLoc + 1), ?_, ?_, ?_, ?_⟩
  · rw [hgen, traceComment_lastInstr]
    rfl
  · omega
  · intro hs
    have h := ((((Ext.refl hs).traceComment env "-> repeat").skip0).emitComment
      "repeat: jump after body comes back here").gen (cGen_ext env p1) |>.gen (cGen_ext env p2)
    exact h.le
  · intro iMem st hpc h0 h1 hi
    have h := tmStep_JEQ iMem st _ ac _ _ hpc h0 h1 (by decide) hi
    refine ⟨h.1, ?_⟩
    rw [h.2]
    split
    · omega
    · rfl

/-- Witness of C4 on `repeat write 1 until 0`, generated from the initial
state. -/
theorem repeat_jumps_back_to_entry_witness :
    (mkInfo NodeKind.StmtK StmtKind.RepeatK (ExpKind.other 0)).kindStmt = StmtKind.RepeatK ∧
    ∃ loc d : Int,
      lastInstr (genStmt env0 (repeatNode (writeNode (constNode 1 TreeNode.null) TreeNode.null)
          (constNode 0 TreeNode.null) TreeNode.null) initState).code =
        some (loc, Instr.RM Opcode.JEQ ac d pc "repeat: jmp back to body") ∧
      d + loc + 1 = initState.emitLoc ∧
      (initState.emitLoc = initState.highEmitLoc → initState.emitLoc ≤ loc) ∧
      ∀ (iMem : Int → Instr) (st : TMState), st.reg pc = loc → 0 ≤ loc → loc < ADDR_SIZE →
        iMem loc = Instr.RM Opcode.JEQ ac d pc "repeat: jmp back to body" →
        (tmStep iMem st).1 = StepResult.okay ∧
        (tmStep iMem st).2.reg pc = (if st.reg ac = 0 then initState.emitLoc else loc + 1) :=
  ⟨rfl, repeat_jumps_back_to_entry env0 _ _ _ _ _ initState rfl⟩

/-! ## The declaration count -/

theorem wrapInt_wrapInt_add (a b : Int) : wrapInt (wrapInt a + b) = wrapInt (a + b) := by
  unfold wrapInt
  omega

theorem wrapInt_of_range (x : Int) (h0 : -2147483648 ≤ x) (h1 : x < 2147483648) :
    wrapInt x = x := by
  unfold wrapInt
  omega

theorem wrapInt_range (x : Int) : -2147483648 ≤ wrapInt x ∧ wrapInt x < 2147483648 := by
  unfold wrapInt
  omega

/-- The count handed to `emitSkip` is `2 * size + 1` reduced to an `int`. -/
theorem tableSlots_eq (size : Int) : tableSlots size = wrapInt (2 * size + 1) := by
  unfold tableSlots
  rw [wrapInt_wrapInt_add]
  congr 1
  ring

/-- Without overflow the count handed to `emitSkip` is `2 * size + 1`. -/
theorem tableSlots_of_range (size : Int) (h0 : 0 ≤ size) (h1 : size < 1073741824) :
    tableSlots size = 2 * size + 1 := by
  rw [tableSlots_eq, wrapInt_of_range _ (by omega) (by omega)]

theorem getSizeOfGlobalLoop_eq (tree : TreeNode) :
    ∀ result : Int, ArraysHaveLength tree →
      getSizeOfGlobalLoop tree (wrapInt result) =
        some (wrapInt (result + declCount tree)) := by
  induction tree with
  | null => intro result _; simp [getSizeOfGlobalLoop, declCount]
  | node info c0 c1 c2 sib _ _ _ ihs =>
    intro result hw
    obtain ⟨hc, hsib⟩ := hw
    by_cases ha : isArrayDecl info
    · cases c0 with
      | null => exact absurd rfl (hc ha)
      | node cinfo d0 d1 d2 dsib =>
        have ha' := ha
        unfold isArrayDecl at ha'
        simp only [getSizeOfGlobalLoop, ha', and_self, if_true, declCount, ha, declaredLength]
        rw [wrapInt_wrapInt_add, ihs _ hsib]
        congr 2
        omega
    · have ha' := ha
      unfold isArrayDecl at ha'
      simp only [getSizeOfGlobalLoop, ha', if_false, declCount, ha]
      rw [wrapInt_wrapInt_add, ihs _ hsib]
      congr 2
      omega

/-- The value `getSizeOfGlobal` returns is the declaration count reduced to
an `int`. -/
theorem getSizeOfGlobal_eq (tree : TreeNode) (hw : ArraysHaveLength tree) :
    getSizeOfGlobal tree = some (wrapInt (declCount tree)) := by
  unfold getSizeOfGlobal
  have h := getSizeOfGlobalLoop_eq tree 0 hw
  rw [show wrapInt 0 = 0 from by decide] at h
  rw [h]
  simp

/-- The state after the prelude of `codeGen` from a fresh state. -/
theorem codeGenPrelude_fresh (codefile : String) (size : Int) (s : GenState) (hf : Fresh s) :
    (codeGenPrelude codefile size s).forFunctionTable = 2 ∧
    (codeGenPrelude codefile size s).emitLoc = 2 + tableSlots size ∧
    (codeGenPrelude codefile size s).highEmitLoc = max 2 (2 + tableSlots size) ∧
    (codeGenPrelude codefile size s).code =
      [Line.comment "End of standard prelude.",
       Line.instr 1 (Instr.RM Opcode.ST ac 0 ac "clear location 0"),
       Line.instr 0 (Instr.RM Opcode.LD mp 0 ac "load maxaddress from location 0"),
       Line.comment "Standard prelude:",
       Line.comment ("File: " ++ codefile),
       Line.comment "TINY Compilation to TM Code"] ∧
    (codeGenPrelude codefile size s).locMain = s.locMain ∧
    (codeGenPrelude codefile size s).tmpOffset = s.tmpOffset := by
  obtain ⟨h1, h2, h3⟩ := hf
  simp [codeGenPrelude, emitComment, emitRM, emitLine, emitSkip, h1, h2, h3]

/-- Counterexample to C5. For one array of 2^30 elements `getSizeOfGlobal`
returns `D = 2^30`, but `D*2 + 1` does not fit an `int`: `emitSkip` gets
-2147483647, the cursor goes back from 2 and no slot is reserved after the
two prelude instructions. For an array of 2^31 - 1 elements followed by a
write the sum is 2^31 and `getSizeOfGlobal` returns -2^31. For a declared
length of -2 the count is -2 and the cursor goes back to -1. -/
theorem function_table_size_wraps :
    (ArraysHaveLength hugeArray ∧ declCount hugeArray = 1073741824 ∧
      getSizeOfGlobal hugeArray = some 1073741824 ∧
      codeGen env0 hugeArray "out.tm" initState =
        some (codeGenFinish (cGen env0 hugeArray
          (codeGenPrelude "out.tm" 1073741824 initState))) ∧
      (codeGenPrelude "out.tm" 1073741824 initState).emitLoc = 2 + (-2147483647) ∧
      (codeGenPrelude "out.tm" 1073741824 initState).highEmitLoc = 2) ∧
    (ArraysHaveLength wideDecls ∧ declCount wideDecls = 2147483648 ∧
      getSizeOfGlobal wideDecls = some (-2147483648)) ∧
    (ArraysHaveLength negArray ∧ declCount negArray = -2 ∧
      getSizeOfGlobal negArray = some (-2) ∧
      (codeGenPrelude "out.tm" (-2) initState).emitLoc = -1) := by
  have h1 : ArraysHaveLength hugeArray := by
    simp [hugeArray, arrayNode, constNode, mkInfo, ArraysHaveLength]
  have h2 : ArraysHaveLength wideDecls := by
    simp [wideDecls, arrayNode, writeNode, constNode, mkInfo, ArraysHaveLength]
  have h3 : ArraysHaveLength negArray := by
    simp [negArray, arrayNode, constNode, mkInfo, ArraysHaveLength]
  have g1 : getSizeOfGlobal hugeArray = some 1073741824 := by decide
  refine ⟨⟨h1, by decide, g1, ?_, by decide, by decide⟩, ⟨h2, by decide, by decide⟩,
    ⟨h3, by decide, by decide, by decide⟩⟩
  simp [codeGen, g1]

/-- C5, as amended: for every top-level sibling list whose array
declarations have their length child and whose declaration count `D`, the
sum over the list of the declared length for an array declaration and of 1
for every other node, satisfies `0 <= D < 2^30`, `getSizeOfGlobal` returns
`D` and `codeGen` reserves exactly `2 * D + 1` instruction slots directly
after the two prelude instructions and before any body code: when the
traversal starts the function table begins at index 2, the cursor is at
`2 + (2 * D + 1)`, which is the append position, and the only instructions
written are the two of the prelude, at 0 and 1. -/
theorem function_table_size (env : Env) (tree : TreeNode) (codefile : String)
    (s : GenState) (hw : ArraysHaveLength tree) (hf : Fresh s)
    (h0 : 0 ≤ declCount tree) (h1 : declCount tree < 1073741824) :
    getSizeOfGlobal tree = some (declCount tree) ∧
    codeGen env tree codefile s =
      some (codeGenFinish (cGen env tree (codeGenPrelude codefile (declCount tree) s))) ∧
    (codeGenPrelude codefile (declCount tree) s).forFunctionTable = 2 ∧
    (codeGenPrelude codefile (declCount tree) s).emitLoc = 2 + (2 * declCount tree + 1) ∧
    (codeGenPrelude codefile (declCount tree) s).highEmitLoc = 2 + (2 * declCount tree + 1) ∧
    instrLines (codeGenPrelude codefile (declCount tree) s).code =
      [(1, Instr.RM Opcode.ST ac 0 ac "clear location 0"),
       (0, Instr.RM Opcode.LD mp 0 ac "load maxaddress from location 0")] := by
  have hg : getSizeOfGlobal tree = some (declCount tree) := by
    rw [getSizeOfGlobal_eq tree hw, wrapInt_of_range _ (by omega) (by omega)]
  have ht := tableSlots_of_range (declCount tree) h0 h1
  obtain ⟨q1, q2, q3, q4, _⟩ := codeGenPrelude_fresh codefile (declCount tree) s hf
  refine ⟨hg, ?_, q1, ?_, ?_, ?_⟩
  · simp [codeGen, hg]
  · rw [q2, ht]
  · rw [q3, ht]; omega
  · rw [q4]; rfl

/-- Witness of the amended C5 on an array of length 3 followed by a write:
`D = 4`, and 9 slots are reserved. -/
theorem function_table_size_witness :
    ArraysHaveLength declSample ∧ Fresh initState ∧ declCount declSample = 4 ∧
    getSizeOfGlobal declSample = some (declCount declSample) ∧
    codeGen env0 declSample "out.tm" initState =
      some (codeGenFinish (cGen env0 declSample
        (codeGenPrelude "out.tm" (declCount declSample) initState))) ∧
    (codeGenPrelude "out.tm" (declCount declSample) initState).forFunctionTable = 2 ∧
    (codeGenPrelude "out.tm" (declCount declSample) initState).emitLoc =
      2 + (2 * declCount declSample + 1) ∧
    (codeGenPrelude "out.tm" (declCount declSample) initState).highEmitLoc =
      2 + (2 * declCount declSample + 1) ∧
    instrLines (codeGenPrelude "out.tm" (declCount declSample) initState).code =
      [(1, Instr.RM Opcode.ST ac 0 ac "clear location 0"),
       (0, Instr.RM Opcode.LD mp 0 ac "load maxaddress from location 0")] :=
  have hw : ArraysHaveLength declSample := by
    simp [declSample, arrayNode, writeNode, constNode, mkInfo, ArraysHaveLength]
  have hf : Fresh initState := ⟨rfl, rfl, rfl⟩
  ⟨hw, hf, by decide,
    function_table_size env0 declSample "out.tm" initState hw hf (by decide) (by decide)⟩

/-! ## Properties every step of the generator keeps -/

/-- A property of the emitter state that emitting a line or a comment,
reserving slots, changing `tmpOffset` and patching a slot saved earlier all
keep is kept by the three procedures of the traversal. -/
theorem gen_preserves (env : Env) (P : GenState → Prop)
    (hLine : ∀ (ins : Instr) (s : GenState), P s → P (emitLine ins s))
    (hComment : ∀ (c : String) (s : GenState), P s → P (emitComment c s))
    (hSkip : ∀ (k : Int) (s : GenState), 0 ≤ k → P s → P (emitSkip k s).2)
    (hPatch : ∀ (x s : GenState) (ins : Instr), P x → P s →
      P (emitRestore (emitLine ins (emitBackup x.emitLoc s))))
    (hTmp : ∀ (v : Int) (s : GenState), P s → P { s with tmpOffset := v })
    (tree : TreeNode) :
    ∀ s : GenState, P s →
      P (cGen env tree s) ∧ P (genStmt env tree s) ∧ P (genExp env tree s) := by
  have hT : ∀ (c : String) (s : GenState), P s → P (traceComment env c s) := by
    intro c s h
    unfold traceComment
    split
    · exact hComment c s h
    · exact h
  have hOp : ∀ (op : TokenType) (s : GenState), P s → P (genOp op s) := by
    intro op s h
    cases op <;> unfold genOp
    · exact hLine _ _ h
    · exact hLine _ _ h
    · exact hLine _ _ h
    · exact hLine _ _ h
    · exact hLine _ _ (hLine _ _ (hLine _ _ (hLine _ _ (hLine _ _ h))))
    · exact hLine _ _ (hLine _ _ (hLine _ _ (hLine _ _ (hLine _ _ h))))
    · exact hComment _ _ h
  induction tree with
  | null =>
    intro s hs
    simp only [cGen, genStmt, genExp]
    exact ⟨hs, hs, hs⟩
  | node info c0 c1 c2 sib ih0 ih1 ih2 ihs =>
    have g0 : ∀ u : GenState, P u → P (cGen env c0 u) := fun u hu => (ih0 u hu).1
    have g1 : ∀ u : GenState, P u → P (cGen env c1 u) := fun u hu => (ih1 u hu).1
    have g2 : ∀ u : GenState, P u → P (cGen env c2 u) := fun u hu => (ih2 u hu).1
    have hS : ∀ s : GenState, P s → P (genStmt env (TreeNode.node info c0 c1 c2 sib) s) := by
      intro s hs
      by_cases hk : info.kindStmt = StmtKind.IfK
      · have a1 : P (cGen env c0 (traceComment env "-> if" s)) := g0 _ (hT _ _ hs)
        have a2 : P (ifAfterThen env c0 c1 s) :=
          g1 _ (hComment _ _ (hSkip 1 _ (by decide) a1))
        have a3 : P (ifBeforeElse env c0 c1 s) :=
          hPatch (cGen env c0 (traceComment env "-> if" s)) _
            (Instr.RM Opcode.JEQ ac _ pc "if: jmp to else") a1
            (hSkip 0 _ (le_refl _) (hComment "if: jump to end belongs here" _
              (hSkip 1 _ (by decide) a2)))
        have a4 : P (ifAfterElse env c0 c1 c2 s) := g2 _ a3
        rw [genStmt_ifK env info c0 c1 c2 sib s hk]
        exact hT _ _ (hPatch (ifAfterThen env c0 c1 s) _
          (Instr.RM Opcode.LDA pc _ pc "jmp to end") a2 (hSkip 0 _ (le_refl _) a4))
      · rw [genStmt]
        split
        · exact absurd (by assumption) hk
        · exact hT _ _ (hLine _ _ (g1 _ (g0 _ (hComment _ _ (hSkip 0 _ (le_refl _)
            (hT _ _ hs))))))
        · exact hT _ _ (hLine _ _ (g0 _ (hT _ _ hs)))
        · exact hLine _ _ (hLine _ _ hs)
        · exact hLine _ _ (g0 _ hs)
        · exact hs
    have hE : ∀ s : GenState, P s → P (genExp env (TreeNode.node info c0 c1 c2 sib) s) := by
      intro s hs
      rw [genExp]
      split
      · exact hT _ _ (hLine _ _ (hT _ _ hs))
      · exact hT _ _ (hLine _ _ (hT _ _ hs))
      · exact hT _ _ (hOp _ _ (hLine _ _ (hTmp _ _ (g1 _ (hLine _ _ (hTmp _ _
          (g0 _ (hT _ _ hs))))))))
      · exact hs
    intro s hs
    refine ⟨?_, hS s hs, hE s hs⟩
    rw [cGen]
    split
    · exact (ihs _ (hS s hs)).1
    · exact (ihs _ (hE s hs)).1
    · exact (ihs _ hs).1

/-- The traversal keeps the stream below the append position. -/
theorem cGen_capped (env : Env) (tree : TreeNode) (s : GenState) (h : Capped s) :
    Capped (cGen env tree s) := by
  refine (gen_preserves env Capped ?_ ?_ ?_ ?_ ?_ tree s h).1
  · intro ins s hs i hi
    have hi' : max s.highEmitLoc (s.emitLoc + 1) ≤ i := hi
    have hne : ¬ s.emitLoc = i := by omega
    show instrAt (Line.instr s.emitLoc ins :: s.code) i = none
    rw [instrAt_instr, if_neg hne]
    exact hs i (by omega)
  · intro c s hs i hi
    exact hs i hi
  · intro k s _ hs i hi
    have hi' : max s.highEmitLoc (s.emitLoc + k) ≤ i := hi
    exact hs i (by omega)
  · intro x s ins _ hs i hi
    have hi' : max s.highEmitLoc (x.emitLoc + 1) ≤ i := hi
    have hne : ¬ x.emitLoc = i := by omega
    show instrAt (Line.instr x.emitLoc ins :: s.code) i = none
    rw [instrAt_instr, if_neg hne]
    exact hs i (by omega)
  · intro v s hs i hi
    exact hs i hi

/-! ## The function table and the jump to main -/

@[simp] theorem traceComment_forFunctionTable (env : Env) (c : String) (s : GenState) :
    (traceComment env c s).forFunctionTable = s.forFunctionTable := by
  unfold traceComment; split <;> rfl

@[simp] theorem traceComment_locMain (env : Env) (c : String) (s : GenState) :
    (traceComment env c s).locMain = s.locMain := by
  unfold traceComment; split <;> rfl

@[simp] theorem genOp_forFunctionTable (op : TokenType) (s : GenState) :
    (genOp op s).forFunctionTable = s.forFunctionTable := by
  cases op <;> rfl

@[simp] theorem genOp_locMain (op : TokenType) (s : GenState) :
    (genOp op s).locMain = s.locMain := by
  cases op <;> rfl

/-- The three procedures never move the function-table cursor and never
assign `locMain`. -/
theorem table_main_preserved (env : Env) (tree : TreeNode) :
    ∀ s : GenState,
      ((cGen env tree s).forFunctionTable = s.forFunctionTable ∧
        (cGen env tree s).locMain = s.locMain) ∧
      ((genStmt env tree s).forFunctionTable = s.forFunctionTable ∧
        (genStmt env tree s).locMain = s.locMain) ∧
      ((genExp env tree s).forFunctionTable = s.forFunctionTable ∧
        (genExp env tree s).locMain = s.locMain) := by
  induction tree with
  | null => intro s; simp [cGen, genStmt, genExp]
  | node info c0 c1 c2 sib ih0 ih1 ih2 ihs =>
    have hS : ∀ s : GenState,
        (genStmt env (TreeNode.node info c0 c1 c2 sib) s).forFunctionTable =
            s.forFunctionTable ∧
          (genStmt env (TreeNode.node info c0 c1 c2 sib) s).locMain = s.locMain := by
      intro s
      rw [genStmt]
      split <;>
        simp [(ih0 _).1, (ih1 _).1, (ih2 _).1, emitRestore, emitRM_Abs, emitRM, emitRO,
          emitLine, emitBackup, emitSkip, emitComment]
    have hE : ∀ s : GenState,
        (genExp env (TreeNode.node info c0 c1 c2 sib) s).forFunctionTable =
            s.forFunctionTable ∧
          (genExp env (TreeNode.node info c0 c1 c2 sib) s).locMain = s.locMain := by
      intro s
      rw [genExp]
      split <;> simp [(ih0 _).1, (ih1 _).1, emitRM, emitLine]
    intro s
    refine ⟨?_, hS s, hE s⟩
    rw [cGen, (ihs _).1.1, (ihs _).1.2]
    split
    · exact hS s
    · exact hE s
    · exact ⟨rfl, rfl⟩

/-- The stream `codeGen` produces for `write 1` without tracing, from the
initial state. -/
theorem codeGen_progWrite :
    codeGen env0 progWrite "out.tm" initState =
      some
        { emitLoc := 8, highEmitLoc := 8, tmpOffset := 0, forFunctionTable := 2, locMain := 0,
          code :=
            [Line.instr 7 (Instr.RO Opcode.HALT 0 0 0 "done"),
             Line.comment "End of execution.",
             Line.instr 2 (Instr.RM Opcode.LDC pc 0 0 "jump to main"),
             Line.instr 6 (Instr.RO Opcode.OUT ac 0 0 "write ac"),
             Line.instr 5 (Instr.RM Opcode.LDC ac 1 0 "load const"),
             Line.comment "End of standard prelude.",
             Line.instr 1 (Instr.RM Opcode.ST ac 0 ac "clear location 0"),
             Line.instr 0 (Instr.RM Opcode.LD mp 0 ac "load maxaddress from location 0"),
             Line.comment "Standard prelude:",
             Line.comment "File: out.tm",
             Line.comment "TINY Compilation to TM Code"] } := by
  simp [codeGen, getSizeOfGlobal, getSizeOfGlobalLoop, progWrite, writeNode, constNode, mkInfo,
    codeGenPrelude, tableSlots, wrapInt, codeGenFinish, cGen, genStmt, genExp, emitComment, emitRM,
    emitRO, emitLine,
    emitSkip, emitBackup, emitRestore, traceComment, env0, initState]

/-- Counterexample to C6: for the program `write 1` the declaration count is
1 and the function table starts at 2, yet the final slot `2 + 2 * 1` of the
region is never written; the jump to main is in slot 2. -/
theorem jump_to_main_not_in_final_slot :
    getSizeOfGlobal progWrite = some 1 ∧
    ∃ f : GenState, codeGen env0 progWrite "out.tm" initState = some f ∧
      f.forFunctionTable = 2 ∧
      instrAt f.code (2 + 2 * 1) = none ∧
      instrAt f.code 2 = some (Instr.RM Opcode.LDC pc 0 0 "jump to main") := by
  refine ⟨by decide, _, codeGen_progWrite, rfl, ?_, ?_⟩ <;> simp [instrAt]

/-- The state `codeGen` returns, in terms of the state `b` after the
traversal: the jump to main is written at the function-table cursor, the
cursor returns to the append position and the `HALT` is appended. -/
theorem codeGenFinish_code (b : GenState) :
    (codeGenFinish b).code =
      Line.instr (max b.highEmitLoc (b.forFunctionTable + 1)) (Instr.RO Opcode.HALT 0 0 0 "done") ::
      Line.comment "End of execution." ::
      Line.instr b.forFunctionTable (Instr.RM Opcode.LDC pc b.locMain 0 "jump to main") ::
      b.code := rfl

theorem codeGenFinish_emitLoc (b : GenState) :
    (codeGenFinish b).emitLoc = max b.highEmitLoc (b.forFunctionTable + 1) + 1 := rfl

/-- The state after the traversal of `codeGen` from a fresh state: the
function-table cursor is still 2 and `locMain` is untouched. -/
theorem body_table_main (env : Env) (tree : TreeNode) (codefile : String) (size : Int)
    (s : GenState) (hf : Fresh s) :
    (cGen env tree (codeGenPrelude codefile size s)).forFunctionTable = 2 ∧
    (cGen env tree (codeGenPrelude codefile size s)).locMain = s.locMain := by
  obtain ⟨h1, _, _, _, h5, _⟩ := codeGenPrelude_fresh codefile size s hf
  have h := (table_main_preserved env tree (codeGenPrelude codefile size s)).1
  rw [h.1, h.2]
  exact ⟨h1, h5⟩

/-- The traversal of `codeGen` from a fresh state, when the count handed to
`emitSkip` is not negative: it extends the state after the prelude without a
hole, and nothing is written at or beyond its cursor. -/
theorem body_ext (env : Env) (tree : TreeNode) (codefile : String) (size : Int)
    (s : GenState) (hf : Fresh s) (h0 : 0 ≤ tableSlots size) :
    Ext noHole (codeGenPrelude codefile size s)
      (cGen env tree (codeGenPrelude codefile size s)) ∧
    (codeGenPrelude codefile size s).emitLoc = 2 + tableSlots size ∧
    (∀ i : Int, 2 ≤ i → instrAt (codeGenPrelude codefile size s).code i = none) := by
  obtain ⟨_, h2, h3, h4, _, _⟩ := codeGenPrelude_fresh codefile size s hf
  have hat : (codeGenPrelude codefile size s).emitLoc =
      (codeGenPrelude codefile size s).highEmitLoc := by
    rw [h2, h3]; omega
  refine ⟨cGen_ext env tree _ hat, h2, ?_⟩
  intro i hi
  rw [h4]
  have e1 : (1 : Int) ≠ i := by omega
  have e0 : (0 : Int) ≠ i := by omega
  simp [instrAt, e1, e0]

/-- Whatever count `emitSkip` was handed, nothing is written at or beyond
the append position when the traversal of `codeGen` ends. -/
theorem body_capped (env : Env) (tree : TreeNode) (codefile : String) (size : Int)
    (s : GenState) (hf : Fresh s) :
    Capped (cGen env tree (codeGenPrelude codefile size s)) := by
  obtain ⟨_, _, h3, h4, _, _⟩ := codeGenPrelude_fresh codefile size s hf
  refine cGen_capped env tree _ ?_
  intro i hi
  rw [h3] at hi
  rw [h4]
  have e1 : (1 : Int) ≠ i := by omega
  have e0 : (0 : Int) ≠ i := by omega
  simp [instrAt, e1, e0]

/-- C6, as amended: for every tree given to `codeGen`, the jump-to-main
instruction (load immediate into `pc`) is written at the function-table
cursor `forFunctionTable`. Only `insertFunction` moves that cursor, by 2 per
call, and the traversal makes no such call, so the index is 2, the first
slot of the reserved region. It is the last backpatch applied: the only
instruction written after it is the final `HALT`, which is appended at the
append position, where nothing was written before. -/
theorem jump_to_main_at_table_cursor (env : Env) (tree : TreeNode) (codefile : String)
    (s : GenState) (D : Int) (hD : getSizeOfGlobal tree = some D) (hf : Fresh s) :
    ∃ f : GenState, codeGen env tree codefile s = some f ∧
      (cGen env tree (codeGenPrelude codefile D s)).forFunctionTable = 2 ∧
      instrLines f.code =
        (f.emitLoc - 1, Instr.RO Opcode.HALT 0 0 0 "done") ::
        (2, Instr.RM Opcode.LDC pc s.locMain 0 "jump to main") ::
        instrLines (cGen env tree (codeGenPrelude codefile D s)).code ∧
      instrAt f.code 2 = some (Instr.RM Opcode.LDC pc s.locMain 0 "jump to main") ∧
      (0 ≤ D → ∀ i : Int, f.emitLoc - 1 ≤ i →
        instrAt (Line.instr 2 (Instr.RM Opcode.LDC pc s.locMain 0 "jump to main") ::
          (cGen env tree (codeGenPrelude codefile D s)).code) i = none) ∧
      ∀ (functionLocation : Int) (name : String) (u u' : GenState),
        insertFunction env functionLocation name u = some u' →
        u'.forFunctionTable = u.forFunctionTable + 2 := by
  obtain ⟨ht, hm⟩ := body_table_main env tree codefile D s hf
  have hloc : (codeGenFinish (cGen env tree (codeGenPrelude codefile D s))).emitLoc - 1 =
      max (cGen env tree (codeGenPrelude codefile D s)).highEmitLoc 3 := by
    rw [codeGenFinish_emitLoc, ht]; omega
  have hcode : (codeGenFinish (cGen env tree (codeGenPrelude codefile D s))).code =
      Line.instr ((codeGenFinish (cGen env tree (codeGenPrelude codefile D s))).emitLoc - 1)
        (Instr.RO Opcode.HALT 0 0 0 "done") ::
      Line.comment "End of execution." ::
      Line.instr 2 (Instr.RM Opcode.LDC pc s.locMain 0 "jump to main") ::
      (cGen env tree (codeGenPrelude codefile D s)).code := by
    rw [codeGenFinish_code, hloc, ht, hm]; rfl
  refine ⟨codeGenFinish (cGen env tree (codeGenPrelude codefile D s)), by simp [codeGen, hD],
    ht, by rw [hcode]; rfl, ?_, ?_, ?_⟩
  · rw [hcode, hloc]
    have : max (cGen env tree (codeGenPrelude codefile D s)).highEmitLoc 3 ≠ 2 := by omega
    simp [this]
  · intro _ i hi
    rw [hloc] at hi
    have e2 : (2 : Int) ≠ i := by omega
    rw [instrAt_instr, if_neg e2]
    exact body_capped env tree codefile D s hf i (by omega)
  · intro functionLocation name u u' h
    unfold insertFunction at h
    split at h
    · rw [← Option.some.inj h]
      simp [insertFunctionPatch, emitRestore, emitRM, emitLine, emitBackup]
    · exact absurd h (by simp)

/-- Witness of the amended C6 on the program `write 1`. -/
theorem jump_to_main_at_table_cursor_witness :
    getSizeOfGlobal progWrite = some 1 ∧ Fresh initState ∧
    ∃ f : GenState, codeGen env0 progWrite "out.tm" initState = some f ∧
      (cGen env0 progWrite (codeGenPrelude "out.tm" 1 initState)).forFunctionTable = 2 ∧
      instrLines f.code =
        (f.emitLoc - 1, Instr.RO Opcode.HALT 0 0 0 "done") ::
        (2, Instr.RM Opcode.LDC pc initState.locMain 0 "jump to main") ::
        instrLines (cGen env0 progWrite (codeGenPrelude "out.tm" 1 initState)).code ∧
      instrAt f.code 2 = some (Instr.RM Opcode.LDC pc initState.locMain 0 "jump to main") ∧
      ((0 : Int) ≤ 1 → ∀ i : Int, f.emitLoc - 1 ≤ i →
        instrAt (Line.instr 2 (Instr.RM Opcode.LDC pc initState.locMain 0 "jump to main") ::
          (cGen env0 progWrite (codeGenPrelude "out.tm" 1 initState)).code) i = none) ∧
      ∀ (functionLocation : Int) (name : String) (u u' : GenState),
        insertFunction env0 functionLocation name u = some u' →
        u'.forFunctionTable = u.forFunctionTable + 2 :=
  ⟨by decide, ⟨rfl, rfl, rfl⟩,
    jump_to_main_at_table_cursor env0 progWrite "out.tm" initState 1 (by decide) ⟨rfl, rfl, rfl⟩⟩

/-- The three instructions at the start of the stream `codeGen` produces
from a fresh state, when the reserved region is not of negative size: the
two of the prelude and the jump to main. -/
theorem codeGen_start (env : Env) (tree : TreeNode) (codefile : String)
    (s : GenState) (D : Int) (hf : Fresh s) (h0 : 0 ≤ tableSlots D) :
    instrAt (codeGenFinish (cGen env tree (codeGenPrelude codefile D s))).code 0 =
      some (Instr.RM Opcode.LD mp 0 ac "load maxaddress from location 0") ∧
    instrAt (codeGenFinish (cGen env tree (codeGenPrelude codefile D s))).code 1 =
      some (Instr.RM Opcode.ST ac 0 ac "clear location 0") ∧
    instrAt (codeGenFinish (cGen env tree (codeGenPrelude codefile D s))).code 2 =
      some (Instr.RM Opcode.LDC pc s.locMain 0 "jump to main") := by
  obtain ⟨ht, hm⟩ := body_table_main env tree codefile D s hf
  obtain ⟨hext, h2, _⟩ := body_ext env tree codefile D s hf h0
  obtain ⟨_, _, _, h4, _, _⟩ := codeGenPrelude_fresh codefile D s hf
  have hb0 := hext.below 0 (by omega)
  have hb1 := hext.below 1 (by omega)
  rw [h4] at hb0 hb1
  have hne0 : max (cGen env tree (codeGenPrelude codefile D s)).highEmitLoc (2 + 1) ≠ 0 := by
    omega
  have hne1 : max (cGen env tree (codeGenPrelude codefile D s)).highEmitLoc (2 + 1) ≠ 1 := by
    omega
  have hne2 : max (cGen env tree (codeGenPrelude codefile D s)).highEmitLoc (2 + 1) ≠ 2 := by
    omega
  rw [codeGenFinish_code, ht, hm]
  refine ⟨?_, ?_, ?_⟩
  · simp only [instrAt_instr, instrAt_comment, hne0, if_false, hb0]
    simp
  · simp only [instrAt_instr, instrAt_comment, hne1, if_false, hb1]
    simp
  · simp only [instrAt_instr, instrAt_comment, hne2, if_false, if_true]

/-- One step of the machine at an `LDC pc,d(s)`: control goes to `d`. -/
theorem tmStep_LDC_pc (iMem : Int → Instr) (st : TMState) (loc d r : Int) (c : String)
    (hpc : st.reg pc = loc) (h0 : 0 ≤ loc) (h1 : loc < ADDR_SIZE)
    (hi : iMem loc = Instr.RM Opcode.LDC pc d r c) :
    (tmStep iMem st).1 = StepResult.okay ∧ (tmStep iMem st).2.reg pc = d := by
  have hno : ¬ (loc < 0 ∨ ADDR_SIZE ≤ loc) := by omega
  unfold tmStep
  simp [hpc, hno, hi, setCell]

/-- The machine started on a stream that begins with the prelude and a jump
`LDC pc,m(0)` in slot 2 is at `pc = m` after three steps, with nothing
output. -/
theorem tmRun_start (iMem : Int → Instr) (m : Int) (input : List Int) (c0 c1 c2 : String)
    (h0 : iMem 0 = Instr.RM Opcode.LD mp 0 ac c0)
    (h1 : iMem 1 = Instr.RM Opcode.ST ac 0 ac c1)
    (h2 : iMem 2 = Instr.RM Opcode.LDC pc m 0 c2) :
    (tmRun iMem 3 (tmInit input)).1 = StepResult.okay ∧
    (tmRun iMem 3 (tmInit input)).2.reg pc = m ∧
    (tmRun iMem 3 (tmInit input)).2.output = [] := by
  simp [tmRun, tmStep, tmInit, setCell, h0, h1, h2, pc, ac, mp, ADDR_SIZE]

/-- The jump to main in the finished stream: for every tree given to
`codeGen`, slot 2 holds `LDC pc,locMain(0)` with the value `locMain` has on
entry, the traversal leaves `locMain` unchanged, executing the instruction
sets `pc` to that value, and the machine started at instruction 0 executes
it as its third step. -/
theorem jump_operand_locMain (env : Env) (tree : TreeNode) (codefile : String)
    (s : GenState) (D : Int) (hD : getSizeOfGlobal tree = some D) (hf : Fresh s) :
    ∃ f : GenState, codeGen env tree codefile s = some f ∧
      instrAt f.code 2 = some (Instr.RM Opcode.LDC pc s.locMain 0 "jump to main") ∧
      (cGen env tree (codeGenPrelude codefile D s)).locMain = s.locMain ∧
      (∀ st : TMState, st.reg pc = 2 →
        (tmStep (loadProgram f.code) st).1 = StepResult.okay ∧
        (tmStep (loadProgram f.code) st).2.reg pc = s.locMain) ∧
      (0 ≤ tableSlots D → ∀ input : List Int,
        (tmRun (loadProgram f.code) 3 (tmInit input)).1 = StepResult.okay ∧
        (tmRun (loadProgram f.code) 3 (tmInit input)).2.reg pc = s.locMain) := by
  obtain ⟨ht, hm⟩ := body_table_main env tree codefile D s hf
  have h2 : instrAt (codeGenFinish (cGen env tree (codeGenPrelude codefile D s))).code 2 =
      some (Instr.RM Opcode.LDC pc s.locMain 0 "jump to main") := by
    have hne : max (cGen env tree (codeGenPrelude codefile D s)).highEmitLoc (2 + 1) ≠ 2 := by
      omega
    rw [codeGenFinish_code, ht, hm]
    simp only [instrAt_instr, instrAt_comment, hne, if_false, if_true]
  refine ⟨_, by simp [codeGen, hD], h2, hm, ?_, ?_⟩
  · intro st hpc
    exact tmStep_LDC_pc _ st 2 s.locMain 0 "jump to main" hpc (by decide) (by decide)
      (by simp [loadProgram, h2])
  · intro h0 input
    obtain ⟨i0, i1, i2⟩ := codeGen_start env tree codefile s D hf h0
    have r := tmRun_start
      (loadProgram (codeGenFinish (cGen env tree (codeGenPrelude codefile D s))).code)
      s.locMain input "load maxaddress from location 0" "clear location 0" "jump to main"
      (by simp [loadProgram, i0]) (by simp [loadProgram, i1]) (by simp [loadProgram, i2])
    exact ⟨r.1, r.2.1⟩

/-- C7, the code at the failing input: no statement of `cgen.c` assigns
`locMain`, so from the initial state of the globals the operand of the jump
to main is 0 for every tree. For the program `write 1` the stream holds
`LDC pc,0(0)` in slot 2, index 0 holds the first prelude instruction, the
code of the program starts at index 5, and the machine started at
instruction 0 is back at `pc = 0` after three steps. -/
theorem jump_to_main_operand_unassigned :
    (∀ (env : Env) (tree : TreeNode) (codefile : String) (D : Int),
      getSizeOfGlobal tree = some D →
      ∃ f : GenState, codeGen env tree codefile initState = some f ∧
        instrAt f.code 2 = some (Instr.RM Opcode.LDC pc 0 0 "jump to main")) ∧
    ∃ f : GenState, codeGen env0 progWrite "out.tm" initState = some f ∧
      instrAt f.code 2 = some (Instr.RM Opcode.LDC pc 0 0 "jump to main") ∧
      instrAt f.code 0 = some (Instr.RM Opcode.LD mp 0 ac "load maxaddress from location 0") ∧
      instrAt f.code 5 = some (Instr.RM Opcode.LDC ac 1 0 "load const") ∧
      (tmRun (loadProgram f.code) 3 (tmInit [])).1 = StepResult.okay ∧
      (tmRun (loadProgram f.code) 3 (tmInit [])).2.reg pc = 0 := by
  constructor
  · intro env tree codefile D hD
    obtain ⟨f, hc, h2, _⟩ := jump_operand_locMain env tree codefile initState D hD ⟨rfl, rfl, rfl⟩
    exact ⟨f, hc, h2⟩
  · obtain ⟨f, hc, h2, _, _, hrun⟩ :=
      jump_operand_locMain env0 progWrite "out.tm" initState 1 (by decide) ⟨rfl, rfl, rfl⟩
    have hf := hc
    rw [codeGen_progWrite] at hf
    have hf' := (Option.some.inj hf).symm
    refine ⟨f, hc, h2, ?_, ?_, (hrun (by decide) []).1, (hrun (by decide) []).2⟩
    · rw [hf']; simp [instrAt]
    · rw [hf']; simp [instrAt]

/-- The cursor after an if statement generated at the append position is
the append position after its else-part. -/
theorem genStmt_ifK_emitLoc (env : Env) (info : NodeInfo) (p1 p2 p3 sib : TreeNode)
    (s : GenState) (hk : info.kindStmt = StmtKind.IfK) (hs : s.emitLoc = s.highEmitLoc) :
    (genStmt env (TreeNode.node info p1 p2 p3 sib) s).emitLoc =
      (ifAfterElse env p1 p2 p3 s).emitLoc := by
  obtain ⟨_, _, _, l3, _, k3⟩ :=
    if_stages env p1 p2 p3 s hs (cGen_ext env p1) (cGen_ext env p2) (cGen_ext env p3)
  rw [genStmt_ifK env info p1 p2 p3 sib s hk, traceComment_emitLoc]
  have := k3.atEnd
  show max (max (ifAfterElse env p1 p2 p3 s).highEmitLoc
    ((ifAfterElse env p1 p2 p3 s).emitLoc + 0)) (ifSlot2 env p1 p2 s + 1) = _
  omega

/-! ## End to end -/

/-- On a stream that begins with the prelude and a jump `LDC pc,0(0)` in
slot 2, one step keeps the machine in the prelude. -/
theorem inPrelude_step (iMem : Int → Instr) (c0 c1 c2 : String)
    (h0 : iMem 0 = Instr.RM Opcode.LD mp 0 ac c0)
    (h1 : iMem 1 = Instr.RM Opcode.ST ac 0 ac c1)
    (h2 : iMem 2 = Instr.RM Opcode.LDC pc 0 0 c2)
    (st : TMState) (hst : InPrelude st) :
    (tmStep iMem st).1 = StepResult.okay ∧ InPrelude (tmStep iMem st).2 := by
  obtain ⟨ho, ha, hp⟩ := hst
  have ha' : st.reg 0 = 0 := ha
  rcases hp with hp | hp | hp
  · have hp' : st.reg 7 = 0 := hp
    simp [tmStep, InPrelude, setCell, h0, hp, hp', ha, ha', ho, pc, ac, mp, ADDR_SIZE]
  · have hp' : st.reg 7 = 1 := hp
    simp [tmStep, InPrelude, setCell, h1, hp, hp', ha, ha', ho, pc, ac, mp, ADDR_SIZE]
  · have hp' : st.reg 7 = 2 := hp
    simp [tmStep, InPrelude, setCell, h2, hp, hp', ha, ha', ho, pc, ac, mp, ADDR_SIZE]

/-- On such a stream the machine never leaves the prelude. -/
theorem inPrelude_run (iMem : Int → Instr) (c0 c1 c2 : String)
    (h0 : iMem 0 = Instr.RM Opcode.LD mp 0 ac c0)
    (h1 : iMem 1 = Instr.RM Opcode.ST ac 0 ac c1)
    (h2 : iMem 2 = Instr.RM Opcode.LDC pc 0 0 c2) (n : Nat) :
    ∀ st : TMState, InPrelude st →
      (tmRun iMem n st).1 = StepResult.okay ∧ InPrelude (tmRun iMem n st).2 := by
  induction n with
  | zero => intro st hst; exact ⟨rfl, hst⟩
  | succ n ih =>
    intro st hst
    obtain ⟨hr, hi⟩ := inPrelude_step iMem c0 c1 c2 h0 h1 h2 st hst
    have he : tmStep iMem st = (StepResult.okay, (tmStep iMem st).2) := by
      rw [← hr]
    rw [tmRun, he]
    exact ih _ hi

/-- The state `codeGen` returns for `x := 2 + 3; write x` without tracing,
from the initial state. -/
theorem codeGen_progSum :
    codeGen env0 progSum "out.tm" initState =
      some
        { emitLoc := 16, highEmitLoc := 16, tmpOffset := 0, forFunctionTable := 2,
          locMain := 0, code := progSumCode } := by
  simp [codeGen, getSizeOfGlobal, getSizeOfGlobalLoop, progSum, assignNode, writeNode, opNode,
    idNode, constNode, mkInfo, codeGenPrelude, tableSlots, wrapInt, codeGenFinish, cGen, genStmt,
      genExp, genOp,
    emitComment, emitRM, emitRO, emitLine, emitSkip, emitBackup, emitRestore, traceComment,
    env0, initState, progSumCode]

/-- C9, the code at the failing input: from the initial state, in which
`locMain` is 0 as `cgen.c` leaves it, the stream `codeGen` produces for
`x := 2 + 3; write x` holds `LDC pc,0(0)` in slot 2 and so jumps back to
instruction 0: whatever the number of steps, the machine has not stopped
and has output nothing, so it never outputs 5 and never halts. -/
theorem progSum_never_outputs :
    ∃ f : GenState, codeGen env0 progSum "out.tm" initState = some f ∧
      ∀ (input : List Int) (n : Nat),
        (tmRun (loadProgram f.code) n (tmInit input)).1 = StepResult.okay ∧
        (tmRun (loadProgram f.code) n (tmInit input)).2.output = [] := by
  refine ⟨_, codeGen_progSum, ?_⟩
  intro input n
  have h := inPrelude_run (loadProgram progSumCode) "load maxaddress from location 0"
    "clear location 0" "jump to main" (by simp [loadProgram, instrAt, progSumCode])
    (by simp [loadProgram, instrAt, progSumCode]) (by simp [loadProgram, instrAt, progSumCode])
    n (tmInit input) ⟨rfl, rfl, Or.inl rfl⟩
  exact ⟨h.1, h.2.1⟩

/-- The machine run on a stream holding the prelude, a jump to 7 and, from
7 on, the code of `x := 2 + 3; write x` with `x` at the data location `loc`:
it halts at its twelfth step having output 5. -/
theorem tmRun_sum (iMem : Int → Instr) (loc : Int) (input : List Int)
    (hl0 : 0 ≤ loc) (hl1 : loc < ADDR_SIZE)
    (c0 c1 c2 c7 c8 c9 c10 c11 c12 c13 c14 c15 : String)
    (h0 : iMem 0 = Instr.RM Opcode.LD mp 0 ac c0)
    (h1 : iMem 1 = Instr.RM Opcode.ST ac 0 ac c1)
    (h2 : iMem 2 = Instr.RM Opcode.LDC pc 7 0 c2)
    (h7 : iMem 7 = Instr.RM Opcode.LDC ac 2 0 c7)
    (h8 : iMem 8 = Instr.RM Opcode.ST ac 0 mp c8)
    (h9 : iMem 9 = Instr.RM Opcode.LDC ac 3 0 c9)
    (h10 : iMem 10 = Instr.RM Opcode.LD ac1 0 mp c10)
    (h11 : iMem 11 = Instr.RO Opcode.ADD ac ac1 ac c11)
    (h12 : iMem 12 = Instr.RM Opcode.ST ac loc gp c12)
    (h13 : iMem 13 = Instr.RM Opcode.LD ac loc gp c13)
    (h14 : iMem 14 = Instr.RO Opcode.OUT ac 0 0 c14)
    (h15 : iMem 15 = Instr.RO Opcode.HALT 0 0 0 c15) :
    (tmRun iMem 12 (tmInit input)).1 = StepResult.halt ∧
    (tmRun iMem 12 (tmInit input)).2.output = [5] := by
  have hb : ¬ (loc < 0 ∨ (1024 : Int) ≤ loc) := by
    have : loc < 1024 := hl1
    omega
  simp [tmRun, tmStep, tmInit, setCell, h0, h1, h2, h7, h8, h9, h10, h11, h12, h13, h14, h15,
    pc, ac, ac1, mp, gp, ADDR_SIZE, hb]

/-- The instructions of the stream `codeGen` produces for
`x := 2 + 3; write x` from a fresh state with `tmpOffset` 0. -/
theorem codeGen_progSum_instrs (env : Env) (codefile : String) (s : GenState)
    (hf : Fresh s) (ht : s.tmpOffset = 0) :
    ∃ f : GenState, codeGen env progSum codefile s = some f ∧
      instrAt f.code 0 = some (Instr.RM Opcode.LD mp 0 ac "load maxaddress from location 0") ∧
      instrAt f.code 1 = some (Instr.RM Opcode.ST ac 0 ac "clear location 0") ∧
      instrAt f.code 2 = some (Instr.RM Opcode.LDC pc s.locMain 0 "jump to main") ∧
      instrAt f.code 7 = some (Instr.RM Opcode.LDC ac 2 0 "load const") ∧
      instrAt f.code 8 = some (Instr.RM Opcode.ST ac 0 mp "op: push left") ∧
      instrAt f.code 9 = some (Instr.RM Opcode.LDC ac 3 0 "load const") ∧
      instrAt f.code 10 = some (Instr.RM Opcode.LD ac1 0 mp "op: load left") ∧
      instrAt f.code 11 = some (Instr.RO Opcode.ADD ac ac1 ac "op +") ∧
      instrAt f.code 12 =
        some (Instr.RM Opcode.ST ac (env.st_lookup "x") gp "assign: store value") ∧
      instrAt f.code 13 = some (Instr.RM Opcode.LD ac (env.st_lookup "x") gp "load id value") ∧
      instrAt f.code 14 = some (Instr.RO Opcode.OUT ac 0 0 "write ac") ∧
      instrAt f.code 15 = some (Instr.RO Opcode.HALT 0 0 0 "done") := by
  obtain ⟨h1, h2, h3⟩ := hf
  obtain ⟨tc, look, getloc⟩ := env
  cases tc <;>
    simp [codeGen, getSizeOfGlobal, getSizeOfGlobalLoop, progSum, assignNode, writeNode, opNode,
      idNode, constNode, mkInfo, codeGenPrelude, tableSlots, wrapInt, codeGenFinish, cGen, genStmt,
      genExp, genOp,
      emitComment, emitRM, emitRO, emitLine, emitSkip, emitBackup, emitRestore, traceComment,
      h1, h2, h3, ht, instrAt]

/-- The body code of `x := 2 + 3; write x` is right: were `locMain` to
hold 7, the index of the first body instruction, a value no statement of
`cgen.c` gives it, and `x` at a valid data location, the stream `codeGen`
produces, interpreted by the target machine from instruction 0 (unwritten
slots being `HALT`), would output 5 and halt. -/
theorem progSum_outputs_five (env : Env) (codefile : String) (s : GenState)
    (input : List Int) (hf : Fresh s) (ht : s.tmpOffset = 0) (hm : s.locMain = 7)
    (hl0 : 0 ≤ env.st_lookup "x") (hl1 : env.st_lookup "x" < ADDR_SIZE) :
    ∃ f : GenState, codeGen env progSum codefile s = some f ∧
      ∃ n : Nat, (tmRun (loadProgram f.code) n (tmInit input)).1 = StepResult.halt ∧
        (tmRun (loadProgram f.code) n (tmInit input)).2.output = [5] := by
  obtain ⟨f, hc, i0, i1, i2, i7, i8, i9, i10, i11, i12, i13, i14, i15⟩ :=
    codeGen_progSum_instrs env codefile s hf ht
  rw [hm] at i2
  refine ⟨f, hc, 12, ?_⟩
  exact tmRun_sum (loadProgram f.code) (env.st_lookup "x") input hl0 hl1
    "load maxaddress from location 0" "clear location 0" "jump to main" "load const"
    "op: push left" "load const" "op: load left" "op +" "assign: store value" "load id value"
    "write ac" "done"
    (by simp [loadProgram, i0]) (by simp [loadProgram, i1]) (by simp [loadProgram, i2])
    (by simp [loadProgram, i7]) (by simp [loadProgram, i8]) (by simp [loadProgram, i9])
    (by simp [loadProgram, i10]) (by simp [loadProgram, i11]) (by simp [loadProgram, i12])
    (by simp [loadProgram, i13]) (by simp [loadProgram, i14]) (by simp [loadProgram, i15])

/-- An instance of `progSum_outputs_five`: no tracing, `x` at location 0,
`locMain` 7. -/
theorem progSum_outputs_five_witness :
    Fresh { initState with locMain := 7 } ∧
    ({ initState with locMain := 7 } : GenState).tmpOffset = 0 ∧
    ({ initState with locMain := 7 } : GenState).locMain = 7 ∧
    0 ≤ env0.st_lookup "x" ∧ env0.st_lookup "x" < ADDR_SIZE ∧
    ∃ f : GenState, codeGen env0 progSum "out.tm" { initState with locMain := 7 } = some f ∧
      ∃ n : Nat, (tmRun (loadProgram f.code) n (tmInit [])).1 = StepResult.halt ∧
        (tmRun (loadProgram f.code) n (tmInit [])).2.output = [5] :=
  ⟨⟨rfl, rfl, rfl⟩, rfl, rfl, by decide, by decide,
    progSum_outputs_five env0 "out.tm" { initState with locMain := 7 } [] ⟨rfl, rfl, rfl⟩ rfl rfl
      (by decide) (by decide)⟩

/-! ## Arguments and parameters -/

theorem pushOne_tmpOffset (env : Env) (a : TreeNode) (s : GenState) :
    (pushOne env a s).tmpOffset = s.tmpOffset - 1 := by
  show (genExp env a s).tmpOffset - 1 = s.tmpOffset - 1
  rw [(tmpOffset_preserved env a s).2.2]

theorem pushOne_lastInstr (env : Env) (a : TreeNode) (s : GenState) :
    lastInstr (pushOne env a s).code =
      some ((genExp env a s).emitLoc,
        Instr.RM Opcode.ST ac (s.tmpOffset - 1) mp "op: push argument(reverse order)") := by
  show some ((genExp env a s).emitLoc, Instr.RM Opcode.ST ac ((genExp env a s).tmpOffset - 1) mp
    "op: push argument(reverse order)") = _
  rw [(tmpOffset_preserved env a s).2.2]

theorem pushChain_tmpOffset (env : Env) (args : List TreeNode) (s : GenState) :
    (pushChain env args s).tmpOffset = s.tmpOffset - args.length := by
  induction args with
  | nil => simp [pushChain]
  | cons a rest ih =>
    show (pushOne env a (pushChain env rest s)).tmpOffset = _
    rw [pushOne_tmpOffset, ih]
    simp only [List.length_cons]
    push_cast
    ring

theorem pushArguments_eq (env : Env) (tree : TreeNode) :
    ∀ (depth : Int) (s : GenState),
      pushArguments env depth tree s =
        (depth + (chain tree).length, pushChain env (chain tree) s) := by
  induction tree with
  | null => intro depth s; simp [pushArguments, chain, pushChain]
  | node info c0 c1 c2 sib _ _ _ ihs =>
    intro depth s
    rw [pushArguments, ihs]
    simp only [chain, List.length_cons]
    refine Prod.ext ?_ rfl
    show depth + 1 + ((chain sib).length : Int) = depth + (((chain sib).length + 1 : Nat) : Int)
    push_cast
    ring

theorem pushFrom_spec (parameters : Int → Option String) (n : Nat) :
    ∀ st : NameStacks,
      (pushFrom parameters n st).parameterStackIndex = st.parameterStackIndex - n ∧
      (∀ k : Nat, k < n →
        (pushFrom parameters n st).parameterStack (st.parameterStackIndex - n + k) =
          parameters k) ∧
      (∀ j : Int, st.parameterStackIndex ≤ j →
        (pushFrom parameters n st).parameterStack j = st.parameterStack j) ∧
      (pushFrom parameters n st).localNameStack = st.localNameStack ∧
      (pushFrom parameters n st).localNameStackIndex = st.localNameStackIndex := by
  induction n with
  | zero =>
    intro st
    refine ⟨by simp [pushFrom], ?_, fun _ _ => rfl, rfl, rfl⟩
    intro k hk
    omega
  | succ n ih =>
    intro st
    obtain ⟨h1, h2, h3, h4, h5⟩ := ih
      { st with
        parameterStackIndex := st.parameterStackIndex - 1
        parameterStack := setEntry st.parameterStack (st.parameterStackIndex - 1)
          (parameters n) }
    simp only at h1 h2 h3 h4 h5
    rw [pushFrom]
    refine ⟨?_, ?_, ?_, h4, h5⟩
    · rw [h1]; push_cast; ring
    · intro k hk
      by_cases hkn : k < n
      · have e : st.parameterStackIndex - ((n + 1 : Nat) : Int) + k =
            st.parameterStackIndex - 1 - n + k := by
          push_cast; ring
        rw [e]
        exact h2 k hkn
      · have hk' : k = n := by omega
        have e : st.parameterStackIndex - ((n + 1 : Nat) : Int) + k =
            st.parameterStackIndex - 1 := by
          rw [hk']; push_cast; ring
        rw [e, hk']
        exact (h3 (st.parameterStackIndex - 1) (le_refl _)).trans (by simp [setEntry])
    · intro j hj
      have := h3 j (by omega)
      rw [this]
      have hne : j ≠ st.parameterStackIndex - 1 := by omega
      simp [setEntry, hne]

theorem searchStack_found (stack : Int → Option String) (name : String) (index : Int)
    (k : Nat) (hk : stack (index + k) = some name)
    (hbefore : ∀ j : Nat, j < k → stack (index + j) ≠ some name) :
    ∀ (fuel j0 : Nat), j0 ≤ k → k < j0 + fuel →
      searchStack stack name index fuel (index + j0) = k := by
  intro fuel
  induction fuel with
  | zero => intro j0 h1 h2; omega
  | succ fuel ih =>
    intro j0 h1 h2
    rw [searchStack]
    by_cases hj : j0 = k
    · subst hj
      simp [hk]
    · have hlt : j0 < k := by omega
      rw [if_neg (hbefore j0 hlt)]
      have := ih (j0 + 1) (by omega) (by omega)
      rw [← this]
      congr 1
      push_cast
      ring

theorem collect_other (E : List BucketListRec) (k : Int) :
    ∀ acc : Int × (Int → Option String), (∀ e ∈ E, e.memloc ≠ k) →
      (E.foldl collectParameter acc).2 k = acc.2 k := by
  induction E with
  | nil => intro acc _; rfl
  | cons e0 rest ih =>
    intro acc h
    rw [List.foldl_cons, ih _ (fun e he => h e (List.mem_cons_of_mem _ he))]
    have hne : k ≠ e0.memloc := fun hk => h e0 (List.mem_cons_self _ _) hk.symm
    simp [collectParameter, setEntry, hne]

theorem collect_names (E : List BucketListRec) :
    ∀ acc : Int × (Int → Option String), (E.map (fun e => e.memloc)).Nodup →
      ∀ e ∈ E, (E.foldl collectParameter acc).2 e.memloc = some e.name := by
  induction E with
  | nil => intro acc _ e he; exact absurd he (List.not_mem_nil _)
  | cons e0 rest ih =>
    intro acc hnd e he
    rw [List.map_cons, List.nodup_cons] at hnd
    rw [List.foldl_cons]
    rcases List.mem_cons.mp he with h | h
    · subst h
      rw [collect_other rest e.memloc _ (fun e' he' heq =>
        hnd.1 (List.mem_map.mpr ⟨e', he', heq⟩))]
      simp [collectParameter, setEntry]
    · exact ih _ hnd.2 e h

theorem collect_max (E : List BucketListRec) :
    ∀ acc : Int × (Int → Option String),
      acc.1 ≤ (E.foldl collectParameter acc).1 ∧
      (∀ e ∈ E, e.memloc ≤ (E.foldl collectParameter acc).1) ∧
      ((E.foldl collectParameter acc).1 = acc.1 ∨
        ∃ e ∈ E, (E.foldl collectParameter acc).1 = e.memloc) := by
  induction E with
  | nil => intro acc; exact ⟨le_refl _, fun e he => absurd he (List.not_mem_nil _), Or.inl rfl⟩
  | cons e0 rest ih =>
    intro acc
    obtain ⟨h1, h2, h3⟩ := ih (collectParameter acc e0)
    rw [List.foldl_cons]
    have hc : (collectParameter acc e0).1 = if acc.1 < e0.memloc then e0.memloc else acc.1 := rfl
    have hle : acc.1 ≤ (collectParameter acc e0).1 ∧ e0.memloc ≤ (collectParameter acc e0).1 := by
      rw [hc]; split <;> omega
    refine ⟨le_trans hle.1 h1, ?_, ?_⟩
    · intro e he
      rcases List.mem_cons.mp he with h | h
      · subst h; exact le_trans hle.2 h1
      · exact h2 e h
    · rcases h3 with h | ⟨e, he, h⟩
      · rw [h, hc]
        split
        · exact Or.inr ⟨e0, List.mem_cons_self _ _, rfl⟩
        · exact Or.inl rfl
      · exact Or.inr ⟨e, List.mem_cons_of_mem _ he, h⟩

/-- Binding and lookup: when the name of `f` fits the buffer, the scope of
`f` has `SIZE` buckets holding exactly the parameters `p 0, ..., p m`,
pairwise distinct, at the memory locations `0, ..., m` with `m < SIZE`, and
the parameter stack has `m + 1` free entries below an index of at most
1024, `pushParameters` returns, lowers the index by `m + 1` and afterwards
`getParameterOffset` finds `p k` at offset `k`. -/
theorem pushParameters_lookup (SIZE : Nat) (getScope : String → Option ScopeList)
    (junk : Int → Option String) (f : String) (st : NameStacks) (scope : ScopeList)
    (m : Nat) (p : Nat → String)
    (hname : fitsBuffer ("~:" ++ f))
    (hscope : getScope ("~:" ++ f) = some scope)
    (hlen : scope.length = SIZE)
    (hperm : scope.flatten.Perm
      ((List.range (m + 1)).map (fun k => ({ name := p k, memloc := (k : Int) } : BucketListRec))))
    (hinj : ∀ i j : Nat, i ≤ m → j ≤ m → p i = p j → i = j)
    (hsize : m < SIZE)
    (hroom : (m : Int) + 1 ≤ st.parameterStackIndex)
    (hcap : st.parameterStackIndex ≤ 1024) :
    ∃ st' : NameStacks, pushParameters SIZE getScope junk f st = some st' ∧
      st'.parameterStackIndex = st.parameterStackIndex - (m + 1) ∧
      ∀ k : Nat, k ≤ m → getParameterOffset st' (p k) = k := by
  have htake : scope.take SIZE = scope := by
    rw [← hlen]; exact List.take_length scope
  have hmem : ∀ e : BucketListRec, e ∈ scope.flatten ↔
      ∃ k : Nat, k ≤ m ∧ e = { name := p k, memloc := (k : Int) } := by
    intro e
    rw [hperm.mem_iff, List.mem_map]
    constructor
    · rintro ⟨k, hk, rfl⟩
      exact ⟨k, by have := List.mem_range.mp hk; omega, rfl⟩
    · rintro ⟨k, hk, rfl⟩
      exact ⟨k, List.mem_range.mpr (by omega), rfl⟩
  have hnd : (scope.flatten.map (fun e => e.memloc)).Nodup := by
    rw [(hperm.map (fun e => e.memloc)).nodup_iff, List.map_map]
    exact (List.nodup_range _).map (fun a b h => by simpa using h)
  have hfold : collectParameters SIZE scope junk =
      scope.flatten.foldl collectParameter (0, junk) := by
    unfold collectParameters
    rw [htake, List.foldl_flatten]
  obtain ⟨h1, h2, h3⟩ := collect_max scope.flatten (0, junk)
  have hmax : (scope.flatten.foldl collectParameter (0, junk)).1 = m := by
    have hm := h2 _ ((hmem _).mpr ⟨m, le_refl _, rfl⟩)
    simp only at hm h1
    rcases h3 with h | ⟨e, he, h⟩
    · simp only at h; omega
    · obtain ⟨k, hk, rfl⟩ := (hmem e).mp he
      simp only at h
      omega
  have hnames : ∀ k : Nat, k ≤ m →
      (scope.flatten.foldl collectParameter (0, junk)).2 k = some (p k) := by
    intro k hk
    exact collect_names scope.flatten (0, junk) hnd _ ((hmem _).mpr ⟨k, hk, rfl⟩)
  have hfit : ParametersFit SIZE scope := by
    intro l hl
    rw [htake] at hl
    obtain ⟨k, hk, rfl⟩ := (hmem l).mp hl
    constructor
    · show (0 : Int) ≤ (k : Int)
      omega
    · show (k : Int) < (SIZE : Int)
      omega
  have hpush : pushParameters SIZE getScope junk f st =
      some (pushFrom (scope.flatten.foldl collectParameter (0, junk)).2 (m + 1) st) := by
    unfold pushParameters
    rw [if_pos hname, hscope]
    simp only
    rw [if_pos hfit, hfold, hmax, if_pos (by omega)]
    simp only [Int.toNat_ofNat]
  obtain ⟨q1, q2, _, _, _⟩ :=
    pushFrom_spec (scope.flatten.foldl collectParameter (0, junk)).2 (m + 1) st
  refine ⟨_, hpush, by rw [q1]; push_cast; ring, ?_⟩
  intro k hk
  unfold getParameterOffset
  rw [q1]
  have hfuel : (1024 - (st.parameterStackIndex - ((m + 1 : Nat) : Int))).toNat =
      (1024 - st.parameterStackIndex).toNat + (m + 1) := by
    omega
  have := searchStack_found
    (pushFrom (scope.flatten.foldl collectParameter (0, junk)).2 (m + 1) st).parameterStack (p k)
    (st.parameterStackIndex - ((m + 1 : Nat) : Int)) k
    (by rw [q2 k (by omega)]; exact hnames k hk)
    (by
      intro j hj
      rw [q2 j (by omega), hnames j (by omega)]
      intro h
      have := hinj j k (by omega) hk (Option.some.inj h)
      omega)
    ((1024 - st.parameterStackIndex).toNat + (m + 1)) 0 (Nat.zero_le _) (by omega)
  rw [hfuel]
  simpa using this

/-- The stores `pushArguments` emits: for every chain `a1..an` with
`tmpOffset = t` on entry the arguments are generated in reverse sibling
order, the depth returned is the depth given plus `n`, on return
`tmpOffset = t - n`, and the store emitted right after the code of argument
`a(i+1)` has the displacement `t - n + i`, the final `tmpOffset` plus `i`.
This is about the instructions written, not about the values the slots hold
when the code has run. -/
theorem pushArguments_stores (env : Env) (depth : Int) (tree : TreeNode) (s : GenState) :
    (pushArguments env depth tree s).1 = depth + (chain tree).length ∧
    (pushArguments env depth tree s).2 = (chain tree).foldr (pushOne env) s ∧
    (pushArguments env depth tree s).2.tmpOffset = s.tmpOffset - (chain tree).length ∧
    ∀ i : Nat, i < (chain tree).length →
      ∃ (a : TreeNode) (loc : Int), (chain tree).drop i = a :: (chain tree).drop (i + 1) ∧
        ((chain tree).drop i).foldr (pushOne env) s =
          pushOne env a (((chain tree).drop (i + 1)).foldr (pushOne env) s) ∧
        lastInstr (((chain tree).drop i).foldr (pushOne env) s).code =
          some (loc, Instr.RM Opcode.ST ac ((pushArguments env depth tree s).2.tmpOffset + i) mp
            "op: push argument(reverse order)") := by
  have hstore : ∀ i : Nat, i < (chain tree).length →
      ∃ (a : TreeNode) (loc : Int), (chain tree).drop i = a :: (chain tree).drop (i + 1) ∧
        ((chain tree).drop i).foldr (pushOne env) s =
          pushOne env a (((chain tree).drop (i + 1)).foldr (pushOne env) s) ∧
        lastInstr (((chain tree).drop i).foldr (pushOne env) s).code =
          some (loc, Instr.RM Opcode.ST ac
            ((pushChain env (chain tree) s).tmpOffset + i) mp
            "op: push argument(reverse order)") := by
    intro i hi
    have hd : (chain tree).drop i = (chain tree)[i] :: (chain tree).drop (i + 1) :=
      List.drop_eq_getElem_cons hi
    refine ⟨(chain tree)[i],
      (genExp env (chain tree)[i] (pushChain env ((chain tree).drop (i + 1)) s)).emitLoc, hd,
      by rw [hd]; rfl, ?_⟩
    rw [hd]
    show lastInstr (pushOne env _ (pushChain env _ s)).code = _
    rw [pushOne_lastInstr, pushChain_tmpOffset, pushChain_tmpOffset]
    simp only [List.length_drop]
    have : (((chain tree).length - (i + 1) : Nat) : Int) = (chain tree).length - (i + 1) := by
      omega
    rw [this]
    congr 3
    ring
  rw [pushArguments_eq]
  exact ⟨rfl, rfl, pushChain_tmpOffset env _ s, hstore⟩

theorem pushArguments_argsClobber :
    (pushArguments env0 0 argsClobber initState).2.code = argsClobberCode := by
  simp [pushArguments, argsClobber, opNode, constNode, mkInfo, genExp, cGen, genOp, emitRM,
    emitRO, emitLine, traceComment, env0, initState, argsClobberCode]

theorem tmRun_argsClobber :
    (tmRun (loadProgram argsClobberCode) 8 tmFrame).1 = StepResult.okay ∧
    (tmRun (loadProgram argsClobberCode) 8 tmFrame).2.dMem 1022 = 1 ∧
    (tmRun (loadProgram argsClobberCode) 8 tmFrame).2.dMem 1021 = 3 ∧
    (tmRun (loadProgram argsClobberCode) 8 tmFrame).2.dMem 1023 = 0 := by
  simp [tmRun, tmStep, tmFrame, loadProgram, argsClobberCode, instrAt, setCell, pc, ac, ac1, mp,
    ADDR_SIZE]

/-- C11, the code at the failing input: `pushArguments` decrements
`tmpOffset` before the store. For every non-empty chain the first store
emitted, that of the last argument, goes to offset `t - 1` and not to `t`.
For the chain `(1 + 2, 5)` from `tmpOffset = 0` the value 5 is stored at
offset -1, where `tmpOffset` then points, so the push of the left operand of
`1 + 2` is emitted for the same offset -1; run with `mp = 1023`, the cell
1022 of the stored argument holds 1 at the end, and the cell 1023 of offset
0 is never written. -/
theorem pushArguments_decrements_first :
    (∀ (env : Env) (depth : Int) (info : NodeInfo) (c0 c1 c2 : TreeNode) (s : GenState),
      ∃ loc : Int,
        lastInstr (pushArguments env depth
          (TreeNode.node info c0 c1 c2 TreeNode.null) s).2.code =
          some (loc, Instr.RM Opcode.ST ac (s.tmpOffset - 1) mp
            "op: push argument(reverse order)")) ∧
    instrLines (pushArguments env0 0 argsClobber initState).2.code =
      [(7, Instr.RM Opcode.ST ac (-2) mp "op: push argument(reverse order)"),
       (6, Instr.RO Opcode.ADD ac ac1 ac "op +"),
       (5, Instr.RM Opcode.LD ac1 (-1) mp "op: load left"),
       (4, Instr.RM Opcode.LDC ac 2 0 "load const"),
       (3, Instr.RM Opcode.ST ac (-1) mp "op: push left"),
       (2, Instr.RM Opcode.LDC ac 1 0 "load const"),
       (1, Instr.RM Opcode.ST ac (-1) mp "op: push argument(reverse order)"),
       (0, Instr.RM Opcode.LDC ac 5 0 "load const")] ∧
    (tmRun (loadProgram (pushArguments env0 0 argsClobber initState).2.code) 8 tmFrame).1 =
      StepResult.okay ∧
    (tmRun (loadProgram (pushArguments env0 0 argsClobber initState).2.code) 8 tmFrame).2.dMem
      1022 = 1 ∧
    (tmRun (loadProgram (pushArguments env0 0 argsClobber initState).2.code) 8 tmFrame).2.dMem
      1023 = 0 := by
  refine ⟨?_, ?_, ?_⟩
  · intro env depth info c0 c1 c2 s
    refine ⟨(genExp env (TreeNode.node info c0 c1 c2 TreeNode.null) s).emitLoc, ?_⟩
    rw [pushArguments_eq]
    exact pushOne_lastInstr env _ s
  · rw [pushArguments_argsClobber]; rfl
  · rw [pushArguments_argsClobber]
    exact ⟨tmRun_argsClobber.1, tmRun_argsClobber.2.1, tmRun_argsClobber.2.2.2⟩

/-- C10, the code at the failing input: the arguments do not end up in the
slots the claim gives them. For every chain `pushArguments` returns the
depth plus `n` and leaves `tmpOffset = t - n`. For the chain `(1 + 2, 5)`
from `tmpOffset = 0` that is depth 2 and `tmpOffset = -2`, so `a1 = 1 + 2`
should sit at offset `-2 + 0` and `a2 = 5` at offset `-2 + 1`. Run with
`mp = 1023`, the first two instructions put 5 in cell `1023 + (-2 + 1)`;
the operand push of `1 + 2` then writes the same cell, and when the eight
instructions have run cell `1023 + (-2 + 0)` holds 3 while cell
`1023 + (-2 + 1)` holds 1, not the argument 5. -/
theorem pushArguments_argument_overwritten :
    (∀ (env : Env) (depth : Int) (tree : TreeNode) (s : GenState),
      (pushArguments env depth tree s).1 = depth + (chain tree).length ∧
      (pushArguments env depth tree s).2.tmpOffset = s.tmpOffset - (chain tree).length) ∧
    (chain argsClobber).length = 2 ∧
    (pushArguments env0 0 argsClobber initState).1 = 2 ∧
    (pushArguments env0 0 argsClobber initState).2.tmpOffset = -2 ∧
    (pushArguments env0 0 argsClobber initState).2.emitLoc = 8 ∧
    (tmRun (loadProgram (pushArguments env0 0 argsClobber initState).2.code) 2 tmFrame).1 =
      StepResult.okay ∧
    (tmRun (loadProgram (pushArguments env0 0 argsClobber initState).2.code) 2 tmFrame).2.dMem
      (1023 + (-2 + 1)) = 5 ∧
    (tmRun (loadProgram (pushArguments env0 0 argsClobber initState).2.code) 8 tmFrame).1 =
      StepResult.okay ∧
    (tmRun (loadProgram (pushArguments env0 0 argsClobber initState).2.code) 8 tmFrame).2.reg pc =
      8 ∧
    (tmRun (loadProgram (pushArguments env0 0 argsClobber initState).2.code) 8 tmFrame).2.dMem
      (1023 + (-2 + 0)) = 3 ∧
    (tmRun (loadProgram (pushArguments env0 0 argsClobber initState).2.code) 8 tmFrame).2.dMem
      (1023 + (-2 + 1)) = 1 := by
  have hgen : ∀ (env : Env) (depth : Int) (tree : TreeNode) (s : GenState),
      (pushArguments env depth tree s).1 = depth + (chain tree).length ∧
      (pushArguments env depth tree s).2.tmpOffset = s.tmpOffset - (chain tree).length := by
    intro env depth tree s
    rw [pushArguments_eq]
    exact ⟨rfl, pushChain_tmpOffset env _ s⟩
  have hlen : (chain argsClobber).length = 2 := by
    simp [chain, argsClobber, opNode, constNode]
  have h := hgen env0 0 argsClobber initState
  rw [hlen] at h
  refine ⟨hgen, hlen, ?_, ?_, ?_, ?_⟩
  · rw [h.1]; rfl
  · rw [h.2]; rfl
  · simp [pushArguments, argsClobber, opNode, constNode, mkInfo, genExp, cGen, genOp, emitRM,
      emitRO, emitLine, traceComment, env0, initState]
  · rw [pushArguments_argsClobber]
    simp [tmRun, tmStep, tmFrame, loadProgram, argsClobberCode, instrAt, setCell, pc, ac, ac1, mp,
      ADDR_SIZE]

theorem utf8ByteSize_go_append (a b : List Char) :
    String.utf8ByteSize.go (a ++ b) =
      String.utf8ByteSize.go a + String.utf8ByteSize.go b := by
  induction a with
  | nil => simp [String.utf8ByteSize.go]
  | cons c cs ih => simp [String.utf8ByteSize.go, ih]; omega

/-- The size in bytes of a concatenation. -/
theorem utf8ByteSize_append (a b : String) :
    (a ++ b).utf8ByteSize = a.utf8ByteSize + b.utf8ByteSize := by
  cases a; cases b
  show String.utf8ByteSize.go (_ ++ _) = _
  rw [utf8ByteSize_go_append]
  rfl

theorem utf8ByteSize_go_replicate (n : Nat) :
    String.utf8ByteSize.go (List.replicate n 'a') = n := by
  induction n with
  | zero => rfl
  | succ n ih =>
    rw [List.replicate_succ, String.utf8ByteSize.go, ih]
    have : Char.utf8Size 'a' = 1 := by decide
    omega

theorem longFunctionName_size : longFunctionName.utf8ByteSize = 126 := by
  exact utf8ByteSize_go_replicate 126

theorem nameOf_injective (i j : Nat) (h : nameOf i = nameOf j) : i = j := by
  have := congrArg String.length h
  simpa [nameOf, String.length] using this

theorem wideScope_flatten (n : Nat) :
    (wideScope n).flatten = (List.range (n + 2)).map
      (fun k => ({ name := nameOf k, memloc := (k : Int) } : BucketListRec)) := by
  have h : ∀ k : Nat, (List.replicate k ([] : List BucketListRec)).flatten = [] := by
    intro k
    induction k with
    | zero => rfl
    | succ k ih => rw [List.replicate_succ, List.flatten_cons, ih]; rfl
  unfold wideScope
  rw [List.flatten_cons, h, List.append_nil]

theorem wideScope_overruns (n : Nat) : ¬ ParametersFit (n + 1) (wideScope n) := by
  intro h
  have hm : ({ name := nameOf (n + 1), memloc := ((n + 1 : Nat) : Int) } : BucketListRec) ∈
      ((wideScope n).take (n + 1)).flatten := by
    unfold wideScope
    rw [List.take_succ_cons, List.flatten_cons]
    exact List.mem_append_left _
      (List.mem_map.mpr ⟨n + 1, List.mem_range.mpr (by omega), rfl⟩)
  have := (h _ hm).2
  simp only at this
  omega

/-- Counterexample to C12: with every premise of the claim met,
`pushParameters` has no defined result. A function name of 126 bytes makes
`sprintf` write 129 bytes into `char tmp[128]`, whatever the scope and the
stack are, also for the scope of the two parameters `a` and `b` and the
empty stack. And a scope of `SIZE = n + 1` buckets with the `n + 2`
parameters `nameOf 0, ..., nameOf (n + 1)`, pairwise distinct, at the
locations `0, ..., n + 1` makes the first loop store at
`parameters[SIZE]`, past the end of the array, whatever the stack is. -/
theorem pushParameters_overruns :
    longFunctionName.utf8ByteSize = 126 ∧
    (∀ (SIZE : Nat) (getScope : String → Option ScopeList) (junk : Int → Option String)
      (st : NameStacks), pushParameters SIZE getScope junk longFunctionName st = none) ∧
    scopeSample.length = 2 ∧
    scopeSample.flatten.Perm ((List.range (1 + 1)).map
      (fun k => ({ name := paramSample k, memloc := (k : Int) } : BucketListRec))) ∧
    paramSample 0 ≠ paramSample 1 ∧
    ((1 : Nat) : Int) + 1 ≤ initNameStacks.parameterStackIndex ∧
    pushParameters 2 (fun _ => some scopeSample) (fun _ => none) longFunctionName
      initNameStacks = none ∧
    ∀ n : Nat,
      (wideScope n).length = n + 1 ∧
      (wideScope n).flatten = (List.range (n + 1 + 1)).map
        (fun k => ({ name := nameOf k, memloc := (k : Int) } : BucketListRec)) ∧
      (∀ i j : Nat, nameOf i = nameOf j → i = j) ∧
      fitsBuffer ("~:" ++ "f") ∧
      ∀ (junk : Int → Option String) (st : NameStacks),
        pushParameters (n + 1) (fun _ => some (wideScope n)) junk "f" st = none := by
  have hlong : ¬ fitsBuffer ("~:" ++ longFunctionName) := by
    unfold fitsBuffer
    rw [utf8ByteSize_append, longFunctionName_size]
    have : ("~:" : String).utf8ByteSize = 2 := by decide
    omega
  have hnone : ∀ (SIZE : Nat) (getScope : String → Option ScopeList)
      (junk : Int → Option String) (st : NameStacks),
      pushParameters SIZE getScope junk longFunctionName st = none := by
    intro SIZE getScope junk st
    unfold pushParameters
    rw [if_neg hlong]
  refine ⟨longFunctionName_size, hnone, rfl, List.Perm.swap _ _ _, by decide, by decide,
    hnone _ _ _ _, ?_⟩
  intro n
  refine ⟨by simp [wideScope], wideScope_flatten n, nameOf_injective, by decide, ?_⟩
  intro junk st
  unfold pushParameters
  rw [if_pos (by decide)]
  simp only
  rw [if_neg (wideScope_overruns n)]

/-- C12, as amended: round trip of parameter binding and lookup. If the
text `"~:"` followed by the name of function `f` fits `char tmp[128]`, the
scope of `f` has `SIZE` buckets and holds exactly `m + 1` parameters with
pairwise distinct names `p 0, ..., p m` at the slot indices `0, ..., m`,
these indices are inside `parameters[SIZE]`, that is `m < SIZE`, and the
parameter stack, whatever its entries, has at least `m + 1` free entries
below an index of at most 1024, then `pushParameters(f)` returns, the stack
index has dropped by `m + 1` and `getParameterOffset(p k) = k` for every `k`
in `0..m`. -/
theorem pushParameters_roundtrip (SIZE : Nat) (getScope : String → Option ScopeList)
    (junk : Int → Option String) (f : String) (st : NameStacks) (scope : ScopeList)
    (m : Nat) (p : Nat → String)
    (hname : fitsBuffer ("~:" ++ f))
    (hscope : getScope ("~:" ++ f) = some scope)
    (hlen : scope.length = SIZE)
    (hperm : scope.flatten.Perm
      ((List.range (m + 1)).map (fun k => ({ name := p k, memloc := (k : Int) } : BucketListRec))))
    (hinj : ∀ i j : Nat, i ≤ m → j ≤ m → p i = p j → i = j)
    (hsize : m < SIZE)
    (hroom : (m : Int) + 1 ≤ st.parameterStackIndex)
    (hcap : st.parameterStackIndex ≤ 1024) :
    ∃ st' : NameStacks, pushParameters SIZE getScope junk f st = some st' ∧
      st'.parameterStackIndex = st.parameterStackIndex - (m + 1) ∧
      ∀ k : Nat, k ≤ m → getParameterOffset st' (p k) = k :=
  pushParameters_lookup SIZE getScope junk f st scope m p hname hscope hlen hperm hinj hsize
    hroom hcap

/-- Witness of the amended C12 on the scope of the parameters `a` and `b`,
two buckets, bound for the function `f` on the empty stack. -/
theorem pushParameters_roundtrip_witness :
    fitsBuffer ("~:" ++ "f") ∧ scopeSample.length = 2 ∧
    ((1 : Nat) : Int) + 1 ≤ initNameStacks.parameterStackIndex ∧
    initNameStacks.parameterStackIndex ≤ 1024 ∧
    ∃ st' : NameStacks,
      pushParameters 2 (fun _ => some scopeSample) (fun _ => none) "f" initNameStacks =
        some st' ∧
      st'.parameterStackIndex = 1024 - (1 + 1) ∧
      getParameterOffset st' "a" = 0 ∧ getParameterOffset st' "b" = 1 := by
  have hperm : scopeSample.flatten.Perm ((List.range (1 + 1)).map
      (fun k => ({ name := paramSample k, memloc := (k : Int) } : BucketListRec))) :=
    List.Perm.swap _ _ _
  have hinj : ∀ i j : Nat, i ≤ 1 → j ≤ 1 → paramSample i = paramSample j → i = j := by
    intro i j hi hj
    interval_cases i <;> interval_cases j <;> simp [paramSample]
  obtain ⟨st', h0, h1, h2⟩ := pushParameters_roundtrip 2 (fun _ => some scopeSample)
    (fun _ => none) "f" initNameStacks scopeSample 1 paramSample (by decide) rfl rfl hperm hinj
    (by decide) (by decide) (by decide)
  exact ⟨by decide, rfl, by decide, by decide, st', h0, h1, h2 0 (by decide), h2 1 (by decide)⟩

@[simp] theorem traceComment_highEmitLoc (env : Env) (c : String) (s : GenState) :
    (traceComment env c s).highEmitLoc = s.highEmitLoc := by
  unfold traceComment; split <;> rfl

@[simp] theorem traceComment_instrLines (env : Env) (c : String) (s : GenState) :
    instrLines (traceComment env c s).code = instrLines s.code := by
  unfold traceComment; split <;> rfl

/-- One call of `insertFunction` with the emit cursor at the append position
and both table slots below it. -/
theorem insertFunctionPatch_spec (env : Env) (functionLocation : Int) (name : String)
    (s : GenState) (hs : s.emitLoc = s.highEmitLoc)
    (hp : s.forFunctionTable + 2 ≤ s.highEmitLoc) :
    (insertFunctionPatch env functionLocation name s).forFunctionTable = s.forFunctionTable + 2 ∧
    (insertFunctionPatch env functionLocation name s).emitLoc = s.emitLoc ∧
    (insertFunctionPatch env functionLocation name s).highEmitLoc = s.highEmitLoc ∧
    instrAt (insertFunctionPatch env functionLocation name s).code s.forFunctionTable =
      some (Instr.RM Opcode.LDC ac functionLocation 0
        ("load function location(" ++ toString functionLocation ++ ")")) ∧
    instrAt (insertFunctionPatch env functionLocation name s).code (s.forFunctionTable + 1) =
      some (Instr.RM Opcode.ST ac (env.st_get_location "~" name) gp "add into memory") ∧
    (∀ i : Int, i ≠ s.forFunctionTable → i ≠ s.forFunctionTable + 1 →
      instrAt (insertFunctionPatch env functionLocation name s).code i = instrAt s.code i) ∧
    instrLines (insertFunctionPatch env functionLocation name s).code =
      (s.forFunctionTable + 1,
        Instr.RM Opcode.ST ac (env.st_get_location "~" name) gp "add into memory") ::
      (s.forFunctionTable, Instr.RM Opcode.LDC ac functionLocation 0
        ("load function location(" ++ toString functionLocation ++ ")")) ::
      instrLines s.code := by
  have hmax : max (max s.highEmitLoc (s.forFunctionTable + 1)) (s.forFunctionTable + 1 + 1) =
      s.highEmitLoc := by omega
  have hne : s.forFunctionTable + 1 ≠ s.forFunctionTable := by omega
  refine ⟨?_, ?_, ?_, ?_, ?_, ?_, ?_⟩
  · simp [insertFunctionPatch, emitRestore, emitRM, emitLine, emitBackup]
  · simp only [insertFunctionPatch, emitRestore, emitRM, emitLine, emitBackup,
      traceComment_highEmitLoc, traceComment_emitLoc]
    rw [hmax, hs]
  · simp only [insertFunctionPatch, emitRestore, emitRM, emitLine, emitBackup,
      traceComment_highEmitLoc, traceComment_emitLoc]
    exact hmax
  · simp [insertFunctionPatch, emitRestore, emitRM, emitLine, emitBackup, traceComment_instrAt, hne]
  · simp [insertFunctionPatch, emitRestore, emitRM, emitLine, emitBackup]
  · intro i h1 h2
    have h1' : s.forFunctionTable ≠ i := fun h => h1 h.symm
    have h2' : s.forFunctionTable + 1 ≠ i := fun h => h2 h.symm
    simp [insertFunctionPatch, emitRestore, emitRM, emitLine, emitBackup, traceComment_instrAt,
      h1', h2']
  · simp [insertFunctionPatch, emitRestore, emitRM, emitLine, emitBackup, instrLines]

/-- Successive calls of `insertFunction` with the emit cursor at the append
position and all the table slots they use below it. -/
theorem insertFunctionsPatch_spec (env : Env) (fs : List (Int × String)) :
    ∀ s : GenState, s.emitLoc = s.highEmitLoc →
      s.forFunctionTable + 2 * fs.length ≤ s.highEmitLoc →
      (insertFunctionsPatch env fs s).forFunctionTable = s.forFunctionTable + 2 * fs.length ∧
      (insertFunctionsPatch env fs s).emitLoc = s.emitLoc ∧
      (insertFunctionsPatch env fs s).highEmitLoc = s.highEmitLoc ∧
      (∀ (j : Nat) (hj : j < fs.length),
        instrAt (insertFunctionsPatch env fs s).code (s.forFunctionTable + 2 * j) =
          some (Instr.RM Opcode.LDC ac fs[j].1 0
            ("load function location(" ++ toString fs[j].1 ++ ")")) ∧
        instrAt (insertFunctionsPatch env fs s).code (s.forFunctionTable + 2 * j + 1) =
          some (Instr.RM Opcode.ST ac (env.st_get_location "~" fs[j].2) gp
            "add into memory")) ∧
      (∀ i : Int, i < s.forFunctionTable ∨ s.forFunctionTable + 2 * fs.length ≤ i →
        instrAt (insertFunctionsPatch env fs s).code i = instrAt s.code i) := by
  induction fs with
  | nil =>
    intro s _ _
    refine ⟨by simp [insertFunctionsPatch], rfl, rfl, ?_, fun _ _ => rfl⟩
    intro j hj
    exact absurd hj (Nat.not_lt_zero j)
  | cons f rest ih =>
    intro s hs hp
    simp only [List.length_cons, Nat.cast_add, Nat.cast_one] at hp
    obtain ⟨q1, q2, q3, q4, q5, q6, _⟩ := insertFunctionPatch_spec env f.1 f.2 s hs (by omega)
    obtain ⟨r1, r2, r3, r4, r5⟩ := ih (insertFunctionPatch env f.1 f.2 s) (by rw [q2, q3]; exact hs)
      (by rw [q1, q3]; omega)
    have hfold : insertFunctionsPatch env (f :: rest) s =
        insertFunctionsPatch env rest (insertFunctionPatch env f.1 f.2 s) := rfl
    rw [hfold]
    refine ⟨?_, by rw [r2, q2], by rw [r3, q3], ?_, ?_⟩
    · rw [r1, q1]
      simp only [List.length_cons, Nat.cast_add, Nat.cast_one]
      ring
    · intro j hj
      cases j with
      | zero =>
        simp only [List.getElem_cons_zero, Nat.cast_zero, mul_zero, add_zero]
        rw [r5 _ (Or.inl (by rw [q1]; omega)), r5 _ (Or.inl (by rw [q1]; omega))]
        exact ⟨q4, q5⟩
      | succ j =>
        have hj' : j < rest.length := by simpa using hj
        have h := r4 j hj'
        rw [q1] at h
        simp only [List.getElem_cons_succ]
        have e1 : s.forFunctionTable + 2 * ((j + 1 : Nat) : Int) =
            s.forFunctionTable + 2 + 2 * (j : Int) := by push_cast; ring
        rw [e1]
        exact h
    · intro i hi
      simp only [List.length_cons, Nat.cast_add, Nat.cast_one] at hi
      rw [r5 i (by rw [q1]; omega), q6 i (by omega) (by omega)]

/-- One call of `insertFunction`, wherever the cursors are: the two lines it
writes and the table cursor. -/
theorem insertFunctionPatch_code (env : Env) (functionLocation : Int) (name : String)
    (s : GenState) :
    (insertFunctionPatch env functionLocation name s).forFunctionTable = s.forFunctionTable + 2 ∧
    (insertFunctionPatch env functionLocation name s).emitLoc =
      (insertFunctionPatch env functionLocation name s).highEmitLoc ∧
    instrAt (insertFunctionPatch env functionLocation name s).code s.forFunctionTable =
      some (Instr.RM Opcode.LDC ac functionLocation 0
        ("load function location(" ++ toString functionLocation ++ ")")) ∧
    instrAt (insertFunctionPatch env functionLocation name s).code (s.forFunctionTable + 1) =
      some (Instr.RM Opcode.ST ac (env.st_get_location "~" name) gp "add into memory") ∧
    (∀ i : Int, i ≠ s.forFunctionTable → i ≠ s.forFunctionTable + 1 →
      instrAt (insertFunctionPatch env functionLocation name s).code i = instrAt s.code i) ∧
    instrLines (insertFunctionPatch env functionLocation name s).code =
      (s.forFunctionTable + 1,
        Instr.RM Opcode.ST ac (env.st_get_location "~" name) gp "add into memory") ::
      (s.forFunctionTable, Instr.RM Opcode.LDC ac functionLocation 0
        ("load function location(" ++ toString functionLocation ++ ")")) ::
      instrLines s.code := by
  have hne : s.forFunctionTable + 1 ≠ s.forFunctionTable := by omega
  refine ⟨?_, rfl, ?_, ?_, ?_, ?_⟩
  · simp [insertFunctionPatch, emitRestore, emitRM, emitLine, emitBackup]
  · simp [insertFunctionPatch, emitRestore, emitRM, emitLine, emitBackup, traceComment_instrAt, hne]
  · simp [insertFunctionPatch, emitRestore, emitRM, emitLine, emitBackup]
  · intro i h1 h2
    have h1' : s.forFunctionTable ≠ i := fun h => h1 h.symm
    have h2' : s.forFunctionTable + 1 ≠ i := fun h => h2 h.symm
    simp [insertFunctionPatch, emitRestore, emitRM, emitLine, emitBackup, traceComment_instrAt,
      h1', h2']
  · simp [insertFunctionPatch, emitRestore, emitRM, emitLine, emitBackup, instrLines]

/-- Successive calls of `insertFunction`, wherever the cursors are: each
call has its own pair of slots. -/
theorem insertFunctionsPatch_code (env : Env) (fs : List (Int × String)) :
    ∀ s : GenState,
      (insertFunctionsPatch env fs s).forFunctionTable = s.forFunctionTable + 2 * fs.length ∧
      (s.emitLoc = s.highEmitLoc →
        (insertFunctionsPatch env fs s).emitLoc = (insertFunctionsPatch env fs s).highEmitLoc) ∧
      (∀ (j : Nat) (hj : j < fs.length),
        instrAt (insertFunctionsPatch env fs s).code (s.forFunctionTable + 2 * j) =
          some (Instr.RM Opcode.LDC ac fs[j].1 0
            ("load function location(" ++ toString fs[j].1 ++ ")")) ∧
        instrAt (insertFunctionsPatch env fs s).code (s.forFunctionTable + 2 * j + 1) =
          some (Instr.RM Opcode.ST ac (env.st_get_location "~" fs[j].2) gp
            "add into memory")) ∧
      (∀ i : Int, i < s.forFunctionTable ∨ s.forFunctionTable + 2 * fs.length ≤ i →
        instrAt (insertFunctionsPatch env fs s).code i = instrAt s.code i) := by
  induction fs with
  | nil =>
    intro s
    refine ⟨by simp [insertFunctionsPatch], fun h => h, ?_, fun _ _ => rfl⟩
    intro j hj
    exact absurd hj (Nat.not_lt_zero j)
  | cons f rest ih =>
    intro s
    obtain ⟨q1, q2, q4, q5, q6, _⟩ := insertFunctionPatch_code env f.1 f.2 s
    obtain ⟨r1, r2, r4, r5⟩ := ih (insertFunctionPatch env f.1 f.2 s)
    have hfold : insertFunctionsPatch env (f :: rest) s =
        insertFunctionsPatch env rest (insertFunctionPatch env f.1 f.2 s) := rfl
    rw [hfold]
    refine ⟨?_, fun _ => r2 q2, ?_, ?_⟩
    · rw [r1, q1]
      simp only [List.length_cons, Nat.cast_add, Nat.cast_one]
      ring
    · intro j hj
      cases j with
      | zero =>
        simp only [List.getElem_cons_zero, Nat.cast_zero, mul_zero, add_zero]
        rw [r5 _ (Or.inl (by rw [q1]; omega)), r5 _ (Or.inl (by rw [q1]; omega))]
        exact ⟨q4, q5⟩
      | succ j =>
        have hj' : j < rest.length := by simpa using hj
        have h := r4 j hj'
        rw [q1] at h
        simp only [List.getElem_cons_succ]
        have e1 : s.forFunctionTable + 2 * ((j + 1 : Nat) : Int) =
            s.forFunctionTable + 2 + 2 * (j : Int) := by push_cast; ring
        rw [e1]
        exact h
    · intro i hi
      simp only [List.length_cons, Nat.cast_add, Nat.cast_one] at hi
      rw [r5 i (by rw [q1]; omega), q6 i (by omega) (by omega)]

theorem insertFunction_fits (env : Env) (functionLocation : Int) (name : String)
    (s : GenState) (h : CommentsFit env functionLocation name) :
    insertFunction env functionLocation name s =
      some (insertFunctionPatch env functionLocation name s) := by
  unfold insertFunction
  rw [if_pos h]

theorem insertFunctions_fit (env : Env) (fs : List (Int × String)) :
    ∀ s : GenState, (∀ f ∈ fs, CommentsFit env f.1 f.2) →
      insertFunctions env fs s = some (insertFunctionsPatch env fs s) := by
  induction fs with
  | nil => intro s _; rfl
  | cons f rest ih =>
    intro s h
    have hf := h f (List.mem_cons_self _ _)
    have hr := ih (insertFunctionPatch env f.1 f.2 s)
      (fun g hg => h g (List.mem_cons_of_mem _ hg))
    simp only [insertFunctions, insertFunction_fits env f.1 f.2 s hf]
    exact hr

theorem longName_size :
    longName.utf8ByteSize = 124 ∧
    ("function " ++ longName ++ " is at ").utf8ByteSize = 140 := by
  have h : longName.utf8ByteSize = 124 := utf8ByteSize_go_replicate 124
  refine ⟨h, ?_⟩
  rw [utf8ByteSize_append, utf8ByteSize_append, h]
  have h1 : "function ".utf8ByteSize = 9 := by decide
  have h2 : " is at ".utf8ByteSize = 7 := by decide
  omega

/-- Counterexample to C13: for a name of 124 bytes the text
`"function %s is at %d"` takes 140 bytes before the digits of the location,
the `sprintf` overruns `comment[128]` and the call has no defined result,
whatever the location resolved for the name, in every state and whether
`TraceCode` is set or not. -/
theorem insertFunction_overruns_comment :
    longName.utf8ByteSize = 124 ∧
    ∀ (env : Env) (functionLocation : Int) (s : GenState),
      insertFunction env functionLocation longName s = none := by
  refine ⟨longName_size.1, ?_⟩
  intro env functionLocation s
  unfold insertFunction
  rw [if_neg]
  intro h
  have h1 := h.1
  unfold fitsBuffer at h1
  rw [utf8ByteSize_append, longName_size.2] at h1
  omega

/-- C13, as amended: `insertFunction(functionLocation, name)`, called with
the emit cursor at the append position and the function-table cursor at `p`,
for a name and a location whose comment texts fit the 128 bytes of
`comment`, writes exactly the slots `p` and `p + 1`, with 'load immediate
`functionLocation` into the accumulator' and 'store the accumulator to the
global memory location resolved for `name`', advances the function-table
cursor to `p + 2` and leaves the emit cursor at the append position, which
is where it was when both slots were slots of the stream already; hence `k`
successive such calls write the `k` pairwise disjoint slot pairs
`p + 2j, p + 2j + 1`, each holding the entry of its call at the end. -/
theorem insertFunction_writes_pair (env : Env) (functionLocation : Int) (name : String)
    (s : GenState) (hs : s.emitLoc = s.highEmitLoc)
    (hfit : CommentsFit env functionLocation name) :
    (∃ u : GenState, insertFunction env functionLocation name s = some u ∧
      (∃ c : String,
        instrAt u.code s.forFunctionTable =
          some (Instr.RM Opcode.LDC ac functionLocation 0 c)) ∧
      instrAt u.code (s.forFunctionTable + 1) =
        some (Instr.RM Opcode.ST ac (env.st_get_location "~" name) gp "add into memory") ∧
      (∀ i : Int, i ≠ s.forFunctionTable → i ≠ s.forFunctionTable + 1 →
        instrAt u.code i = instrAt s.code i) ∧
      (∃ c : String, instrLines u.code =
        (s.forFunctionTable + 1,
          Instr.RM Opcode.ST ac (env.st_get_location "~" name) gp "add into memory") ::
        (s.forFunctionTable, Instr.RM Opcode.LDC ac functionLocation 0 c) ::
        instrLines s.code) ∧
      u.forFunctionTable = s.forFunctionTable + 2 ∧
      u.emitLoc = u.highEmitLoc ∧
      (s.forFunctionTable + 2 ≤ s.highEmitLoc → u.emitLoc = s.emitLoc)) ∧
    ∀ fs : List (Int × String), (∀ f ∈ fs, CommentsFit env f.1 f.2) →
      ∃ w : GenState, insertFunctions env fs s = some w ∧
        w.forFunctionTable = s.forFunctionTable + 2 * fs.length ∧
        w.emitLoc = w.highEmitLoc ∧
        (s.forFunctionTable + 2 * fs.length ≤ s.highEmitLoc → w.emitLoc = s.emitLoc) ∧
        (∀ (j : Nat) (hj : j < fs.length),
          (∃ c : String, instrAt w.code (s.forFunctionTable + 2 * j) =
            some (Instr.RM Opcode.LDC ac fs[j].1 0 c)) ∧
          instrAt w.code (s.forFunctionTable + 2 * j + 1) =
            some (Instr.RM Opcode.ST ac (env.st_get_location "~" fs[j].2) gp
              "add into memory")) ∧
        (∀ i : Int, i < s.forFunctionTable ∨ s.forFunctionTable + 2 * fs.length ≤ i →
          instrAt w.code i = instrAt s.code i) := by
  obtain ⟨q1, q2, q4, q5, q6, q7⟩ := insertFunctionPatch_code env functionLocation name s
  refine ⟨⟨_, insertFunction_fits env functionLocation name s hfit, ⟨_, q4⟩, q5, q6, ⟨_, q7⟩,
    q1, q2, fun hp => (insertFunctionPatch_spec env functionLocation name s hs hp).2.1⟩, ?_⟩
  intro fs hfs
  obtain ⟨r1, r2, r4, r5⟩ := insertFunctionsPatch_code env fs s
  exact ⟨_, insertFunctions_fit env fs s hfs, r1, r2 hs,
    fun hle => (insertFunctionsPatch_spec env fs s hs hle).2.1,
    fun j hj => ⟨⟨_, (r4 j hj).1⟩, (r4 j hj).2⟩, r5⟩

/-- Witness of the amended C13: `insertFunction(9, "f")` in the state after
the prelude of `codeGen` for one declaration, with the table cursor at 2 and
the emit cursor at 5. -/
theorem insertFunction_writes_pair_witness :
    (codeGenPrelude "out.tm" 1 initState).emitLoc =
      (codeGenPrelude "out.tm" 1 initState).highEmitLoc ∧
    CommentsFit env0 9 "f" ∧
    ∃ u : GenState,
      insertFunction env0 9 "f" (codeGenPrelude "out.tm" 1 initState) = some u ∧
      (∃ c : String, instrAt u.code 2 = some (Instr.RM Opcode.LDC ac 9 0 c)) ∧
      instrAt u.code 3 = some (Instr.RM Opcode.ST ac 0 gp "add into memory") ∧
      u.forFunctionTable = 4 ∧ u.emitLoc = 5 := by
  have hs : (codeGenPrelude "out.tm" 1 initState).emitLoc =
      (codeGenPrelude "out.tm" 1 initState).highEmitLoc := by decide
  have hp : (codeGenPrelude "out.tm" 1 initState).forFunctionTable + 2 ≤
      (codeGenPrelude "out.tm" 1 initState).highEmitLoc := by decide
  have hfit : CommentsFit env0 9 "f" := by
    unfold CommentsFit fitsBuffer
    constructor <;> decide
  have et : (codeGenPrelude "out.tm" 1 initState).forFunctionTable = 2 := by decide
  have ee : (codeGenPrelude "out.tm" 1 initState).emitLoc = 5 := by decide
  obtain ⟨⟨u, hu, h1, h2, _, _, h5, _, h7⟩, _⟩ :=
    insertFunction_writes_pair env0 9 "f" (codeGenPrelude "out.tm" 1 initState) hs hfit
  rw [et] at h1 h2 h5
  have h7' := h7 hp
  rw [ee] at h7'
  exact ⟨hs, hfit, u, hu, h1, h2, h5, h7'⟩

/-- The stream for an array declaration followed by `write 1` when the
count handed to `emitSkip` is below -1: the body is written where the cursor
was moved back to. -/
theorem decl_write_stream (len D : Int)
    (hD : getSizeOfGlobal (arrayNode len progWrite) = some D) (hc : tableSlots D < -1) :
    ∃ f : GenState, codeGen env0 (arrayNode len progWrite) "out.tm" initState = some f ∧
      f.forFunctionTable = 2 ∧
      instrAt f.code (2 + tableSlots D) = some (Instr.RM Opcode.LDC ac 1 0 "load const") ∧
      instrAt f.code (2 + tableSlots D + 1) = some (Instr.RO Opcode.OUT ac 0 0 "write ac") ∧
      instrAt f.code 2 = some (Instr.RM Opcode.LDC pc 0 0 "jump to main") := by
  obtain ⟨q1, q2, q3, q4, q5, _⟩ := codeGenPrelude_fresh "out.tm" D initState ⟨rfl, rfl, rfl⟩
  have hb : cGen env0 (arrayNode len progWrite) (codeGenPrelude "out.tm" D initState) =
      emitLine (Instr.RO Opcode.OUT ac 0 0 "write ac")
        (emitLine (Instr.RM Opcode.LDC ac 1 0 "load const")
          (codeGenPrelude "out.tm" D initState)) := by
    simp [arrayNode, progWrite, writeNode, constNode, mkInfo, cGen, genStmt, genExp, emitRM,
      emitRO, traceComment, env0]
  have hcode : (cGen env0 (arrayNode len progWrite) (codeGenPrelude "out.tm" D initState)).code =
      Line.instr (2 + tableSlots D + 1) (Instr.RO Opcode.OUT ac 0 0 "write ac") ::
      Line.instr (2 + tableSlots D) (Instr.RM Opcode.LDC ac 1 0 "load const") ::
      (codeGenPrelude "out.tm" D initState).code := by
    rw [hb, ← q2]
    rfl
  have hhigh : (cGen env0 (arrayNode len progWrite)
      (codeGenPrelude "out.tm" D initState)).highEmitLoc = 2 := by
    rw [hb]
    show max (max (codeGenPrelude "out.tm" D initState).highEmitLoc
      ((codeGenPrelude "out.tm" D initState).emitLoc + 1))
      ((codeGenPrelude "out.tm" D initState).emitLoc + 1 + 1) = 2
    rw [q2, q3]
    omega
  have htab : (cGen env0 (arrayNode len progWrite)
      (codeGenPrelude "out.tm" D initState)).forFunctionTable = 2 := by
    rw [hb]
    exact q1
  have hmain : (cGen env0 (arrayNode len progWrite)
      (codeGenPrelude "out.tm" D initState)).locMain = 0 := by
    rw [hb]
    exact q5
  have e1 : ¬ (3 : Int) = 2 + tableSlots D := by omega
  have e2 : ¬ (2 : Int) = 2 + tableSlots D := by omega
  have e3 : ¬ 2 + tableSlots D + 1 = 2 + tableSlots D := by omega
  have e4 : ¬ (3 : Int) = 2 + tableSlots D + 1 := by omega
  have e5 : ¬ (2 : Int) = 2 + tableSlots D + 1 := by omega
  have e6 : ¬ (3 : Int) = 2 := by omega
  refine ⟨codeGenFinish (cGen env0 (arrayNode len progWrite)
    (codeGenPrelude "out.tm" D initState)), by simp [codeGen, hD], htab, ?_, ?_, ?_⟩
  · rw [codeGenFinish_code, hhigh, htab, hcode]
    show instrAt (Line.instr 3 _ :: _) _ = _
    rw [instrAt_instr, if_neg e1, instrAt_comment, instrAt_instr, if_neg e2, instrAt_instr,
      if_neg e3, instrAt_instr, if_pos rfl]
  · rw [codeGenFinish_code, hhigh, htab, hcode]
    show instrAt (Line.instr 3 _ :: _) _ = _
    rw [instrAt_instr, if_neg e4, instrAt_comment, instrAt_instr, if_neg e5, instrAt_instr,
      if_pos rfl]
  · rw [codeGenFinish_code, hhigh, htab, hmain]
    show instrAt (Line.instr 3 _ :: _) _ = _
    rw [instrAt_instr, if_neg e6, instrAt_comment, instrAt_instr, if_pos rfl]

/-- Counterexample to C14. For an array of 2^30 elements followed by
`write 1` the count is `D = 2^30 + 1`, `D*2 + 1` wraps to -2147483645 and the
body code is written from index `2 - 2147483645` on, before the prelude and
not after the region that starts at 2. For a declared length of -3 followed
by `write 1` the count is -2, the cursor goes back to -1 and the body
overwrites the first prelude instruction: index 0 holds the `OUT`. -/
theorem body_not_after_region :
    (getSizeOfGlobal hugeProg = some 1073741825 ∧ tableSlots 1073741825 = -2147483645 ∧
      ∃ f : GenState, codeGen env0 hugeProg "out.tm" initState = some f ∧
        f.forFunctionTable = 2 ∧
        instrAt f.code (2 + tableSlots 1073741825) =
          some (Instr.RM Opcode.LDC ac 1 0 "load const") ∧
        instrAt f.code (2 + tableSlots 1073741825 + 1) =
          some (Instr.RO Opcode.OUT ac 0 0 "write ac") ∧
        instrAt f.code 2 = some (Instr.RM Opcode.LDC pc 0 0 "jump to main")) ∧
    (getSizeOfGlobal negProg = some (-2) ∧ tableSlots (-2) = -3 ∧
      ∃ f : GenState, codeGen env0 negProg "out.tm" initState = some f ∧
        instrAt f.code (-1) = some (Instr.RM Opcode.LDC ac 1 0 "load const") ∧
        instrAt f.code 0 = some (Instr.RO Opcode.OUT ac 0 0 "write ac")) := by
  have g1 : getSizeOfGlobal hugeProg = some 1073741825 := by decide
  have g2 : getSizeOfGlobal negProg = some (-2) := by decide
  have t1 : tableSlots 1073741825 = -2147483645 := by decide
  have t2 : tableSlots (-2) = -3 := by decide
  refine ⟨⟨g1, t1, decl_write_stream 1073741824 1073741825 g1 (by rw [t1]; decide)⟩, g2, t2, ?_⟩
  obtain ⟨f, hf, _, h1, h2, _⟩ := decl_write_stream (-3) (-2) g2 (by rw [t2]; decide)
  rw [t2] at h1 h2
  exact ⟨f, hf, h1, h2⟩

/-- C14, as amended: for every tree the stream `codeGen` produces from a
fresh state has the function-table region starting at index 2 and `HALT` as
the last instruction written, at the highest written index of the stream.
When the declaration count satisfies `0 <= D < 2^30`, so that the count
`2 * D + 1` handed to `emitSkip` is computed without overflow and is not
negative, the stream has the two prelude instructions at the indices 0 and 1
(load `mp` from location 0, store to location 0), the region holds
`2 * D + 1` slots, and the body code starts at the first index after the
region: the traversal leaves every index below it as it was and writes
every index from it to its final cursor, where the `HALT` is put. -/
theorem stream_layout (env : Env) (tree : TreeNode) (codefile : String)
    (s : GenState) (D : Int) (hD : getSizeOfGlobal tree = some D) (hf : Fresh s) :
    ∃ f : GenState, codeGen env tree codefile s = some f ∧
      f = codeGenFinish (cGen env tree (codeGenPrelude codefile D s)) ∧
      (codeGenPrelude codefile D s).forFunctionTable = 2 ∧
      lastInstr f.code = some (f.emitLoc - 1, Instr.RO Opcode.HALT 0 0 0 "done") ∧
      instrAt f.code (f.emitLoc - 1) = some (Instr.RO Opcode.HALT 0 0 0 "done") ∧
      (∀ i : Int, f.emitLoc - 1 < i → instrAt f.code i = none) ∧
      (0 ≤ D → D < 1073741824 →
        instrAt f.code 0 =
          some (Instr.RM Opcode.LD mp 0 ac "load maxaddress from location 0") ∧
        instrAt f.code 1 = some (Instr.RM Opcode.ST ac 0 ac "clear location 0") ∧
        (codeGenPrelude codefile D s).emitLoc = 2 + (2 * D + 1) ∧
        (∀ i : Int, i < 2 + (2 * D + 1) →
          instrAt (cGen env tree (codeGenPrelude codefile D s)).code i =
            instrAt (codeGenPrelude codefile D s).code i) ∧
        (∀ i : Int, 2 + (2 * D + 1) ≤ i →
          i < (cGen env tree (codeGenPrelude codefile D s)).emitLoc →
          (instrAt (cGen env tree (codeGenPrelude codefile D s)).code i).isSome = true ∧
          instrAt f.code i = instrAt (cGen env tree (codeGenPrelude codefile D s)).code i) ∧
        f.emitLoc - 1 = (cGen env tree (codeGenPrelude codefile D s)).emitLoc) := by
  obtain ⟨ht, _⟩ := body_table_main env tree codefile D s hf
  obtain ⟨p1, _, _, _, _, _⟩ := codeGenPrelude_fresh codefile D s hf
  have hcap := body_capped env tree codefile D s hf
  have hloc : (codeGenFinish (cGen env tree (codeGenPrelude codefile D s))).emitLoc - 1 =
      max (cGen env tree (codeGenPrelude codefile D s)).highEmitLoc (2 + 1) := by
    rw [codeGenFinish_emitLoc, ht]; omega
  refine ⟨codeGenFinish (cGen env tree (codeGenPrelude codefile D s)), by simp [codeGen, hD],
    rfl, p1, ?_, ?_, ?_, ?_⟩
  · rw [hloc, codeGenFinish_code, ht]
    rfl
  · rw [hloc, codeGenFinish_code, ht]
    simp
  · intro i hi
    rw [hloc] at hi
    have e1 : ¬ max (cGen env tree (codeGenPrelude codefile D s)).highEmitLoc (2 + 1) = i := by
      omega
    have e2 : ¬ (2 : Int) = i := by omega
    rw [codeGenFinish_code, ht]
    simp only [instrAt_instr, instrAt_comment, e1, e2, if_false]
    exact hcap i (by omega)
  · intro h0 h1
    have hts := tableSlots_of_range D h0 h1
    have hc : 0 ≤ tableSlots D := by rw [hts]; omega
    obtain ⟨hext, h2, hnone⟩ := body_ext env tree codefile D s hf hc
    obtain ⟨i0, i1, _⟩ := codeGen_start env tree codefile s D hf hc
    rw [hts] at h2
    have hat := hext.atEnd
    have hle := hext.le
    have hmax : max (cGen env tree (codeGenPrelude codefile D s)).highEmitLoc (2 + 1) =
        (cGen env tree (codeGenPrelude codefile D s)).emitLoc := by omega
    refine ⟨i0, i1, h2, ?_, ?_, by rw [hloc, hmax]⟩
    · intro i hi
      exact hext.below i (by omega)
    · intro i hlo hhi
      refine ⟨hext.filled i (by omega) hhi (fun h => h), ?_⟩
      have e1 : (cGen env tree (codeGenPrelude codefile D s)).emitLoc ≠ i := by omega
      have e2 : (2 : Int) ≠ i := by omega
      rw [codeGenFinish_code, ht, hmax]
      simp only [instrAt_instr, instrAt_comment, e1, e2, if_false]

/-- Witness of the amended C14 on the program `x := 2 + 3; write x`:
`D = 2`, the region is the slots 2 to 6, the body starts at 7 and `HALT` is
at 15. -/
theorem stream_layout_witness :
    getSizeOfGlobal progSum = some 2 ∧ Fresh initState ∧
    ∃ f : GenState, codeGen env0 progSum "out.tm" initState = some f ∧
      (codeGenPrelude "out.tm" 2 initState).forFunctionTable = 2 ∧
      lastInstr f.code = some (f.emitLoc - 1, Instr.RO Opcode.HALT 0 0 0 "done") ∧
      instrAt f.code 0 = some (Instr.RM Opcode.LD mp 0 ac "load maxaddress from location 0") ∧
      instrAt f.code 1 = some (Instr.RM Opcode.ST ac 0 ac "clear location 0") ∧
      (codeGenPrelude "out.tm" 2 initState).emitLoc = 2 + (2 * 2 + 1) ∧
      f.emitLoc - 1 = (cGen env0 progSum (codeGenPrelude "out.tm" 2 initState)).emitLoc := by
  obtain ⟨f, hc, _, h3, h4, _, _, h7⟩ :=
    stream_layout env0 progSum "out.tm" initState 2 (by decide) ⟨rfl, rfl, rfl⟩
  obtain ⟨i0, i1, e, _, _, l⟩ := h7 (by decide) (by decide)
  exact ⟨by decide, ⟨rfl, rfl, rfl⟩, f, hc, h3, h4, i0, i1, e, l⟩

/-- C19: a node whose node kind, statement sub-kind or expression sub-kind
is not one handled by the generator is silently ignored: `genStmt` and
`genExp`, whichever `cGen` calls, return the state as it was, so no
instruction and no comment is emitted for the node and `tmpOffset` does not
change, and `cGen` on the node is `cGen` on its sibling chain from the same
state. -/
theorem unhandled_node_ignored (env : Env) (info : NodeInfo) (c0 c1 c2 sib : TreeNode)
    (s : GenState) (h : Unhandled info) :
    cGen env (TreeNode.node info c0 c1 c2 sib) s = cGen env sib s ∧
    (info.nodekind = NodeKind.StmtK →
      genStmt env (TreeNode.node info c0 c1 c2 sib) s = s) ∧
    (info.nodekind = NodeKind.ExpK →
      genExp env (TreeNode.node info c0 c1 c2 sib) s = s) := by
  have hS : info.nodekind = NodeKind.StmtK →
      genStmt env (TreeNode.node info c0 c1 c2 sib) s = s := by
    intro hk
    rcases h with h | h | h
    · exact absurd hk h.1
    · obtain ⟨_, h1, h2, h3, h4, h5⟩ := h
      rw [genStmt]
      split <;> first | rfl | contradiction
    · rw [hk] at h
      exact absurd h.1 (by decide)
  have hE : info.nodekind = NodeKind.ExpK →
      genExp env (TreeNode.node info c0 c1 c2 sib) s = s := by
    intro hk
    rcases h with h | h | h
    · exact absurd hk h.2
    · rw [hk] at h
      exact absurd h.1 (by decide)
    · obtain ⟨_, h1, h2, h3⟩ := h
      rw [genExp]
      split <;> first | rfl | contradiction
  refine ⟨?_, hS, hE⟩
  rw [cGen]
  split
  · rw [hS (by assumption)]
  · rw [hE (by assumption)]
  · rfl

/-- Witness of C19 on a declaration node with a child and a sibling: only
the sibling is generated. -/
theorem unhandled_node_ignored_witness :
    Unhandled (mkInfo (NodeKind.other 0) (StmtKind.other 0) (ExpKind.other 0)) ∧
    cGen env0 declNode initState =
      cGen env0 (writeNode (constNode 1 TreeNode.null) TreeNode.null) initState :=
  have h : Unhandled (mkInfo (NodeKind.other 0) (StmtKind.other 0) (ExpKind.other 0)) :=
    Or.inl ⟨by decide, by decide⟩
  ⟨h, (unhandled_node_ignored env0 _ _ _ _ _ initState h).1⟩

/-! ## Lookup in the name stacks -/

/-- The search loop started at `i0`, not below the top of the stack, with
`fuel` iterations left: it returns -1 when none of the entries it visits is
the name, and otherwise the distance from the top to the first one that
is. -/
theorem searchStack_spec (stack : Int → Option String) (name : String) (index : Int) :
    ∀ (fuel : Nat) (i0 : Int), index ≤ i0 →
      ((∀ j : Nat, j < fuel → stack (i0 + j) ≠ some name) ∧
        searchStack stack name index fuel i0 = -1) ∨
      ∃ j : Nat, j < fuel ∧ stack (i0 + j) = some name ∧
        (∀ k : Nat, k < j → stack (i0 + k) ≠ some name) ∧
        searchStack stack name index fuel i0 = i0 + j - index := by
  intro fuel
  induction fuel with
  | zero =>
    intro i0 _
    exact Or.inl ⟨fun j hj => absurd hj (Nat.not_lt_zero j), rfl⟩
  | succ fuel ih =>
    intro i0 h0
    rw [searchStack]
    by_cases hm : stack i0 = some name
    · refine Or.inr ⟨0, Nat.succ_pos _, by simpa using hm,
        fun k hk => absurd hk (Nat.not_lt_zero k), ?_⟩
      simp [hm]
    · rw [if_neg hm]
      rcases ih (i0 + 1) (by omega) with ⟨hall, hres⟩ | ⟨j, hj, hjm, hjb, hres⟩
      · refine Or.inl ⟨?_, hres⟩
        intro j hj
        cases j with
        | zero => simpa using hm
        | succ j =>
          have := hall j (by omega)
          have e : i0 + ((j + 1 : Nat) : Int) = i0 + 1 + (j : Int) := by push_cast; ring
          rw [e]
          exact this
      · refine Or.inr ⟨j + 1, by omega, ?_, ?_, ?_⟩
        · have e : i0 + ((j + 1 : Nat) : Int) = i0 + 1 + (j : Int) := by push_cast; ring
          rw [e]
          exact hjm
        · intro k hk
          cases k with
          | zero => simpa using hm
          | succ k =>
            have := hjb k (by omega)
            have e : i0 + ((k + 1 : Nat) : Int) = i0 + 1 + (k : Int) := by push_cast; ring
            rw [e]
            exact this
        · rw [hres]
          push_cast
          ring

/-- The lookup over a whole stack, as both lookup functions run it: from
the top `index` to the array end 1023. -/
theorem searchStack_lookup (stack : Int → Option String) (name : String) (index : Int) :
    (searchStack stack name index (1024 - index).toNat index = -1 ↔
      ∀ i : Int, index ≤ i → i ≤ 1023 → stack i ≠ some name) ∧
    ∀ i : Int, index ≤ i → i ≤ 1023 → stack i = some name →
      ∃ j : Int, index ≤ j ∧ j ≤ i ∧ stack j = some name ∧
        (∀ k : Int, index ≤ k → k < j → stack k ≠ some name) ∧
        searchStack stack name index (1024 - index).toNat index = j - index ∧
        0 ≤ searchStack stack name index (1024 - index).toNat index ∧
        searchStack stack name index (1024 - index).toNat index ≤ 1023 - index := by
  have hspec := searchStack_spec stack name index (1024 - index).toNat index (le_refl _)
  have hnone : (∀ j : Nat, j < (1024 - index).toNat → stack (index + j) ≠ some name) →
      ∀ i : Int, index ≤ i → i ≤ 1023 → stack i ≠ some name := by
    intro hall i h1 h2
    have := hall (i - index).toNat (by omega)
    have e : index + ((i - index).toNat : Int) = i := by omega
    rw [e] at this
    exact this
  constructor
  · constructor
    · intro hres
      rcases hspec with ⟨hall, _⟩ | ⟨j, _, _, _, hr⟩
      · exact hnone hall
      · rw [hr] at hres
        omega
    · intro hall
      rcases hspec with ⟨_, hr⟩ | ⟨j, hj, hjm, _, _⟩
      · exact hr
      · exact absurd hjm (hall _ (by omega) (by omega))
  · intro i h1 h2 hi
    rcases hspec with ⟨hall, _⟩ | ⟨j, hj, hjm, hjb, hr⟩
    · exact absurd hi (hnone hall i h1 h2)
    · refine ⟨index + j, by omega, ?_, hjm, ?_, by rw [hr], by rw [hr]; omega,
        by rw [hr]; omega⟩
      · by_contra hlt
        have := hjb (i - index).toNat (by omega)
        have e : index + ((i - index).toNat : Int) = i := by omega
        rw [e] at this
        exact this hi
      · intro k hk1 hk2
        have := hjb (k - index).toNat (by omega)
        have e : index + ((k - index).toNat : Int) = k := by omega
        rw [e] at this
        exact this

/-- C20: `getParameterOffset(name)` and `getLocalNameOffset(name)` return
-1 exactly when no non-null entry between the current index of their stack
and the array end (index 1023) equals `name`; otherwise they return the
smallest distance `i - index` of a matching entry, the binding of that name
pushed last, and the result lies in `0 .. 1023 - index`. -/
theorem name_offset_lookup (st : NameStacks) (name : String) :
    ((getParameterOffset st name = -1 ↔
        ∀ i : Int, st.parameterStackIndex ≤ i → i ≤ 1023 →
          st.parameterStack i ≠ some name) ∧
      ∀ i : Int, st.parameterStackIndex ≤ i → i ≤ 1023 → st.parameterStack i = some name →
        ∃ j : Int, st.parameterStackIndex ≤ j ∧ j ≤ i ∧ st.parameterStack j = some name ∧
          (∀ k : Int, st.parameterStackIndex ≤ k → k < j → st.parameterStack k ≠ some name) ∧
          getParameterOffset st name = j - st.parameterStackIndex ∧
          0 ≤ getParameterOffset st name ∧
          getParameterOffset st name ≤ 1023 - st.parameterStackIndex) ∧
    ((getLocalNameOffset st name = -1 ↔
        ∀ i : Int, st.localNameStackIndex ≤ i → i ≤ 1023 →
          st.localNameStack i ≠ some name) ∧
      ∀ i : Int, st.localNameStackIndex ≤ i → i ≤ 1023 → st.localNameStack i = some name →
        ∃ j : Int, st.localNameStackIndex ≤ j ∧ j ≤ i ∧ st.localNameStack j = some name ∧
          (∀ k : Int, st.localNameStackIndex ≤ k → k < j → st.localNameStack k ≠ some name) ∧
          getLocalNameOffset st name = j - st.localNameStackIndex ∧
          0 ≤ getLocalNameOffset st name ∧
          getLocalNameOffset st name ≤ 1023 - st.localNameStackIndex) :=
  ⟨searchStack_lookup st.parameterStack name st.parameterStackIndex,
    searchStack_lookup st.localNameStack name st.localNameStackIndex⟩

/-- Witness of C20 on a stack holding `x`, `y`, `x`: the binding of `x`
pushed last is found, at distance 0, `y` at distance 1, and `z` is not
found. -/
theorem name_offset_lookup_witness :
    getParameterOffset stackSample "x" = 0 ∧ getParameterOffset stackSample "y" = 1 ∧
    getParameterOffset stackSample "z" = -1 ∧
    (getParameterOffset stackSample "z" = -1 ↔
      ∀ i : Int, stackSample.parameterStackIndex ≤ i → i ≤ 1023 →
        stackSample.parameterStack i ≠ some "z") := by
  refine ⟨?_, ?_, ?_, (name_offset_lookup stackSample "z").1.1⟩
  · have h := (name_offset_lookup stackSample "x").1.2 1021 (by decide) (by decide)
      (by simp [stackSample])
    obtain ⟨j, hj1, hj2, _, _, hr, _⟩ := h
    have : j = 1021 := le_antisymm hj2 hj1
    rw [hr, this]; rfl
  · have h := (name_offset_lookup stackSample "y").1.2 1022 (by decide) (by decide)
      (by simp [stackSample])
    obtain ⟨j, hj1, hj2, hjm, _, hr, _⟩ := h
    have hj1' : (1021 : Int) ≤ j := hj1
    have : j = 1022 := by
      by_contra hne
      have hj : j = 1021 := by omega
      rw [hj] at hjm
      simp [stackSample] at hjm
    rw [hr, this]; rfl
  · refine (name_offset_lookup stackSample "z").1.1.mpr ?_
    intro i h1 h2
    have h1' : (1021 : Int) ≤ i := h1
    have : i = 1021 ∨ i = 1022 ∨ i = 1023 := by omega
    rcases this with h | h | h <;> subst h <;> simp [stackSample]

/-- The operation case of `genExp` in terms of its stages. -/
theorem genExp_opK (env : Env) (info : NodeInfo) (p1 p2 c2 sib : TreeNode) (s : GenState)
    (hk : info.kindExp = ExpKind.OpK) :
    genExp env (TreeNode.node info p1 p2 c2 sib) s =
      traceComment env "<- Op" (genOp info.attrOp (opPopped env p1 p2 s)) := by
  rw [genExp]
  simp only [hk]
  rfl

theorem cGen_tmpOffset (env : Env) (tree : TreeNode) (s : GenState) :
    (cGen env tree s).tmpOffset = s.tmpOffset :=
  (tmpOffset_preserved env tree s).1

theorem opAfterLeft_tmpOffset (env : Env) (p1 : TreeNode) (s : GenState) :
    (opAfterLeft env p1 s).tmpOffset = s.tmpOffset := by
  unfold opAfterLeft
  rw [cGen_tmpOffset, traceComment_tmpOffset]

theorem opPushed_tmpOffset (env : Env) (p1 : TreeNode) (s : GenState) :
    (opPushed env p1 s).tmpOffset = s.tmpOffset - 1 := by
  show (opAfterLeft env p1 s).tmpOffset - 1 = _
  rw [opAfterLeft_tmpOffset]

theorem opAfterRight_tmpOffset (env : Env) (p1 p2 : TreeNode) (s : GenState) :
    (opAfterRight env p1 p2 s).tmpOffset = s.tmpOffset - 1 := by
  unfold opAfterRight
  rw [cGen_tmpOffset, opPushed_tmpOffset]

/-- The push of an operation node stores the accumulator at the offset
`tmpOffset` has on entry. -/
theorem opPushed_code (env : Env) (p1 : TreeNode) (s : GenState) :
    (opPushed env p1 s).code =
      Line.instr (opAfterLeft env p1 s).emitLoc
        (Instr.RM Opcode.ST ac s.tmpOffset mp "op: push left") ::
      (opAfterLeft env p1 s).code := by
  show Line.instr _ (Instr.RM Opcode.ST ac (opAfterLeft env p1 s).tmpOffset mp _) :: _ = _
  rw [opAfterLeft_tmpOffset]

/-- The pop of an operation node loads the secondary register from the
offset `tmpOffset` has on entry. -/
theorem opPopped_code (env : Env) (p1 p2 : TreeNode) (s : GenState) :
    (opPopped env p1 p2 s).code =
      Line.instr (opAfterRight env p1 p2 s).emitLoc
        (Instr.RM Opcode.LD ac1 s.tmpOffset mp "op: load left") ::
      (opAfterRight env p1 p2 s).code := by
  show Line.instr _ (Instr.RM Opcode.LD ac1 ((opAfterRight env p1 p2 s).tmpOffset + 1) mp _)
    :: _ = _
  rw [opAfterRight_tmpOffset]
  congr 3
  ring

theorem genOp_notOperator (op : TokenType) (h : NotOperator op) (u : GenState) :
    genOp op u = emitComment "BUG: Unknown operator" u := by
  obtain ⟨h1, h2, h3, h4, h5, h6⟩ := h
  cases op <;> first | rfl | contradiction

/-- C18: for an operation node whose operator is none of add, subtract,
multiply, divide, less-than, equals, generation does not fail: after the
pop it emits the diagnostic comment and no instruction for the operator, so
the instructions emitted for the node are exactly the left-operand code,
the push, the right-operand code and the pop, and `tmpOffset` is still
balanced. -/
theorem unknown_operator_comment_only (env : Env) (info : NodeInfo)
    (p1 p2 c2 sib : TreeNode) (s : GenState)
    (hk : info.kindExp = ExpKind.OpK) (hop : NotOperator info.attrOp) :
    genExp env (TreeNode.node info p1 p2 c2 sib) s =
      traceComment env "<- Op"
        (emitComment "BUG: Unknown operator" (opPopped env p1 p2 s)) ∧
    (emitComment "BUG: Unknown operator" (opPopped env p1 p2 s)).code =
      Line.comment "BUG: Unknown operator" :: (opPopped env p1 p2 s).code ∧
    instrLines (genExp env (TreeNode.node info p1 p2 c2 sib) s).code =
      ((opAfterRight env p1 p2 s).emitLoc,
        Instr.RM Opcode.LD ac1 s.tmpOffset mp "op: load left") ::
      instrLines (cGen env p2 (opPushed env p1 s)).code ∧
    instrLines (opPushed env p1 s).code =
      ((opAfterLeft env p1 s).emitLoc, Instr.RM Opcode.ST ac s.tmpOffset mp "op: push left") ::
      instrLines (cGen env p1 (traceComment env "-> Op" s)).code ∧
    instrLines (traceComment env "-> Op" s).code = instrLines s.code ∧
    (genExp env (TreeNode.node info p1 p2 c2 sib) s).tmpOffset = s.tmpOffset := by
  have hg := genExp_opK env info p1 p2 c2 sib s hk
  rw [genOp_notOperator info.attrOp hop] at hg
  refine ⟨hg, rfl, ?_, ?_, traceComment_instrLines env _ s, (tmpOffset_preserved env _ s).2.2⟩
  · rw [hg, traceComment_instrLines]
    show instrLines (opPopped env p1 p2 s).code = _
    rw [opPopped_code]
    rfl
  · rw [opPushed_code]
    rfl

/-- Witness of C18 on the node `1 ? 2` whose operator token is unknown. -/
theorem unknown_operator_comment_only_witness :
    (mkInfo NodeKind.ExpK (StmtKind.other 0) ExpKind.OpK).kindExp = ExpKind.OpK ∧
    NotOperator (TokenType.other 0) ∧
    instrLines (genExp env0 opUnknownSample initState).code =
      [(3, Instr.RM Opcode.LD ac1 0 mp "op: load left"),
       (2, Instr.RM Opcode.LDC ac 2 0 "load const"),
       (1, Instr.RM Opcode.ST ac 0 mp "op: push left"),
       (0, Instr.RM Opcode.LDC ac 1 0 "load const")] ∧
    (genExp env0 opUnknownSample initState).tmpOffset = initState.tmpOffset := by
  have hop : NotOperator (TokenType.other 0) := by
    refine ⟨?_, ?_, ?_, ?_, ?_, ?_⟩ <;> decide
  have h := unknown_operator_comment_only env0
    { mkInfo NodeKind.ExpK (StmtKind.other 0) ExpKind.OpK with attrOp := TokenType.other 0 }
    (constNode 1 TreeNode.null) (constNode 2 TreeNode.null) TreeNode.null TreeNode.null
    initState rfl hop
  refine ⟨rfl, hop, ?_, h.2.2.2.2.2⟩
  have h3 := h.2.2.1
  have e : genExp env0 opUnknownSample initState = genExp env0
      (TreeNode.node
        { mkInfo NodeKind.ExpK (StmtKind.other 0) ExpKind.OpK with attrOp := TokenType.other 0 }
        (constNode 1 TreeNode.null) (constNode 2 TreeNode.null) TreeNode.null TreeNode.null)
      initState := rfl
  rw [e, h3]
  simp [opAfterRight, opPushed, opAfterLeft, constNode, mkInfo, cGen, genExp, emitRM, emitLine,
    traceComment, env0, initState, instrLines]

theorem Reaches.stay (iMem : Int → Instr) (st : TMState) : Reaches iMem st st :=
  ⟨0, rfl⟩

theorem Reaches.head {iMem : Int → Instr} {st st1 st2 : TMState}
    (h1 : tmStep iMem st = (StepResult.okay, st1)) (h2 : Reaches iMem st1 st2) :
    Reaches iMem st st2 := by
  obtain ⟨n, hn⟩ := h2
  refine ⟨n + 1, ?_⟩
  rw [tmRun, h1]
  exact hn

theorem Reaches.andThen {iMem : Int → Instr} {st st1 st2 : TMState}
    (h1 : Reaches iMem st st1) (h2 : Reaches iMem st1 st2) : Reaches iMem st st2 := by
  obtain ⟨n, hn⟩ := h1
  induction n generalizing st with
  | zero =>
    have : st = st1 := by
      have h := congrArg Prod.snd hn
      exact h
    rw [this]
    exact h2
  | succ n ih =>
    rw [tmRun] at hn
    cases hstep : tmStep iMem st with
    | mk r st' =>
      rw [hstep] at hn
      cases r with
      | okay => exact Reaches.head hstep (ih hn)
      | halt => simp at hn
      | imemErr => simp at hn
      | dmemErr => simp at hn
      | zeroDivide => simp at hn

theorem Reaches.step {iMem : Int → Instr} {st st1 : TMState}
    (h1 : tmStep iMem st = (StepResult.okay, st1)) : Reaches iMem st st1 :=
  Reaches.head h1 (Reaches.stay iMem st1)

theorem step_LDC (iMem : Int → Instr) (st : TMState) (r d s : Int) (c : String)
    (h : iMem (st.reg pc) = Instr.RM Opcode.LDC r d s c)
    (h0 : 0 ≤ st.reg pc) (h1 : st.reg pc < ADDR_SIZE) :
    tmStep iMem st =
      (StepResult.okay, { fetched st with reg := setCell (fetched st).reg r d }) := by
  have hno : ¬ (st.reg pc < 0 ∨ ADDR_SIZE ≤ st.reg pc) := by omega
  unfold tmStep
  simp only [hno, if_false, h]
  rfl

theorem step_LDA (iMem : Int → Instr) (st : TMState) (r d s : Int) (c : String)
    (h : iMem (st.reg pc) = Instr.RM Opcode.LDA r d s c)
    (h0 : 0 ≤ st.reg pc) (h1 : st.reg pc < ADDR_SIZE) :
    tmStep iMem st =
      (StepResult.okay,
        { fetched st with reg := setCell (fetched st).reg r (d + (fetched st).reg s) }) := by
  have hno : ¬ (st.reg pc < 0 ∨ ADDR_SIZE ≤ st.reg pc) := by omega
  unfold tmStep
  simp only [hno, if_false, h]
  rfl

theorem step_LD (iMem : Int → Instr) (st : TMState) (r d s : Int) (c : String)
    (h : iMem (st.reg pc) = Instr.RM Opcode.LD r d s c)
    (h0 : 0 ≤ st.reg pc) (h1 : st.reg pc < ADDR_SIZE)
    (hm0 : 0 ≤ d + (fetched st).reg s) (hm1 : d + (fetched st).reg s < ADDR_SIZE) :
    tmStep iMem st =
      (StepResult.okay,
        { fetched st with
          reg := setCell (fetched st).reg r (st.dMem (d + (fetched st).reg s)) }) := by
  have hno : ¬ (st.reg pc < 0 ∨ ADDR_SIZE ≤ st.reg pc) := by omega
  have hmo : ¬ (d + (fetched st).reg s < 0 ∨ ADDR_SIZE ≤ d + (fetched st).reg s) := by omega
  have hmo' : ¬ (d + setCell st.reg pc (st.reg pc + 1) s < 0 ∨
      ADDR_SIZE ≤ d + setCell st.reg pc (st.reg pc + 1) s) := hmo
  unfold tmStep
  simp only [hno, if_false, h, hmo']
  rfl

theorem step_ST (iMem : Int → Instr) (st : TMState) (r d s : Int) (c : String)
    (h : iMem (st.reg pc) = Instr.RM Opcode.ST r d s c)
    (h0 : 0 ≤ st.reg pc) (h1 : st.reg pc < ADDR_SIZE)
    (hm0 : 0 ≤ d + (fetched st).reg s) (hm1 : d + (fetched st).reg s < ADDR_SIZE) :
    tmStep iMem st =
      (StepResult.okay,
        { fetched st with
          dMem := setCell st.dMem (d + (fetched st).reg s) ((fetched st).reg r) }) := by
  have hno : ¬ (st.reg pc < 0 ∨ ADDR_SIZE ≤ st.reg pc) := by omega
  have hmo : ¬ (d + (fetched st).reg s < 0 ∨ ADDR_SIZE ≤ d + (fetched st).reg s) := by omega
  have hmo' : ¬ (d + setCell st.reg pc (st.reg pc + 1) s < 0 ∨
      ADDR_SIZE ≤ d + setCell st.reg pc (st.reg pc + 1) s) := hmo
  unfold tmStep
  simp only [hno, if_false, h, hmo']
  rfl

theorem step_JLT (iMem : Int → Instr) (st : TMState) (r d s : Int) (c : String)
    (h : iMem (st.reg pc) = Instr.RM Opcode.JLT r d s c)
    (h0 : 0 ≤ st.reg pc) (h1 : st.reg pc < ADDR_SIZE) :
    tmStep iMem st =
      (StepResult.okay,
        if (fetched st).reg r < 0 then
          { fetched st with reg := setCell (fetched st).reg pc (d + (fetched st).reg s) }
        else fetched st) := by
  have hno : ¬ (st.reg pc < 0 ∨ ADDR_SIZE ≤ st.reg pc) := by omega
  unfold tmStep
  simp only [hno, if_false, h]
  rfl

theorem step_JEQ (iMem : Int → Instr) (st : TMState) (r d s : Int) (c : String)
    (h : iMem (st.reg pc) = Instr.RM Opcode.JEQ r d s c)
    (h0 : 0 ≤ st.reg pc) (h1 : st.reg pc < ADDR_SIZE) :
    tmStep iMem st =
      (StepResult.okay,
        if (fetched st).reg r = 0 then
          { fetched st with reg := setCell (fetched st).reg pc (d + (fetched st).reg s) }
        else fetched st) := by
  have hno : ¬ (st.reg pc < 0 ∨ ADDR_SIZE ≤ st.reg pc) := by omega
  unfold tmStep
  simp only [hno, if_false, h]
  rfl

theorem step_ADD (iMem : Int → Instr) (st : TMState) (r s t : Int) (c : String)
    (h : iMem (st.reg pc) = Instr.RO Opcode.ADD r s t c)
    (h0 : 0 ≤ st.reg pc) (h1 : st.reg pc < ADDR_SIZE) :
    tmStep iMem st =
      (StepResult.okay,
        { fetched st with
          reg := setCell (fetched st).reg r ((fetched st).reg s + (fetched st).reg t) }) := by
  have hno : ¬ (st.reg pc < 0 ∨ ADDR_SIZE ≤ st.reg pc) := by omega
  unfold tmStep
  simp only [hno, if_false, h]
  rfl

theorem step_SUB (iMem : Int → Instr) (st : TMState) (r s t : Int) (c : String)
    (h : iMem (st.reg pc) = Instr.RO Opcode.SUB r s t c)
    (h0 : 0 ≤ st.reg pc) (h1 : st.reg pc < ADDR_SIZE) :
    tmStep iMem st =
      (StepResult.okay,
        { fetched st with
          reg := setCell (fetched st).reg r ((fetched st).reg s - (fetched st).reg t) }) := by
  have hno : ¬ (st.reg pc < 0 ∨ ADDR_SIZE ≤ st.reg pc) := by omega
  unfold tmStep
  simp only [hno, if_false, h]
  rfl

theorem step_MUL (iMem : Int → Instr) (st : TMState) (r s t : Int) (c : String)
    (h : iMem (st.reg pc) = Instr.RO Opcode.MUL r s t c)
    (h0 : 0 ≤ st.reg pc) (h1 : st.reg pc < ADDR_SIZE) :
    tmStep iMem st =
      (StepResult.okay,
        { fetched st with
          reg := setCell (fetched st).reg r ((fetched st).reg s * (fetched st).reg t) }) := by
  have hno : ¬ (st.reg pc < 0 ∨ ADDR_SIZE ≤ st.reg pc) := by omega
  unfold tmStep
  simp only [hno, if_false, h]
  rfl

theorem step_DIV (iMem : Int → Instr) (st : TMState) (r s t : Int) (c : String)
    (h : iMem (st.reg pc) = Instr.RO Opcode.DIV r s t c)
    (h0 : 0 ≤ st.reg pc) (h1 : st.reg pc < ADDR_SIZE) (hz : (fetched st).reg t ≠ 0) :
    tmStep iMem st =
      (StepResult.okay,
        { fetched st with
          reg := setCell (fetched st).reg r
            (Int.tdiv ((fetched st).reg s) ((fetched st).reg t)) }) := by
  have hno : ¬ (st.reg pc < 0 ∨ ADDR_SIZE ≤ st.reg pc) := by omega
  have hz' : ¬ setCell st.reg pc (st.reg pc + 1) t = 0 := hz
  unfold tmStep
  simp only [hno, if_false, h, hz']
  rfl

theorem Reaches.of_run {iMem : Int → Instr} {st : TMState} (n : Nat)
    (h : (tmRun iMem n st).1 = StepResult.okay) : Reaches iMem st (tmRun iMem n st).2 :=
  ⟨n, Prod.ext h rfl⟩

/-- The five instructions of the comparison `LT`, run from the first with
the left value in the secondary register and the right value in the
accumulator: control reaches the instruction after the fifth with 1 in the
accumulator when left < right and 0 otherwise; no other register but `pc`
and no memory cell changes. -/
theorem run_compare_LT (iMem : Int → Instr) (st : TMState) (p : Int)
    (c0 c1 c2 c3 c4 : String)
    (h0 : iMem p = Instr.RO Opcode.SUB ac ac1 ac c0)
    (h1 : iMem (p + 1) = Instr.RM Opcode.JLT ac 2 pc c1)
    (h2 : iMem (p + 2) = Instr.RM Opcode.LDC ac 0 ac c2)
    (h3 : iMem (p + 3) = Instr.RM Opcode.LDA pc 1 pc c3)
    (h4 : iMem (p + 4) = Instr.RM Opcode.LDC ac 1 ac c4)
    (hpc : st.reg pc = p) (hp0 : 0 ≤ p) (hp1 : p + 4 < ADDR_SIZE) :
    ∃ st' : TMState, Reaches iMem st st' ∧ st'.reg pc = p + 5 ∧
      st'.reg ac = (if st.reg ac1 < st.reg ac then 1 else 0) ∧
      (∀ k : Int, k ≠ ac → k ≠ pc → st'.reg k = st.reg k) ∧
      st'.dMem = st.dMem ∧ st'.output = st.output ∧ st'.input = st.input := by
  have hpc' : st.reg 7 = p := hpc
  have hp1' : p + 4 < 1024 := hp1
  have b0 : ¬ (p < 0 ∨ (1024 : Int) ≤ p) := by omega
  have b1 : ¬ (p + 1 < 0 ∨ (1024 : Int) ≤ p + 1) := by omega
  have b2 : ¬ (p + 1 + 1 < 0 ∨ (1024 : Int) ≤ p + 1 + 1) := by omega
  have b3 : ¬ (p + 1 + 1 + 1 < 0 ∨ (1024 : Int) ≤ p + 1 + 1 + 1) := by omega
  have b4 : ¬ (p + 4 < 0 ∨ (1024 : Int) ≤ p + 4) := by omega
  have h2' : iMem (p + 1 + 1) = Instr.RM Opcode.LDC ac 0 ac c2 := by
    rw [show p + 1 + 1 = p + 2 by ring]; exact h2
  have h3' : iMem (p + 1 + 1 + 1) = Instr.RM Opcode.LDA pc 1 pc c3 := by
    rw [show p + 1 + 1 + 1 = p + 3 by ring]; exact h3
  have a5 : 2 + (p + 1 + 1) = p + 4 := by ring
  have a6 : p + 4 + 1 = p + 5 := by ring
  have a7 : 1 + (p + 1 + 1 + 1 + 1) = p + 5 := by ring
  by_cases hc : st.reg 1 - st.reg 0 < 0
  · have hrel : st.reg ac1 < st.reg ac := by
      show st.reg 1 < st.reg 0
      omega
    have key : (tmRun iMem 3 st).1 = StepResult.okay ∧ (tmRun iMem 3 st).2.reg pc = p + 5 ∧
        (tmRun iMem 3 st).2.reg ac = 1 ∧
        (∀ k : Int, k ≠ ac → k ≠ pc → (tmRun iMem 3 st).2.reg k = st.reg k) ∧
        (tmRun iMem 3 st).2.dMem = st.dMem ∧ (tmRun iMem 3 st).2.output = st.output ∧
        (tmRun iMem 3 st).2.input = st.input := by
      simp [tmRun, tmStep, setCell, h0, h1, h4, hpc', b0, b1, b4, a5, a6, pc, ac, ac1,
        ADDR_SIZE, hc]
      intro k hk0 hk7
      simp [hk0, hk7]
    refine ⟨_, Reaches.of_run 3 key.1, key.2.1, ?_, key.2.2.2⟩
    rw [if_pos hrel]
    exact key.2.2.1
  · have hrel : ¬ st.reg ac1 < st.reg ac := by
      show ¬ st.reg 1 < st.reg 0
      omega
    have key : (tmRun iMem 4 st).1 = StepResult.okay ∧ (tmRun iMem 4 st).2.reg pc = p + 5 ∧
        (tmRun iMem 4 st).2.reg ac = 0 ∧
        (∀ k : Int, k ≠ ac → k ≠ pc → (tmRun iMem 4 st).2.reg k = st.reg k) ∧
        (tmRun iMem 4 st).2.dMem = st.dMem ∧ (tmRun iMem 4 st).2.output = st.output ∧
        (tmRun iMem 4 st).2.input = st.input := by
      simp [tmRun, tmStep, setCell, h0, h1, h2', h3', hpc', b0, b1, b2, b3, a7, pc, ac, ac1,
        ADDR_SIZE, hc]
      intro k hk0 hk7
      simp [hk0, hk7]
    refine ⟨_, Reaches.of_run 4 key.1, key.2.1, ?_, key.2.2.2⟩
    rw [if_neg hrel]
    exact key.2.2.1

/-- The five instructions of the comparison `EQ`, run from the first with
the left value in the secondary register and the right value in the
accumulator: control reaches the instruction after the fifth with 1 in the
accumulator when left = right and 0 otherwise; no other register but `pc`
and no memory cell changes. -/
theorem run_compare_EQ (iMem : Int → Instr) (st : TMState) (p : Int)
    (c0 c1 c2 c3 c4 : String)
    (h0 : iMem p = Instr.RO Opcode.SUB ac ac1 ac c0)
    (h1 : iMem (p + 1) = Instr.RM Opcode.JEQ ac 2 pc c1)
    (h2 : iMem (p + 2) = Instr.RM Opcode.LDC ac 0 ac c2)
    (h3 : iMem (p + 3) = Instr.RM Opcode.LDA pc 1 pc c3)
    (h4 : iMem (p + 4) = Instr.RM Opcode.LDC ac 1 ac c4)
    (hpc : st.reg pc = p) (hp0 : 0 ≤ p) (hp1 : p + 4 < ADDR_SIZE) :
    ∃ st' : TMState, Reaches iMem st st' ∧ st'.reg pc = p + 5 ∧
      st'.reg ac = (if st.reg ac1 = st.reg ac then 1 else 0) ∧
      (∀ k : Int, k ≠ ac → k ≠ pc → st'.reg k = st.reg k) ∧
      st'.dMem = st.dMem ∧ st'.output = st.output ∧ st'.input = st.input := by
  have hpc' : st.reg 7 = p := hpc
  have hp1' : p + 4 < 1024 := hp1
  have b0 : ¬ (p < 0 ∨ (1024 : Int) ≤ p) := by omega
  have b1 : ¬ (p + 1 < 0 ∨ (1024 : Int) ≤ p + 1) := by omega
  have b2 : ¬ (p + 1 + 1 < 0 ∨ (1024 : Int) ≤ p + 1 + 1) := by omega
  have b3 : ¬ (p + 1 + 1 + 1 < 0 ∨ (1024 : Int) ≤ p + 1 + 1 + 1) := by omega
  have b4 : ¬ (p + 4 < 0 ∨ (1024 : Int) ≤ p + 4) := by omega
  have h2' : iMem (p + 1 + 1) = Instr.RM Opcode.LDC ac 0 ac c2 := by
    rw [show p + 1 + 1 = p + 2 by ring]; exact h2
  have h3' : iMem (p + 1 + 1 + 1) = Instr.RM Opcode.LDA pc 1 pc c3 := by
    rw [show p + 1 + 1 + 1 = p + 3 by ring]; exact h3
  have a5 : 2 + (p + 1 + 1) = p + 4 := by ring
  have a6 : p + 4 + 1 = p + 5 := by ring
  have a7 : 1 + (p + 1 + 1 + 1 + 1) = p + 5 := by ring
  by_cases hc : st.reg 1 - st.reg 0 = 0
  · have hrel : st.reg ac1 = st.reg ac := by
      show st.reg 1 = st.reg 0
      omega
    have key : (tmRun iMem 3 st).1 = StepResult.okay ∧ (tmRun iMem 3 st).2.reg pc = p + 5 ∧
        (tmRun iMem 3 st).2.reg ac = 1 ∧
        (∀ k : Int, k ≠ ac → k ≠ pc → (tmRun iMem 3 st).2.reg k = st.reg k) ∧
        (tmRun iMem 3 st).2.dMem = st.dMem ∧ (tmRun iMem 3 st).2.output = st.output ∧
        (tmRun iMem 3 st).2.input = st.input := by
      simp [tmRun, tmStep, setCell, h0, h1, h4, hpc', b0, b1, b4, a5, a6, pc, ac, ac1,
        ADDR_SIZE, hc]
      intro k hk0 hk7
      simp [hk0, hk7]
    refine ⟨_, Reaches.of_run 3 key.1, key.2.1, ?_, key.2.2.2⟩
    rw [if_pos hrel]
    exact key.2.2.1
  · have hrel : ¬ st.reg ac1 = st.reg ac := by
      show ¬ st.reg 1 = st.reg 0
      omega
    have key : (tmRun iMem 4 st).1 = StepResult.okay ∧ (tmRun iMem 4 st).2.reg pc = p + 5 ∧
        (tmRun iMem 4 st).2.reg ac = 0 ∧
        (∀ k : Int, k ≠ ac → k ≠ pc → (tmRun iMem 4 st).2.reg k = st.reg k) ∧
        (tmRun iMem 4 st).2.dMem = st.dMem ∧ (tmRun iMem 4 st).2.output = st.output ∧
        (tmRun iMem 4 st).2.input = st.input := by
      simp [tmRun, tmStep, setCell, h0, h1, h2', h3', hpc', b0, b1, b2, b3, a7, pc, ac, ac1,
        ADDR_SIZE, hc]
      intro k hk0 hk7
      simp [hk0, hk7]
    refine ⟨_, Reaches.of_run 4 key.1, key.2.1, ?_, key.2.2.2⟩
    rw [if_neg hrel]
    exact key.2.2.1

/-! ## Comparisons -/

theorem genOp_LT_code (u : GenState) :
    (genOp TokenType.LT u).code =
      Line.instr (u.emitLoc + 1 + 1 + 1 + 1) (Instr.RM Opcode.LDC ac 1 ac "true case") ::
      Line.instr (u.emitLoc + 1 + 1 + 1) (Instr.RM Opcode.LDA pc 1 pc "unconditional jmp") ::
      Line.instr (u.emitLoc + 1 + 1) (Instr.RM Opcode.LDC ac 0 ac "false case") ::
      Line.instr (u.emitLoc + 1) (Instr.RM Opcode.JLT ac 2 pc "br if true") ::
      Line.instr u.emitLoc (Instr.RO Opcode.SUB ac ac1 ac "op <") :: u.code := rfl

theorem genOp_EQ_code (u : GenState) :
    (genOp TokenType.EQ u).code =
      Line.instr (u.emitLoc + 1 + 1 + 1 + 1) (Instr.RM Opcode.LDC ac 1 ac "true case") ::
      Line.instr (u.emitLoc + 1 + 1 + 1) (Instr.RM Opcode.LDA pc 1 pc "unconditional jmp") ::
      Line.instr (u.emitLoc + 1 + 1) (Instr.RM Opcode.LDC ac 0 ac "false case") ::
      Line.instr (u.emitLoc + 1) (Instr.RM Opcode.JEQ ac 2 pc "br if true") ::
      Line.instr u.emitLoc (Instr.RO Opcode.SUB ac ac1 ac "op ==") :: u.code := rfl

/-- The five slots a comparison fills, read back from its code. -/
theorem compare_instrAt (q : Int) (i0 i1 i2 i3 i4 : Instr) (rest : List Line) :
    instrAt (Line.instr (q + 1 + 1 + 1 + 1) i4 :: Line.instr (q + 1 + 1 + 1) i3 ::
      Line.instr (q + 1 + 1) i2 :: Line.instr (q + 1) i1 :: Line.instr q i0 :: rest) q =
      some i0 ∧
    instrAt (Line.instr (q + 1 + 1 + 1 + 1) i4 :: Line.instr (q + 1 + 1 + 1) i3 ::
      Line.instr (q + 1 + 1) i2 :: Line.instr (q + 1) i1 :: Line.instr q i0 :: rest) (q + 1) =
      some i1 ∧
    instrAt (Line.instr (q + 1 + 1 + 1 + 1) i4 :: Line.instr (q + 1 + 1 + 1) i3 ::
      Line.instr (q + 1 + 1) i2 :: Line.instr (q + 1) i1 :: Line.instr q i0 :: rest) (q + 2) =
      some i2 ∧
    instrAt (Line.instr (q + 1 + 1 + 1 + 1) i4 :: Line.instr (q + 1 + 1 + 1) i3 ::
      Line.instr (q + 1 + 1) i2 :: Line.instr (q + 1) i1 :: Line.instr q i0 :: rest) (q + 3) =
      some i3 ∧
    instrAt (Line.instr (q + 1 + 1 + 1 + 1) i4 :: Line.instr (q + 1 + 1 + 1) i3 ::
      Line.instr (q + 1 + 1) i2 :: Line.instr (q + 1) i1 :: Line.instr q i0 :: rest) (q + 4) =
      some i4 := by
  have e1 : ¬ q + 1 + 1 + 1 + 1 = q := by omega
  have e2 : ¬ q + 1 + 1 + 1 = q := by omega
  have e3 : ¬ q + 1 + 1 = q := by omega
  have e4 : ¬ q + 1 = q := by omega
  have f1 : ¬ q + 1 + 1 + 1 + 1 = q + 1 := by omega
  have f2 : ¬ q + 1 + 1 + 1 = q + 1 := by omega
  have f3 : ¬ q + 1 + 1 = q + 1 := by omega
  have g1 : ¬ q + 1 + 1 + 1 + 1 = q + 2 := by omega
  have g2 : ¬ q + 1 + 1 + 1 = q + 2 := by omega
  have g3 : q + 1 + 1 = q + 2 := by omega
  have k1 : ¬ q + 1 + 1 + 1 + 1 = q + 3 := by omega
  have k2 : q + 1 + 1 + 1 = q + 3 := by omega
  have l1 : q + 1 + 1 + 1 + 1 = q + 4 := by omega
  refine ⟨?_, ?_, ?_, ?_, ?_⟩
  · rw [instrAt_instr, if_neg e1, instrAt_instr, if_neg e2, instrAt_instr, if_neg e3,
      instrAt_instr, if_neg e4, instrAt_instr, if_pos rfl]
  · rw [instrAt_instr, if_neg f1, instrAt_instr, if_neg f2, instrAt_instr, if_neg f3,
      instrAt_instr, if_pos rfl]
  · rw [instrAt_instr, if_neg g1, instrAt_instr, if_neg g2, instrAt_instr, if_pos g3]
  · rw [instrAt_instr, if_neg k1, instrAt_instr, if_pos k2]
  · rw [instrAt_instr, if_pos l1]

/-- C16: for an operation node with operator `LT` (resp. `EQ`), the
instructions emitted after the pop are exactly: subtract secondary -
primary into the accumulator; conditional branch `JLT` (resp. `JEQ`) on the
accumulator with displacement 2 relative to `pc`; load constant 0;
unconditional jump relative to `pc` with displacement 1; load constant 1.
Executed from the first of them with secondary = `l` and primary = `r`,
control reaches the instruction following the fifth with the accumulator
equal to 1 if `l < r` (resp. `l = r`) and 0 otherwise. -/
theorem compare_sequence (env : Env) (info : NodeInfo) (p1 p2 c2 sib : TreeNode)
    (s : GenState) (hk : info.kindExp = ExpKind.OpK) :
    (info.attrOp = TokenType.LT →
      instrLines (genExp env (TreeNode.node info p1 p2 c2 sib) s).code =
        ((opPopped env p1 p2 s).emitLoc + 1 + 1 + 1 + 1,
          Instr.RM Opcode.LDC ac 1 ac "true case") ::
        ((opPopped env p1 p2 s).emitLoc + 1 + 1 + 1,
          Instr.RM Opcode.LDA pc 1 pc "unconditional jmp") ::
        ((opPopped env p1 p2 s).emitLoc + 1 + 1, Instr.RM Opcode.LDC ac 0 ac "false case") ::
        ((opPopped env p1 p2 s).emitLoc + 1, Instr.RM Opcode.JLT ac 2 pc "br if true") ::
        ((opPopped env p1 p2 s).emitLoc, Instr.RO Opcode.SUB ac ac1 ac "op <") ::
        instrLines (opPopped env p1 p2 s).code ∧
      ∀ (iMem : Int → Instr) (st : TMState),
        (∀ i : Int, (opPopped env p1 p2 s).emitLoc ≤ i →
          i ≤ (opPopped env p1 p2 s).emitLoc + 4 →
          iMem i = loadProgram (genExp env (TreeNode.node info p1 p2 c2 sib) s).code i) →
        st.reg pc = (opPopped env p1 p2 s).emitLoc →
        0 ≤ (opPopped env p1 p2 s).emitLoc →
        (opPopped env p1 p2 s).emitLoc + 4 < ADDR_SIZE →
        ∃ st' : TMState, Reaches iMem st st' ∧
          st'.reg pc = (opPopped env p1 p2 s).emitLoc + 5 ∧
          st'.reg ac = (if st.reg ac1 < st.reg ac then 1 else 0)) ∧
    (info.attrOp = TokenType.EQ →
      instrLines (genExp env (TreeNode.node info p1 p2 c2 sib) s).code =
        ((opPopped env p1 p2 s).emitLoc + 1 + 1 + 1 + 1,
          Instr.RM Opcode.LDC ac 1 ac "true case") ::
        ((opPopped env p1 p2 s).emitLoc + 1 + 1 + 1,
          Instr.RM Opcode.LDA pc 1 pc "unconditional jmp") ::
        ((opPopped env p1 p2 s).emitLoc + 1 + 1, Instr.RM Opcode.LDC ac 0 ac "false case") ::
        ((opPopped env p1 p2 s).emitLoc + 1, Instr.RM Opcode.JEQ ac 2 pc "br if true") ::
        ((opPopped env p1 p2 s).emitLoc, Instr.RO Opcode.SUB ac ac1 ac "op ==") ::
        instrLines (opPopped env p1 p2 s).code ∧
      ∀ (iMem : Int → Instr) (st : TMState),
        (∀ i : Int, (opPopped env p1 p2 s).emitLoc ≤ i →
          i ≤ (opPopped env p1 p2 s).emitLoc + 4 →
          iMem i = loadProgram (genExp env (TreeNode.node info p1 p2 c2 sib) s).code i) →
        st.reg pc = (opPopped env p1 p2 s).emitLoc →
        0 ≤ (opPopped env p1 p2 s).emitLoc →
        (opPopped env p1 p2 s).emitLoc + 4 < ADDR_SIZE →
        ∃ st' : TMState, Reaches iMem st st' ∧
          st'.reg pc = (opPopped env p1 p2 s).emitLoc + 5 ∧
          st'.reg ac = (if st.reg ac1 = st.reg ac then 1 else 0)) := by
  have hg := genExp_opK env info p1 p2 c2 sib s hk
  constructor
  · intro hop
    rw [hop] at hg
    refine ⟨by rw [hg, traceComment_instrLines, genOp_LT_code]; rfl, ?_⟩
    intro iMem st hi hpc h0 h1
    have hc := compare_instrAt (opPopped env p1 p2 s).emitLoc
      (Instr.RO Opcode.SUB ac ac1 ac "op <") (Instr.RM Opcode.JLT ac 2 pc "br if true")
      (Instr.RM Opcode.LDC ac 0 ac "false case")
      (Instr.RM Opcode.LDA pc 1 pc "unconditional jmp")
      (Instr.RM Opcode.LDC ac 1 ac "true case") (opPopped env p1 p2 s).code
    rw [← genOp_LT_code] at hc
    have hl : ∀ i : Int, loadProgram (genExp env (TreeNode.node info p1 p2 c2 sib) s).code i =
        (instrAt (genOp TokenType.LT (opPopped env p1 p2 s)).code i).getD
          (Instr.RO Opcode.HALT 0 0 0 "") := by
      intro i
      rw [hg]
      unfold loadProgram
      rw [traceComment_instrAt]
    obtain ⟨st', hr, hp, ha, _⟩ := run_compare_LT iMem st (opPopped env p1 p2 s).emitLoc
      "op <" "br if true" "false case" "unconditional jmp" "true case"
      (by rw [hi _ (by omega) (by omega), hl, hc.1]; rfl)
      (by rw [hi _ (by omega) (by omega), hl, hc.2.1]; rfl)
      (by rw [hi _ (by omega) (by omega), hl, hc.2.2.1]; rfl)
      (by rw [hi _ (by omega) (by omega), hl, hc.2.2.2.1]; rfl)
      (by rw [hi _ (by omega) (by omega), hl, hc.2.2.2.2]; rfl) hpc h0 h1
    exact ⟨st', hr, hp, ha⟩
  · intro hop
    rw [hop] at hg
    refine ⟨by rw [hg, traceComment_instrLines, genOp_EQ_code]; rfl, ?_⟩
    intro iMem st hi hpc h0 h1
    have hc := compare_instrAt (opPopped env p1 p2 s).emitLoc
      (Instr.RO Opcode.SUB ac ac1 ac "op ==") (Instr.RM Opcode.JEQ ac 2 pc "br if true")
      (Instr.RM Opcode.LDC ac 0 ac "false case")
      (Instr.RM Opcode.LDA pc 1 pc "unconditional jmp")
      (Instr.RM Opcode.LDC ac 1 ac "true case") (opPopped env p1 p2 s).code
    rw [← genOp_EQ_code] at hc
    have hl : ∀ i : Int, loadProgram (genExp env (TreeNode.node info p1 p2 c2 sib) s).code i =
        (instrAt (genOp TokenType.EQ (opPopped env p1 p2 s)).code i).getD
          (Instr.RO Opcode.HALT 0 0 0 "") := by
      intro i
      rw [hg]
      unfold loadProgram
      rw [traceComment_instrAt]
    obtain ⟨st', hr, hp, ha, _⟩ := run_compare_EQ iMem st (opPopped env p1 p2 s).emitLoc
      "op ==" "br if true" "false case" "unconditional jmp" "true case"
      (by rw [hi _ (by omega) (by omega), hl, hc.1]; rfl)
      (by rw [hi _ (by omega) (by omega), hl, hc.2.1]; rfl)
      (by rw [hi _ (by omega) (by omega), hl, hc.2.2.1]; rfl)
      (by rw [hi _ (by omega) (by omega), hl, hc.2.2.2.1]; rfl)
      (by rw [hi _ (by omega) (by omega), hl, hc.2.2.2.2]; rfl) hpc h0 h1
    exact ⟨st', hr, hp, ha⟩

/-- Witness of C16 on the node `1 < 2`, generated from the initial state
and run with secondary = 1 and primary = 2. -/
theorem compare_sequence_witness :
    (mkInfo NodeKind.ExpK (StmtKind.other 0) ExpKind.OpK).kindExp = ExpKind.OpK ∧
    instrLines (genExp env0 ltSample initState).code =
      [(8, Instr.RM Opcode.LDC ac 1 ac "true case"),
       (7, Instr.RM Opcode.LDA pc 1 pc "unconditional jmp"),
       (6, Instr.RM Opcode.LDC ac 0 ac "false case"),
       (5, Instr.RM Opcode.JLT ac 2 pc "br if true"),
       (4, Instr.RO Opcode.SUB ac ac1 ac "op <"),
       (3, Instr.RM Opcode.LD ac1 0 mp "op: load left"),
       (2, Instr.RM Opcode.LDC ac 2 0 "load const"),
       (1, Instr.RM Opcode.ST ac 0 mp "op: push left"),
       (0, Instr.RM Opcode.LDC ac 1 0 "load const")] ∧
    ∃ st' : TMState,
      Reaches (loadProgram (genExp env0 ltSample initState).code) cmpState st' ∧
      st'.reg pc = 9 ∧ st'.reg ac = 1 := by
  have h := (compare_sequence env0
    { mkInfo NodeKind.ExpK (StmtKind.other 0) ExpKind.OpK with attrOp := TokenType.LT }
    (constNode 1 TreeNode.null) (constNode 2 TreeNode.null) TreeNode.null TreeNode.null
    initState rfl).1 rfl
  have e : genExp env0 ltSample initState = genExp env0
      (TreeNode.node
        { mkInfo NodeKind.ExpK (StmtKind.other 0) ExpKind.OpK with attrOp := TokenType.LT }
        (constNode 1 TreeNode.null) (constNode 2 TreeNode.null) TreeNode.null TreeNode.null)
      initState := rfl
  have hq : (opPopped env0 (constNode 1 TreeNode.null) (constNode 2 TreeNode.null)
      initState).emitLoc = 4 := by
    simp [opPopped, opAfterRight, opPushed, opAfterLeft, constNode, mkInfo, cGen, genExp, emitRM,
      emitLine, traceComment, env0, initState]
  have hc : instrLines (opPopped env0 (constNode 1 TreeNode.null) (constNode 2 TreeNode.null)
      initState).code =
      [(3, Instr.RM Opcode.LD ac1 0 mp "op: load left"),
       (2, Instr.RM Opcode.LDC ac 2 0 "load const"),
       (1, Instr.RM Opcode.ST ac 0 mp "op: push left"),
       (0, Instr.RM Opcode.LDC ac 1 0 "load const")] := by
    simp [opPopped, opAfterRight, opPushed, opAfterLeft, constNode, mkInfo, cGen, genExp, emitRM,
      emitLine, traceComment, env0, initState, instrLines]
  refine ⟨rfl, ?_, ?_⟩
  · rw [e, h.1, hq, hc]
    rfl
  · obtain ⟨st', hr, hp, ha⟩ := h.2 (loadProgram (genExp env0 ltSample initState).code) cmpState
      (fun i _ _ => by rw [e]) (by rw [hq]; rfl) (by rw [hq]; decide) (by rw [hq]; decide)
    refine ⟨st', hr, ?_, ?_⟩
    · rw [hp, hq]
      rfl
    · rw [ha]
      rfl

theorem Grows.zero {s : GenState} (hs : s.emitLoc = s.highEmitLoc) : Grows 0 s s :=
  ⟨hs, by omega⟩

theorem Grows.after {n m : Int} {s s' : GenState} (h : Grows n s s')
    {g : GenState → GenState}
    (hg : ∀ u : GenState, u.emitLoc = u.highEmitLoc → Grows m u (g u)) :
    Grows (n + m) s (g s') := by
  obtain ⟨a, b⟩ := hg s' h.1
  exact ⟨a, by rw [b, h.2]; omega⟩

theorem Grows.line {n : Int} {s s' : GenState} (h : Grows n s s') (ins : Instr) :
    Grows (n + 1) s (CGen.emitLine ins s') :=
  h.after (g := CGen.emitLine ins) (fun u hu =>
    ⟨by show u.emitLoc + 1 = max u.highEmitLoc (u.emitLoc + 1); omega, rfl⟩)

theorem Grows.note {n : Int} {s s' : GenState} (h : Grows n s s') (c : String) :
    Grows n s (CGen.emitComment c s') :=
  ⟨h.1, h.2⟩

theorem Grows.trace {n : Int} {s s' : GenState} (h : Grows n s s') (env : Env)
    (c : String) : Grows n s (CGen.traceComment env c s') := by
  unfold CGen.traceComment
  split
  · exact h.note c
  · exact h

theorem Grows.offset {n : Int} {s s' : GenState} (h : Grows n s s') (v : Int) :
    Grows n s { s' with tmpOffset := v } :=
  ⟨h.1, h.2⟩

theorem Grows.reserve {n : Int} {s s' : GenState} (h : Grows n s s') (k : Int) (hk : 0 ≤ k) :
    Grows (n + k) s (emitSkip k s').2 :=
  h.after (g := fun u => (emitSkip k u).2) (fun u hu =>
    ⟨by show u.emitLoc + k = max u.highEmitLoc (u.emitLoc + k); omega, rfl⟩)

theorem grows_genOp (op : TokenType) (u : GenState) (hu : u.emitLoc = u.highEmitLoc) :
    Grows (opSize op) u (genOp op u) := by
  have h0 := Grows.zero hu
  cases op <;> unfold genOp
  · exact (h0.line _).after (fun _ h => Grows.zero h)
  · exact (h0.line _).after (fun _ h => Grows.zero h)
  · exact (h0.line _).after (fun _ h => Grows.zero h)
  · exact (h0.line _).after (fun _ h => Grows.zero h)
  · exact (((((h0.line _).line _).line _).line _).line _)
  · exact (((((h0.line _).line _).line _).line _).line _)
  · exact h0.note _

/-- Generation at the append position ends at the append position, as many
slots further as the size of the tree says. -/
theorem gen_size (env : Env) (tree : TreeNode) :
    ∀ s : GenState, s.emitLoc = s.highEmitLoc →
      Grows (codeSize tree) s (cGen env tree s) := by
  induction tree with
  | null =>
    intro s hs
    simp only [cGen]
    exact Grows.zero hs
  | node info c0 c1 c2 sib ih0 ih1 ih2 ihs =>
    have hS : ∀ s : GenState, s.emitLoc = s.highEmitLoc →
        Grows (stmtPart info (codeSize c0) (codeSize c1) (codeSize c2)) s
          (genStmt env (TreeNode.node info c0 c1 c2 sib) s) := by
      intro s hs
      have h0 := Grows.zero hs
      by_cases hk : info.kindStmt = StmtKind.IfK
      · obtain ⟨_, _, l2, _, hb, _⟩ :=
          if_stages env c0 c1 c2 s hs (cGen_ext env c0) (cGen_ext env c1) (cGen_ext env c2)
        have a1 : Grows (0 + codeSize c0 + 1 + codeSize c1) s (ifAfterThen env c0 c1 s) :=
          (((((h0.trace env "-> if").after ih0).reserve 1 (by decide)).note
            "if: jump to else belongs here").after ih1)
        have a3 := ih2 _ hb.atEnd
        refine ⟨(ext_ifK env info c0 c1 c2 sib s hk hs (cGen_ext env c0) (cGen_ext env c1)
          (cGen_ext env c2)).atEnd, ?_⟩
        rw [genStmt_ifK_emitLoc env info c0 c1 c2 sib s hk hs]
        have e3 : (ifAfterElse env c0 c1 c2 s).emitLoc =
            (ifBeforeElse env c0 c1 s).emitLoc + codeSize c2 := a3.2
        have e2 : ifSlot2 env c0 c1 s = s.emitLoc + (0 + codeSize c0 + 1 + codeSize c1) := a1.2
        rw [e3, l2, e2]
        simp only [stmtPart, hk]
        push_cast
        omega
      · rw [genStmt]
        split
        · exact absurd (by assumption) hk
        · rename_i heq
          have h := (((((((h0.trace env "-> repeat").reserve 0 (le_refl _)).note
            "repeat: jump after body comes back here").after ih0).after ih1).after
              (g := fun u => emitRM_Abs Opcode.JEQ ac
                (emitSkip 0 (traceComment env "-> repeat" s)).1 "repeat: jmp back to body" u)
              (fun u hu => (Grows.zero hu).line _)).trace env "<- repeat")
          refine ⟨h.1, ?_⟩
          refine h.2.trans ?_
          simp only [stmtPart, heq]
          push_cast
          omega
        · rename_i heq
          have h := ((((h0.trace env "-> assign").after ih0).line
            (Instr.RM Opcode.ST ac (env.st_lookup info.attrName) gp
              "assign: store value")).trace env "<- assign")
          refine ⟨h.1, ?_⟩
          refine h.2.trans ?_
          simp only [stmtPart, heq]
          push_cast
          omega
        · rename_i heq
          have h := ((h0.line (Instr.RO Opcode.IN ac 0 0 "read integer value")).line
            (Instr.RM Opcode.ST ac (env.st_lookup info.attrName) gp "read: store value"))
          refine ⟨h.1, ?_⟩
          refine h.2.trans ?_
          simp only [stmtPart, heq]
          push_cast
          omega
        · rename_i heq
          have h := ((h0.after ih0).line (Instr.RO Opcode.OUT ac 0 0 "write ac"))
          refine ⟨h.1, ?_⟩
          refine h.2.trans ?_
          simp only [stmtPart, heq]
          push_cast
          omega
        · rename_i h1 h2 h3 h4 h5
          refine ⟨hs, ?_⟩
          have : stmtPart info (codeSize c0) (codeSize c1) (codeSize c2) = 0 := by
            unfold stmtPart
            split <;> first | rfl | (exfalso; simp_all)
          rw [this]
          simp
    have hE : ∀ s : GenState, s.emitLoc = s.highEmitLoc →
        Grows (expPart info (codeSize c0) (codeSize c1)) s
          (genExp env (TreeNode.node info c0 c1 c2 sib) s) := by
      intro s hs
      have h0 := Grows.zero hs
      by_cases hk : info.kindExp = ExpKind.OpK
      · rw [genExp_opK env info c0 c1 c2 sib s hk]
        have h := (((((((h0.trace env "-> Op").after ih0).offset
          ((opAfterLeft env c0 s).tmpOffset - 1)).line
            (Instr.RM Opcode.ST ac (opAfterLeft env c0 s).tmpOffset mp "op: push left")).after
              ih1).offset ((opAfterRight env c0 c1 s).tmpOffset + 1)).line
                (Instr.RM Opcode.LD ac1 ((opAfterRight env c0 c1 s).tmpOffset + 1) mp
                  "op: load left"))
        have h2 := ((h.after (grows_genOp info.attrOp)).trace env "<- Op")
        refine ⟨h2.1, ?_⟩
        have e := h2.2
        rw [show (traceComment env "<- Op" (genOp info.attrOp (opPopped env c0 c1 s))).emitLoc =
          s.emitLoc + (0 + codeSize c0 + 1 + codeSize c1 + 1 + opSize info.attrOp) from e]
        simp only [expPart, hk]
        push_cast
        omega
      · rw [genExp]
        split
        · rename_i heq
          have h := (((h0.trace env "-> Const").line
            (Instr.RM Opcode.LDC ac info.attrVal 0 "load const")).trace env "<- Const")
          refine ⟨h.1, ?_⟩
          refine h.2.trans ?_
          simp only [expPart, heq]
          push_cast
          omega
        · rename_i heq
          have h := (((h0.trace env "-> Id").line
            (Instr.RM Opcode.LD ac (env.st_lookup info.attrName) gp
              "load id value")).trace env "<- Id")
          refine ⟨h.1, ?_⟩
          refine h.2.trans ?_
          simp only [expPart, heq]
          push_cast
          omega
        · exact absurd (by assumption) hk
        · refine ⟨hs, ?_⟩
          have : expPart info (codeSize c0) (codeSize c1) = 0 := by
            unfold expPart
            split <;> first | rfl | (exfalso; simp_all)
          rw [this]
          simp
    intro s hs
    rw [cGen]
    split
    · rename_i heq
      have h := (hS s hs).after ihs
      refine ⟨h.1, ?_⟩
      rw [h.2]
      simp only [codeSize, heq]
      push_cast
      omega
    · rename_i heq
      have h := (hE s hs).after ihs
      refine ⟨h.1, ?_⟩
      rw [h.2]
      simp only [codeSize, heq]
      push_cast
      omega
    · rename_i h1 h2
      have h := ihs s hs
      refine ⟨h.1, ?_⟩
      rw [h.2]
      have : codeSize (TreeNode.node info c0 c1 c2 sib) = codeSize sib := by
        simp only [codeSize]
        omega
      rw [this]

/-! ## Backpatching in a conditional -/

/-- The second patch of an if statement adds one line, at the second
reserved slot. -/
theorem genStmt_ifK_code (env : Env) (info : NodeInfo) (p1 p2 p3 sib : TreeNode)
    (s : GenState) (hk : info.kindStmt = StmtKind.IfK) :
    instrLines (genStmt env (TreeNode.node info p1 p2 p3 sib) s).code =
      (ifSlot2 env p1 p2 s,
        Instr.RM Opcode.LDA pc
          ((ifAfterElse env p1 p2 p3 s).emitLoc - (ifSlot2 env p1 p2 s + 1)) pc "jmp to end") ::
      instrLines (ifAfterElse env p1 p2 p3 s).code ∧
    ∀ i : Int, instrAt (genStmt env (TreeNode.node info p1 p2 p3 sib) s).code i =
      if ifSlot2 env p1 p2 s = i then
        some (Instr.RM Opcode.LDA pc
          ((ifAfterElse env p1 p2 p3 s).emitLoc - (ifSlot2 env p1 p2 s + 1)) pc "jmp to end")
      else instrAt (ifAfterElse env p1 p2 p3 s).code i := by
  rw [genStmt_ifK env info p1 p2 p3 sib s hk]
  refine ⟨by rw [traceComment_instrLines]; rfl, fun i => ?_⟩
  rw [traceComment_instrAt]
  rfl

/-- The sizes of the three parts place the two reserved slots. -/
theorem if_slots (env : Env) (p1 p2 : TreeNode) (s : GenState)
    (hs : s.emitLoc = s.highEmitLoc) :
    ifSlot1 env p1 s = s.emitLoc + codeSize p1 ∧
    ifSlot2 env p1 p2 s = s.emitLoc + codeSize p1 + 1 + codeSize p2 ∧
    Ext noHole (emitComment "if: jump to else belongs here"
      (emitSkip 1 (cGen env p1 (traceComment env "-> if" s))).2) (ifAfterThen env p1 p2 s) := by
  have h0 := Grows.zero hs
  have a0 := (h0.trace env "-> if").after (gen_size env p1)
  have a1 := ((a0.reserve 1 (by decide)).note "if: jump to else belongs here")
  have a2 : Grows (0 + codeSize p1 + 1 + codeSize p2) s (ifAfterThen env p1 p2 s) :=
    a1.after (gen_size env p2)
  refine ⟨?_, ?_, cGen_ext env p2 _ a1.1⟩
  · have := a0.2
    unfold ifSlot1
    omega
  · have := a2.2
    unfold ifSlot2
    omega

/-- C17: backpatching in a conditional touches only the placeholders. For
every `IfK` node generated with the emit cursor at the append position `p`,
the two reserved slots are `p + |test|` and `p + |test| + 1 + |then|`; each
of the two patches adds exactly one instruction line, written at its
reserved slot; every slot of the test, of the then-part and of the else-part
holds on return what the generation of that part left there, and no slot
outside the statement has changed; and on return the emit cursor is back at
the append position, which is `p + |test| + |then| + |else| + 2`. -/
theorem if_backpatch_frame (env : Env) (info : NodeInfo) (p1 p2 p3 sib : TreeNode)
    (s : GenState) (hk : info.kindStmt = StmtKind.IfK) (hs : s.emitLoc = s.highEmitLoc) :
    ifSlot1 env p1 s = s.emitLoc + codeSize p1 ∧
    ifSlot2 env p1 p2 s = s.emitLoc + codeSize p1 + 1 + codeSize p2 ∧
    instrLines (ifBeforeElse env p1 p2 s).code =
      (ifSlot1 env p1 s,
        Instr.RM Opcode.JEQ ac (ifSlot2 env p1 p2 s + 1 - (ifSlot1 env p1 s + 1)) pc
          "if: jmp to else") :: instrLines (ifAfterThen env p1 p2 s).code ∧
    instrLines (genStmt env (TreeNode.node info p1 p2 p3 sib) s).code =
      (ifSlot2 env p1 p2 s,
        Instr.RM Opcode.LDA pc
          ((ifAfterElse env p1 p2 p3 s).emitLoc - (ifSlot2 env p1 p2 s + 1)) pc "jmp to end") ::
      instrLines (ifAfterElse env p1 p2 p3 s).code ∧
    (∀ i : Int, s.emitLoc ≤ i → i < ifSlot1 env p1 s →
      instrAt (genStmt env (TreeNode.node info p1 p2 p3 sib) s).code i =
        instrAt (cGen env p1 (traceComment env "-> if" s)).code i) ∧
    (∀ i : Int, ifSlot1 env p1 s < i → i < ifSlot2 env p1 p2 s →
      instrAt (genStmt env (TreeNode.node info p1 p2 p3 sib) s).code i =
        instrAt (ifAfterThen env p1 p2 s).code i) ∧
    (∀ i : Int, ifSlot2 env p1 p2 s < i →
      i < (genStmt env (TreeNode.node info p1 p2 p3 sib) s).emitLoc →
      instrAt (genStmt env (TreeNode.node info p1 p2 p3 sib) s).code i =
        instrAt (ifAfterElse env p1 p2 p3 s).code i) ∧
    (∀ i : Int, i < s.emitLoc ∨ (genStmt env (TreeNode.node info p1 p2 p3 sib) s).emitLoc ≤ i →
      instrAt (genStmt env (TreeNode.node info p1 p2 p3 sib) s).code i = instrAt s.code i) ∧
    (genStmt env (TreeNode.node info p1 p2 p3 sib) s).emitLoc =
      (genStmt env (TreeNode.node info p1 p2 p3 sib) s).highEmitLoc ∧
    (genStmt env (TreeNode.node info p1 p2 p3 sib) s).emitLoc =
      s.emitLoc + codeSize p1 + codeSize p2 + codeSize p3 + 2 := by
  obtain ⟨_, l12, l2, _, hb, k3⟩ :=
    if_stages env p1 p2 p3 s hs (cGen_ext env p1) (cGen_ext env p2) (cGen_ext env p3)
  obtain ⟨e1, e2, k2⟩ := if_slots env p1 p2 s hs
  obtain ⟨c2, f2⟩ := genStmt_ifK_code env info p1 p2 p3 sib s hk
  have hx := ext_ifK env info p1 p2 p3 sib s hk hs (cGen_ext env p1) (cGen_ext env p2)
    (cGen_ext env p3)
  have f1 : ∀ i : Int, instrAt (ifBeforeElse env p1 p2 s).code i =
      if ifSlot1 env p1 s = i then
        some (Instr.RM Opcode.JEQ ac (ifSlot2 env p1 p2 s + 1 - (ifSlot1 env p1 s + 1)) pc
          "if: jmp to else")
      else instrAt (ifAfterThen env p1 p2 s).code i := by
    intro i
    rw [ifBeforeElse_code]
    rfl
  have e3 : (ifAfterElse env p1 p2 p3 s).emitLoc =
      (ifBeforeElse env p1 p2 s).emitLoc + codeSize p3 := (gen_size env p3 _ hb.atEnd).2
  have eE := genStmt_ifK_emitLoc env info p1 p2 p3 sib s hk hs
  refine ⟨e1, e2, by rw [ifBeforeElse_code]; rfl, c2, ?_, ?_, ?_, ?_, hx.atEnd, ?_⟩
  · intro i _ hi
    have hb3 := k3.below i (by omega)
    have hb2 := k2.below i (by
      show i < (cGen env p1 (traceComment env "-> if" s)).emitLoc + 1
      unfold ifSlot1 at hi
      omega)
    rw [f2 i, if_neg (by omega), hb3, f1 i, if_neg (by omega), hb2]
    rfl
  · intro i hi1 hi2
    have hb3 := k3.below i (by omega)
    rw [f2 i, if_neg (by omega), hb3, f1 i, if_neg (by omega)]
  · intro i hi1 _
    rw [f2 i, if_neg (by omega)]
  · intro i hi
    rcases hi with hi | hi
    · exact hx.below i hi
    · exact hx.above i hi
  · rw [eE, e3, l2, e2]
    omega

/-- Witness of C17 on an if statement with a constant test and two writes,
generated from the initial state. -/
theorem if_backpatch_frame_witness :
    (mkInfo NodeKind.StmtK StmtKind.IfK (ExpKind.other 0)).kindStmt = StmtKind.IfK ∧
    initState.emitLoc = initState.highEmitLoc ∧
    (genStmt env0 ifSample initState).emitLoc = 0 + 1 + 2 + 2 + 2 ∧
    instrLines (genStmt env0 ifSample initState).code =
      [(4, Instr.RM Opcode.LDA pc 2 pc "jmp to end"),
       (6, Instr.RO Opcode.OUT ac 0 0 "write ac"),
       (5, Instr.RM Opcode.LDC ac 2 0 "load const"),
       (1, Instr.RM Opcode.JEQ ac 3 pc "if: jmp to else"),
       (3, Instr.RO Opcode.OUT ac 0 0 "write ac"),
       (2, Instr.RM Opcode.LDC ac 1 0 "load const"),
       (0, Instr.RM Opcode.LDC ac 1 0 "load const")] := by
  have h := if_backpatch_frame env0 (mkInfo NodeKind.StmtK StmtKind.IfK (ExpKind.other 0))
    (constNode 1 TreeNode.null) (writeNode (constNode 1 TreeNode.null) TreeNode.null)
    (writeNode (constNode 2 TreeNode.null) TreeNode.null) TreeNode.null initState rfl rfl
  refine ⟨rfl, rfl, h.2.2.2.2.2.2.2.2.2, ?_⟩
  have e : genStmt env0 ifSample initState = genStmt env0
      (TreeNode.node (mkInfo NodeKind.StmtK StmtKind.IfK (ExpKind.other 0))
        (constNode 1 TreeNode.null) (writeNode (constNode 1 TreeNode.null) TreeNode.null)
        (writeNode (constNode 2 TreeNode.null) TreeNode.null) TreeNode.null) initState := rfl
  rw [e, h.2.2.2.1]
  simp [ifAfterElse, ifBeforeElse, ifAfterThen, ifSlot1, ifSlot2, writeNode, constNode, mkInfo,
    cGen, genStmt, genExp, emitRM, emitRO, emitRM_Abs, emitLine, emitSkip, emitBackup,
    emitRestore, emitComment, traceComment, env0, initState, instrLines, ac, pc]

theorem StoresAtMost.nil (u : Int) : StoresAtMost u [] :=
  fun _ h => absurd h (List.not_mem_nil _)

theorem StoresAtMost.append {u : Int} {a b : List Line} (ha : StoresAtMost u a)
    (hb : StoresAtMost u b) : StoresAtMost u (a ++ b) := by
  intro l hl
  rcases List.mem_append.mp hl with h | h
  · exact ha l h
  · exact hb l h

theorem StoresAtMost.mono {u v : Int} {a : List Line} (ha : StoresAtMost u a) (huv : u ≤ v) :
    StoresAtMost v a :=
  fun l hl d hd => le_trans (ha l hl d hd) huv

theorem StoresAtMost.comment {u : Int} {a : List Line} (ha : StoresAtMost u a) (c : String) :
    StoresAtMost u (Line.comment c :: a) := by
  intro l hl d hd
  rcases List.mem_cons.mp hl with h | h
  · obtain ⟨loc, r, c', e⟩ := hd
    rw [h] at e
    cases e
  · exact ha l h d hd

theorem StoresAtMost.instr {u : Int} {a : List Line} (ha : StoresAtMost u a) (loc : Int)
    {ins : Instr} (hi : Harmless u ins) : StoresAtMost u (Line.instr loc ins :: a) := by
  intro l hl d hd
  rcases List.mem_cons.mp hl with h | h
  · obtain ⟨loc', r, c', e⟩ := hd
    rw [h] at e
    injection e with _ e2
    exact hi r d c' e2
  · exact ha l h d hd

theorem harmless_RO (u : Int) (op : Opcode) (r s t : Int) (c : String) :
    Harmless u (Instr.RO op r s t c) := by
  intro r' d c' h
  cases h

theorem harmless_RM (u : Int) (op : Opcode) (hop : op ≠ Opcode.ST) (r d s : Int) (c : String) :
    Harmless u (Instr.RM op r d s c) := by
  intro r' d' c' h
  injection h with h1
  exact absurd h1 hop

theorem harmless_gp (u : Int) (r d : Int) (c : String) :
    Harmless u (Instr.RM Opcode.ST r d gp c) := by
  intro r' d' c' h
  injection h with _ _ _ h4
  exact absurd h4 (by decide)

theorem Tidy.same (s : GenState) : Tidy s s :=
  ⟨rfl, [], rfl, StoresAtMost.nil _⟩

theorem Tidy.chain {s s' s'' : GenState} (h1 : Tidy s s') (h2 : Tidy s' s'') : Tidy s s'' := by
  obtain ⟨t1, n1, c1, b1⟩ := h1
  obtain ⟨t2, n2, c2, b2⟩ := h2
  refine ⟨t2.trans t1, n2 ++ n1, by rw [c2, c1, List.append_assoc], ?_⟩
  rw [t1] at b2
  exact b2.append b1

theorem Tidy.next {s s' : GenState} (h : Tidy s s') {g : GenState → GenState}
    (hg : ∀ u : GenState, Tidy u (g u)) : Tidy s (g s') :=
  h.chain (hg s')

theorem Tidy.addLine {s s' : GenState} (h : Tidy s s') (ins : Instr)
    (hi : Harmless s.tmpOffset ins) : Tidy s (CGen.emitLine ins s') := by
  obtain ⟨t1, n1, c1, b1⟩ := h
  exact ⟨t1, Line.instr s'.emitLoc ins :: n1,
    by show Line.instr s'.emitLoc ins :: s'.code = _; rw [c1]; rfl, b1.instr _ hi⟩

theorem Tidy.addComment {s s' : GenState} (h : Tidy s s') (c : String) :
    Tidy s (CGen.emitComment c s') := by
  obtain ⟨t1, n1, c1, b1⟩ := h
  exact ⟨t1, Line.comment c :: n1,
    by show Line.comment c :: s'.code = _; rw [c1]; rfl, b1.comment c⟩

theorem Tidy.addTrace {s s' : GenState} (h : Tidy s s') (env : Env) (c : String) :
    Tidy s (CGen.traceComment env c s') := by
  unfold CGen.traceComment
  split
  · exact h.addComment c
  · exact h

theorem Tidy.skipped {s s' : GenState} (h : Tidy s s') (k : Int) : Tidy s (emitSkip k s').2 :=
  ⟨h.1, h.2⟩

theorem Tidy.backup {s s' : GenState} (h : Tidy s s') (a : Int) : Tidy s (emitBackup a s') :=
  ⟨h.1, h.2⟩

theorem Tidy.restore {s s' : GenState} (h : Tidy s s') : Tidy s (emitRestore s') :=
  ⟨h.1, h.2⟩

theorem tidy_genOp (op : TokenType) (u : GenState) : Tidy u (genOp op u) := by
  have h0 := Tidy.same u
  cases op <;> unfold genOp
  · exact h0.addLine _ (harmless_RO _ _ _ _ _ _)
  · exact h0.addLine _ (harmless_RO _ _ _ _ _ _)
  · exact h0.addLine _ (harmless_RO _ _ _ _ _ _)
  · exact h0.addLine _ (harmless_RO _ _ _ _ _ _)
  · exact (((((h0.addLine _ (harmless_RO _ _ _ _ _ _)).addLine _
      (harmless_RM _ _ (by decide) _ _ _ _)).addLine _
      (harmless_RM _ _ (by decide) _ _ _ _)).addLine _
      (harmless_RM _ _ (by decide) _ _ _ _)).addLine _
      (harmless_RM _ _ (by decide) _ _ _ _))
  · exact (((((h0.addLine _ (harmless_RO _ _ _ _ _ _)).addLine _
      (harmless_RM _ _ (by decide) _ _ _ _)).addLine _
      (harmless_RM _ _ (by decide) _ _ _ _)).addLine _
      (harmless_RM _ _ (by decide) _ _ _ _)).addLine _
      (harmless_RM _ _ (by decide) _ _ _ _))
  · exact h0.addComment _

/-- The operation case: the push stores at the `tmpOffset` of entry, the
right operand stays below it, and the offset is back on return. -/
theorem tidy_opK (env : Env) (info : NodeInfo) (p1 p2 c2 sib : TreeNode) (s : GenState)
    (hk : info.kindExp = ExpKind.OpK)
    (g1 : ∀ u : GenState, Tidy u (cGen env p1 u))
    (g2 : ∀ u : GenState, Tidy u (cGen env p2 u)) :
    Tidy s (genExp env (TreeNode.node info p1 p2 c2 sib) s) := by
  rw [genExp_opK env info p1 p2 c2 sib s hk]
  have hL : Tidy s (opAfterLeft env p1 s) := ((Tidy.same s).addTrace env "-> Op").next g1
  have hR : Tidy (opPushed env p1 s) (opAfterRight env p1 p2 s) := g2 _
  have hP : Tidy s (opPopped env p1 p2 s) := by
    obtain ⟨tL, nL, cL, bL⟩ := hL
    obtain ⟨tR, nR, cR, bR⟩ := hR
    refine ⟨?_, Line.instr (opAfterRight env p1 p2 s).emitLoc
        (Instr.RM Opcode.LD ac1 s.tmpOffset mp "op: load left") ::
      (nR ++ Line.instr (opAfterLeft env p1 s).emitLoc
        (Instr.RM Opcode.ST ac s.tmpOffset mp "op: push left") :: nL), ?_, ?_⟩
    · show (opAfterRight env p1 p2 s).tmpOffset + 1 = s.tmpOffset
      rw [opAfterRight_tmpOffset]
      omega
    · rw [opPopped_code, cR, opPushed_code, cL]
      simp
    · rw [opPushed_tmpOffset] at bR
      refine StoresAtMost.instr ?_ _ (harmless_RM _ _ (by decide) _ _ _ _)
      refine (bR.mono (by omega)).append ?_
      refine bL.instr _ ?_
      intro r d c h
      injection h with _ _ h3
      omega
  exact (hP.next (tidy_genOp info.attrOp)).addTrace env "<- Op"

/-- No line the traversal adds stores to a scratch offset above the
`tmpOffset` it starts from. -/
theorem gen_tidy (env : Env) (tree : TreeNode) :
    ∀ s : GenState, Tidy s (cGen env tree s) ∧ Tidy s (genStmt env tree s) ∧
      Tidy s (genExp env tree s) := by
  induction tree with
  | null =>
    intro s
    simp only [cGen, genStmt, genExp]
    exact ⟨Tidy.same s, Tidy.same s, Tidy.same s⟩
  | node info c0 c1 c2 sib ih0 ih1 ih2 ihs =>
    have g0 : ∀ u : GenState, Tidy u (cGen env c0 u) := fun u => (ih0 u).1
    have g1 : ∀ u : GenState, Tidy u (cGen env c1 u) := fun u => (ih1 u).1
    have g2 : ∀ u : GenState, Tidy u (cGen env c2 u) := fun u => (ih2 u).1
    have hS : ∀ s : GenState, Tidy s (genStmt env (TreeNode.node info c0 c1 c2 sib) s) := by
      intro s
      have h0 := Tidy.same s
      by_cases hk : info.kindStmt = StmtKind.IfK
      · have a1 : Tidy s (ifAfterThen env c0 c1 s) :=
          ((((h0.addTrace env "-> if").next g0).skipped 1).addComment
            "if: jump to else belongs here").next g1
        have a2 : Tidy s (ifBeforeElse env c0 c1 s) :=
          (((((a1.skipped 1).addComment "if: jump to end belongs here").skipped 0).backup
            (ifSlot1 env c0 s)).addLine (Instr.RM Opcode.JEQ ac _ pc "if: jmp to else")
              (harmless_RM _ Opcode.JEQ (by decide) _ _ _ _)).restore
        have a3 : Tidy s (ifAfterElse env c0 c1 c2 s) := a2.next g2
        rw [genStmt_ifK env info c0 c1 c2 sib s hk]
        exact ((((a3.skipped 0).backup (ifSlot2 env c0 c1 s)).addLine
          (Instr.RM Opcode.LDA pc _ pc "jmp to end")
          (harmless_RM _ Opcode.LDA (by decide) _ _ _ _)).restore).addTrace env "<- if"
      rw [genStmt]
      split
      · exact absurd (by assumption) hk
      · exact ((((((h0.addTrace env _).skipped 0).addComment _).next g0).next g1).addLine
          _ (harmless_RM _ Opcode.JEQ (by decide) _ _ _ _)).addTrace env _
      · exact (((h0.addTrace env _).next g0).addLine _
          (harmless_gp _ _ _ _)).addTrace env _
      · exact (h0.addLine _ (harmless_RO _ _ _ _ _ _)).addLine _ (harmless_gp _ _ _ _)
      · exact (h0.next g0).addLine _ (harmless_RO _ _ _ _ _ _)
      · exact h0
    have hE : ∀ s : GenState, Tidy s (genExp env (TreeNode.node info c0 c1 c2 sib) s) := by
      intro s
      have h0 := Tidy.same s
      by_cases hk : info.kindExp = ExpKind.OpK
      · exact tidy_opK env info c0 c1 c2 sib s hk g0 g1
      · rw [genExp]
        split
        · exact ((h0.addTrace env _).addLine _
            (harmless_RM _ Opcode.LDC (by decide) _ _ _ _)).addTrace env _
        · exact ((h0.addTrace env _).addLine _
            (harmless_RM _ Opcode.LD (by decide) _ _ _ _)).addTrace env _
        · exact absurd (by assumption) hk
        · exact h0
    intro s
    refine ⟨?_, hS s, hE s⟩
    rw [cGen]
    have hsib : ∀ u : GenState, Tidy u (cGen env sib u) := fun u => (ihs u).1
    split
    · exact (hS s).next hsib
    · exact (hE s).next hsib
    · exact (Tidy.same s).next hsib

theorem expVal_congr (env : Env) (g B : Int) (m1 m2 : Int → Int)
    (hm : ∀ a : Int, a ≤ B → m1 a = m2 a) (e : TreeNode) :
    VarsBelow env g B e → expVal env g m1 e = expVal env g m2 e := by
  induction e with
  | null => intro _; rfl
  | node info c0 c1 c2 sib ih0 ih1 _ _ =>
    intro hv
    unfold VarsBelow at hv
    unfold expVal
    split
    · rfl
    · rename_i heq
      simp only [heq] at hv
      rw [hm _ hv]
    · rename_i heq
      simp only [heq] at hv
      rw [ih0 hv.1, ih1 hv.2]
    · rfl

theorem cGen_pure (env : Env) (info : NodeInfo) (c0 c1 c2 : TreeNode) (s : GenState)
    (hn : info.nodekind = NodeKind.ExpK) :
    cGen env (TreeNode.node info c0 c1 c2 TreeNode.null) s =
      genExp env (TreeNode.node info c0 c1 c2 TreeNode.null) s := by
  rw [cGen]
  simp only [hn]
  rw [cGen]

/-- The layout of the code of an operation node generated at the append
position: left operand, push, right operand, pop, operator. -/
theorem op_layout (env : Env) (info : NodeInfo) (p1 p2 c2 sib : TreeNode) (s : GenState)
    (hk : info.kindExp = ExpKind.OpK) (hs : s.emitLoc = s.highEmitLoc) :
    (opPushed env p1 s).emitLoc = (opPushed env p1 s).highEmitLoc ∧
    s.emitLoc ≤ (opAfterLeft env p1 s).emitLoc ∧
    (opPushed env p1 s).emitLoc = (opAfterLeft env p1 s).emitLoc + 1 ∧
    (opPushed env p1 s).emitLoc ≤ (opAfterRight env p1 p2 s).emitLoc ∧
    (opPopped env p1 p2 s).emitLoc = (opAfterRight env p1 p2 s).emitLoc + 1 ∧
    (genExp env (TreeNode.node info p1 p2 c2 sib) s).emitLoc =
      (opPopped env p1 p2 s).emitLoc + opSize info.attrOp ∧
    (∀ i : Int, i < (opAfterLeft env p1 s).emitLoc →
      instrAt (genExp env (TreeNode.node info p1 p2 c2 sib) s).code i =
        instrAt (opAfterLeft env p1 s).code i) ∧
    instrAt (genExp env (TreeNode.node info p1 p2 c2 sib) s).code
      (opAfterLeft env p1 s).emitLoc =
        some (Instr.RM Opcode.ST ac s.tmpOffset mp "op: push left") ∧
    (∀ i : Int, i < (opAfterRight env p1 p2 s).emitLoc →
      instrAt (genExp env (TreeNode.node info p1 p2 c2 sib) s).code i =
        instrAt (opAfterRight env p1 p2 s).code i) ∧
    instrAt (genExp env (TreeNode.node info p1 p2 c2 sib) s).code
      (opAfterRight env p1 p2 s).emitLoc =
        some (Instr.RM Opcode.LD ac1 s.tmpOffset mp "op: load left") ∧
    (∀ i : Int, instrAt (genExp env (TreeNode.node info p1 p2 c2 sib) s).code i =
      instrAt (genOp info.attrOp (opPopped env p1 p2 s)).code i) := by
  have hg := genExp_opK env info p1 p2 c2 sib s hk
  have xL : Ext noHole s (opAfterLeft env p1 s) :=
    ((Ext.refl hs).traceComment env "-> Op").gen (cGen_ext env p1)
  have xP : Ext noHole (opAfterLeft env p1 s) (opPushed env p1 s) :=
    ((Ext.refl xL.atEnd).setTmpOffset ((opAfterLeft env p1 s).tmpOffset - 1)).emitLine
      (Instr.RM Opcode.ST ac (opAfterLeft env p1 s).tmpOffset mp "op: push left")
  have xR : Ext noHole (opPushed env p1 s) (opAfterRight env p1 p2 s) :=
    cGen_ext env p2 _ xP.atEnd
  have xQ : Ext noHole (opAfterRight env p1 p2 s) (opPopped env p1 p2 s) :=
    ((Ext.refl xR.atEnd).setTmpOffset ((opAfterRight env p1 p2 s).tmpOffset + 1)).emitLine
      (Instr.RM Opcode.LD ac1 ((opAfterRight env p1 p2 s).tmpOffset + 1) mp "op: load left")
  have xF : Ext noHole (opPopped env p1 p2 s)
      (traceComment env "<- Op" (genOp info.attrOp (opPopped env p1 p2 s))) :=
    ((Ext.refl xQ.atEnd).gen (ext_genOp info.attrOp)).traceComment env "<- Op"
  have gF : Grows (opSize info.attrOp) (opPopped env p1 p2 s)
      (traceComment env "<- Op" (genOp info.attrOp (opPopped env p1 p2 s))) := by
    have h := ((Grows.zero xQ.atEnd).after (grows_genOp info.attrOp)).trace env "<- Op"
    refine ⟨h.1, h.2.trans ?_⟩
    omega
  have eP : (opPushed env p1 s).emitLoc = (opAfterLeft env p1 s).emitLoc + 1 := rfl
  have eQ : (opPopped env p1 p2 s).emitLoc = (opAfterRight env p1 p2 s).emitLoc + 1 := rfl
  have hQ : ∀ i : Int, i < (opPopped env p1 p2 s).emitLoc →
      instrAt (genExp env (TreeNode.node info p1 p2 c2 sib) s).code i =
        instrAt (opPopped env p1 p2 s).code i := by
    intro i hi
    rw [hg]
    exact xF.below i hi
  have hR : ∀ i : Int, i < (opAfterRight env p1 p2 s).emitLoc →
      instrAt (genExp env (TreeNode.node info p1 p2 c2 sib) s).code i =
        instrAt (opAfterRight env p1 p2 s).code i := by
    intro i hi
    rw [hQ i (by omega)]
    exact xQ.below i hi
  have hP : ∀ i : Int, i < (opPushed env p1 s).emitLoc →
      instrAt (genExp env (TreeNode.node info p1 p2 c2 sib) s).code i =
        instrAt (opPushed env p1 s).code i := by
    intro i hi
    have := xR.le
    rw [hR i (by omega)]
    exact xR.below i hi
  refine ⟨xP.atEnd, xL.le, eP, xR.le, eQ, ?_, ?_, ?_, hR, ?_, ?_⟩
  · rw [hg]
    exact gF.2
  · intro i hi
    rw [hP i (by omega)]
    exact xP.below i hi
  · rw [hP _ (by omega), opPushed_code, instrAt_instr, if_pos rfl]
  · rw [hQ _ (by omega), opPopped_code, instrAt_instr, if_pos rfl]
  · intro i
    rw [hg, traceComment_instrAt]

/-- The operator instructions of an operation node, run from the first with
the left value in the secondary register and the right value in the
accumulator, leave `left op right` in the accumulator. -/
theorem run_genOp (iMem : Int → Instr) (op : TokenType) (u : GenState) (st : TMState)
    (v : Int)
    (hload : ∀ i : Int, u.emitLoc ≤ i → i < u.emitLoc + opSize op →
      iMem i = loadProgram (genOp op u).code i)
    (hpc : st.reg pc = u.emitLoc) (h0 : 0 ≤ u.emitLoc)
    (h1 : u.emitLoc + opSize op ≤ ADDR_SIZE)
    (hv : opVal op (st.reg ac1) (st.reg ac) = some v) :
    ∃ st' : TMState, Reaches iMem st st' ∧ st'.reg pc = u.emitLoc + opSize op ∧
      st'.reg ac = v ∧ (∀ k : Int, k ≠ ac → k ≠ pc → st'.reg k = st.reg k) ∧
      st'.dMem = st.dMem ∧ st'.output = st.output ∧ st'.input = st.input := by
  cases op with
  | PLUS =>
    have hi : iMem (st.reg pc) = Instr.RO Opcode.ADD ac ac1 ac "op +" := by
      rw [hpc, hload _ (le_refl _) (by simp [opSize])]
      simp [loadProgram, genOp, emitRO, emitLine]
    have hstep := step_ADD iMem st ac ac1 ac "op +" hi (by omega)
      (by simp [opSize] at h1; omega)
    simp only [opVal, Option.some.injEq] at hv
    refine ⟨_, Reaches.step hstep, ?_, ?_, ?_, rfl, rfl, rfl⟩
    · simp [fetched, setCell, pc, ac, opSize, ← hpc]
    · simp [fetched, setCell, pc, ac, ac1, ← hv]
    · intro k hk0 hk7
      simp only [ac, pc] at hk0 hk7
      simp [fetched, setCell, pc, ac, hk0, hk7]
  | MINUS =>
    have hi : iMem (st.reg pc) = Instr.RO Opcode.SUB ac ac1 ac "op -" := by
      rw [hpc, hload _ (le_refl _) (by simp [opSize])]
      simp [loadProgram, genOp, emitRO, emitLine]
    have hstep := step_SUB iMem st ac ac1 ac "op -" hi (by omega)
      (by simp [opSize] at h1; omega)
    simp only [opVal, Option.some.injEq] at hv
    refine ⟨_, Reaches.step hstep, ?_, ?_, ?_, rfl, rfl, rfl⟩
    · simp [fetched, setCell, pc, ac, opSize, ← hpc]
    · simp [fetched, setCell, pc, ac, ac1, ← hv]
    · intro k hk0 hk7
      simp only [ac, pc] at hk0 hk7
      simp [fetched, setCell, pc, ac, hk0, hk7]
  | TIMES =>
    have hi : iMem (st.reg pc) = Instr.RO Opcode.MUL ac ac1 ac "op *" := by
      rw [hpc, hload _ (le_refl _) (by simp [opSize])]
      simp [loadProgram, genOp, emitRO, emitLine]
    have hstep := step_MUL iMem st ac ac1 ac "op *" hi (by omega)
      (by simp [opSize] at h1; omega)
    simp only [opVal, Option.some.injEq] at hv
    refine ⟨_, Reaches.step hstep, ?_, ?_, ?_, rfl, rfl, rfl⟩
    · simp [fetched, setCell, pc, ac, opSize, ← hpc]
    · simp [fetched, setCell, pc, ac, ac1, ← hv]
    · intro k hk0 hk7
      simp only [ac, pc] at hk0 hk7
      simp [fetched, setCell, pc, ac, hk0, hk7]
  | OVER =>
    have hi : iMem (st.reg pc) = Instr.RO Opcode.DIV ac ac1 ac "op /" := by
      rw [hpc, hload _ (le_refl _) (by simp [opSize])]
      simp [loadProgram, genOp, emitRO, emitLine]
    have hz : st.reg ac ≠ 0 := by
      intro hz
      simp [opVal, hz] at hv
    have hstep := step_DIV iMem st ac ac1 ac "op /" hi (by omega)
      (by simp [opSize] at h1; omega) (by simpa [fetched, setCell, pc, ac] using hz)
    simp only [opVal, if_neg hz, Option.some.injEq] at hv
    refine ⟨_, Reaches.step hstep, ?_, ?_, ?_, rfl, rfl, rfl⟩
    · simp [fetched, setCell, pc, ac, opSize, ← hpc]
    · simp [fetched, setCell, pc, ac, ac1, ← hv]
    · intro k hk0 hk7
      simp only [ac, pc] at hk0 hk7
      simp [fetched, setCell, pc, ac, hk0, hk7]
  | LT =>
    simp only [opSize, Nat.cast_ofNat] at hload h1 ⊢
    have hc := compare_instrAt u.emitLoc
      (Instr.RO Opcode.SUB ac ac1 ac "op <") (Instr.RM Opcode.JLT ac 2 pc "br if true")
      (Instr.RM Opcode.LDC ac 0 ac "false case")
      (Instr.RM Opcode.LDA pc 1 pc "unconditional jmp")
      (Instr.RM Opcode.LDC ac 1 ac "true case") u.code
    rw [← genOp_LT_code] at hc
    obtain ⟨st', hr, hp, ha, hk, hm, ho, hin⟩ := run_compare_LT iMem st u.emitLoc
      "op <" "br if true" "false case" "unconditional jmp" "true case"
      (by rw [hload _ (by omega) (by omega)]; unfold loadProgram; rw [hc.1]; rfl)
      (by rw [hload _ (by omega) (by omega)]; unfold loadProgram; rw [hc.2.1]; rfl)
      (by rw [hload _ (by omega) (by omega)]; unfold loadProgram; rw [hc.2.2.1]; rfl)
      (by rw [hload _ (by omega) (by omega)]; unfold loadProgram; rw [hc.2.2.2.1]; rfl)
      (by rw [hload _ (by omega) (by omega)]; unfold loadProgram; rw [hc.2.2.2.2]; rfl)
      hpc h0 (by omega)
    simp only [opVal, Option.some.injEq] at hv
    exact ⟨st', hr, hp, by rw [ha, ← hv], hk, hm, ho, hin⟩
  | EQ =>
    simp only [opSize, Nat.cast_ofNat] at hload h1 ⊢
    have hc := compare_instrAt u.emitLoc
      (Instr.RO Opcode.SUB ac ac1 ac "op ==") (Instr.RM Opcode.JEQ ac 2 pc "br if true")
      (Instr.RM Opcode.LDC ac 0 ac "false case")
      (Instr.RM Opcode.LDA pc 1 pc "unconditional jmp")
      (Instr.RM Opcode.LDC ac 1 ac "true case") u.code
    rw [← genOp_EQ_code] at hc
    obtain ⟨st', hr, hp, ha, hk, hm, ho, hin⟩ := run_compare_EQ iMem st u.emitLoc
      "op ==" "br if true" "false case" "unconditional jmp" "true case"
      (by rw [hload _ (by omega) (by omega)]; unfold loadProgram; rw [hc.1]; rfl)
      (by rw [hload _ (by omega) (by omega)]; unfold loadProgram; rw [hc.2.1]; rfl)
      (by rw [hload _ (by omega) (by omega)]; unfold loadProgram; rw [hc.2.2.1]; rfl)
      (by rw [hload _ (by omega) (by omega)]; unfold loadProgram; rw [hc.2.2.2.1]; rfl)
      (by rw [hload _ (by omega) (by omega)]; unfold loadProgram; rw [hc.2.2.2.2]; rfl)
      hpc h0 (by omega)
    simp only [opVal, Option.some.injEq] at hv
    exact ⟨st', hr, hp, by rw [ha, ← hv], hk, hm, ho, hin⟩
  | other n =>
    simp only [opVal, Option.some.injEq] at hv
    refine ⟨st, Reaches.stay iMem st, ?_, hv, fun _ _ _ => rfl, rfl, rfl, rfl⟩
    simp [opSize, hpc]

/-- One step on a store whose registers are not `pc`. -/
theorem run_ST (iMem : Int → Instr) (st : TMState) (r d s : Int) (c : String)
    (h : iMem (st.reg pc) = Instr.RM Opcode.ST r d s c)
    (h0 : 0 ≤ st.reg pc) (h1 : st.reg pc < ADDR_SIZE) (hr : r ≠ pc) (hs : s ≠ pc)
    (hm0 : 0 ≤ d + st.reg s) (hm1 : d + st.reg s < ADDR_SIZE) :
    ∃ st' : TMState, tmStep iMem st = (StepResult.okay, st') ∧
      st'.reg pc = st.reg pc + 1 ∧ (∀ k : Int, k ≠ pc → st'.reg k = st.reg k) ∧
      st'.dMem = setCell st.dMem (d + st.reg s) (st.reg r) ∧
      st'.output = st.output ∧ st'.input = st.input := by
  have es : (fetched st).reg s = st.reg s := by simp [fetched, setCell, hs]
  have er : (fetched st).reg r = st.reg r := by simp [fetched, setCell, hr]
  have hstep := step_ST iMem st r d s c h h0 h1 (by rw [es]; exact hm0) (by rw [es]; exact hm1)
  rw [es, er] at hstep
  refine ⟨_, hstep, ?_, ?_, rfl, rfl, rfl⟩
  · simp [fetched, setCell]
  · intro k hk
    simp [fetched, setCell, hk]

/-- One step on a load whose registers are not `pc`. -/
theorem run_LD (iMem : Int → Instr) (st : TMState) (r d s : Int) (c : String)
    (h : iMem (st.reg pc) = Instr.RM Opcode.LD r d s c)
    (h0 : 0 ≤ st.reg pc) (h1 : st.reg pc < ADDR_SIZE) (hr : r ≠ pc) (hs : s ≠ pc)
    (hm0 : 0 ≤ d + st.reg s) (hm1 : d + st.reg s < ADDR_SIZE) :
    ∃ st' : TMState, tmStep iMem st = (StepResult.okay, st') ∧
      st'.reg pc = st.reg pc + 1 ∧ st'.reg r = st.dMem (d + st.reg s) ∧
      (∀ k : Int, k ≠ pc → k ≠ r → st'.reg k = st.reg k) ∧
      st'.dMem = st.dMem ∧ st'.output = st.output ∧ st'.input = st.input := by
  have es : (fetched st).reg s = st.reg s := by simp [fetched, setCell, hs]
  have hstep := step_LD iMem st r d s c h h0 h1 (by rw [es]; exact hm0) (by rw [es]; exact hm1)
  rw [es] at hstep
  refine ⟨_, hstep, ?_, ?_, ?_, rfl, rfl, rfl⟩
  · simp [fetched, setCell, hr.symm]
  · simp [fetched, setCell]
  · intro k hk hkr
    simp [fetched, setCell, hk, hkr]

/-- One step on a load of a constant into a register that is not `pc`. -/
theorem run_LDC (iMem : Int → Instr) (st : TMState) (r d s : Int) (c : String)
    (h : iMem (st.reg pc) = Instr.RM Opcode.LDC r d s c)
    (h0 : 0 ≤ st.reg pc) (h1 : st.reg pc < ADDR_SIZE) (hr : r ≠ pc) :
    ∃ st' : TMState, tmStep iMem st = (StepResult.okay, st') ∧
      st'.reg pc = st.reg pc + 1 ∧ st'.reg r = d ∧
      (∀ k : Int, k ≠ pc → k ≠ r → st'.reg k = st.reg k) ∧
      st'.dMem = st.dMem ∧ st'.output = st.output ∧ st'.input = st.input := by
  have hstep := step_LDC iMem st r d s c h h0 h1
  refine ⟨_, hstep, ?_, ?_, ?_, rfl, rfl, rfl⟩
  · simp [fetched, setCell, hr.symm]
  · simp [fetched, setCell]
  · intro k hk hkr
    simp [fetched, setCell, hk, hkr]

theorem genExp_constK (env : Env) (info : NodeInfo) (p1 p2 c2 sib : TreeNode) (s : GenState)
    (hk : info.kindExp = ExpKind.ConstK) :
    genExp env (TreeNode.node info p1 p2 c2 sib) s =
      traceComment env "<- Const"
        (emitLine (Instr.RM Opcode.LDC ac info.attrVal 0 "load const")
          (traceComment env "-> Const" s)) := by
  rw [genExp]
  simp only [hk]
  rfl

theorem genExp_idK (env : Env) (info : NodeInfo) (p1 p2 c2 sib : TreeNode) (s : GenState)
    (hk : info.kindExp = ExpKind.IdK) :
    genExp env (TreeNode.node info p1 p2 c2 sib) s =
      traceComment env "<- Id"
        (emitLine (Instr.RM Opcode.LD ac (env.st_lookup info.attrName) gp "load id value")
          (traceComment env "-> Id" s)) := by
  rw [genExp]
  simp only [hk]
  rfl

/-- The code of a single-instruction expression: its cursor and its slot. -/
theorem leaf_code (env : Env) (c1 c2 : String) (ins : Instr) (s : GenState) :
    (traceComment env c2 (emitLine ins (traceComment env c1 s))).emitLoc = s.emitLoc + 1 ∧
    loadProgram (traceComment env c2 (emitLine ins (traceComment env c1 s))).code s.emitLoc =
      ins := by
  refine ⟨by simp [emitLine], ?_⟩
  unfold loadProgram
  rw [traceComment_instrAt]
  simp [emitLine]

/-- The run of an operation node whose operands compute their values `l` and
`r`: after the pop the secondary register holds `l` and the accumulator `r`,
and at the end the accumulator holds `l op r`. -/
theorem op_run (env : Env) (iMem : Int → Instr) (B : Int) (hB : -1 ≤ B) (info : NodeInfo)
    (c0 c1 c2 sib : TreeNode) (ih0 : Computes env iMem B c0) (ih1 : Computes env iMem B c1)
    (s : GenState) (st : TMState) (l r v : Int) (D : Nat)
    (hk : info.kindExp = ExpKind.OpK) (hp0 : PureExp c0) (hp1 : PureExp c1)
    (hs : s.emitLoc = s.highEmitLoc)
    (hload : ∀ i : Int, s.emitLoc ≤ i →
      i < (genExp env (TreeNode.node info c0 c1 c2 sib) s).emitLoc →
      iMem i = loadProgram (genExp env (TreeNode.node info c0 c1 c2 sib) s).code i)
    (hpc : st.reg pc = s.emitLoc) (h0 : 0 ≤ s.emitLoc)
    (h1 : (genExp env (TreeNode.node info c0 c1 c2 sib) s).emitLoc ≤ ADDR_SIZE)
    (hvars : VarsBelow env (st.reg gp) B c0 ∧ VarsBelow env (st.reg gp) B c1)
    (hd0 : tempDepth c0 ≤ D) (hd1 : tempDepth c1 + 1 ≤ D)
    (htd : B + D ≤ st.reg mp + s.tmpOffset) (hZ : st.reg mp + s.tmpOffset < ADDR_SIZE)
    (hl : expVal env (st.reg gp) st.dMem c0 = some l)
    (hr : expVal env (st.reg gp) st.dMem c1 = some r)
    (hval : opVal info.attrOp l r = some v) :
    ∃ st4 st5 : TMState, Reaches iMem st st4 ∧
      st4.reg pc = (opPopped env c0 c1 s).emitLoc ∧ st4.reg ac1 = l ∧ st4.reg ac = r ∧
      Reaches iMem st4 st5 ∧
      Lands iMem st st5 (genExp env (TreeNode.node info c0 c1 c2 sib) s).emitLoc v
        (st.reg mp + s.tmpOffset - D) (st.reg mp + s.tmpOffset) := by
  have hacpc : ac ≠ pc := by decide
  have hgppc : gp ≠ pc := by decide
  have hmppc : mp ≠ pc := by decide
  obtain ⟨aP, lL, eP, lR, eQ, eF, iL, iST, iR, iLD, iOP⟩ :=
    op_layout env info c0 c1 c2 sib s hk hs
  have hfin : (opAfterRight env c0 c1 s).emitLoc + 1 + opSize info.attrOp ≤
      ADDR_SIZE := by
    rw [eF, eQ] at h1
    exact h1
  -- the left operand
  obtain ⟨st1, L1⟩ := ih0 (traceComment env "-> Op" s) st l hp0
    (by simp [hs])
    (fun i hi1 hi2 => by
      rw [traceComment_emitLoc] at hi1
      have hi3 : i < (opAfterLeft env c0 s).emitLoc := hi2
      rw [hload i hi1 (by rw [eF, eQ]; omega)]
      unfold loadProgram
      rw [iL i hi3]
      rfl)
    (by rw [traceComment_emitLoc]; exact hpc)
    (by rw [traceComment_emitLoc]; exact h0)
    (by
      have : (opAfterLeft env c0 s).emitLoc ≤ ADDR_SIZE := by omega
      exact this)
    hvars.1
    (by rw [traceComment_tmpOffset]; omega)
    (by rw [traceComment_tmpOffset]; exact hZ) hl
  rw [traceComment_tmpOffset] at L1
  have p1 : st1.reg pc = (opAfterLeft env c0 s).emitLoc := L1.pcAt
  have m1 : st1.reg mp = st.reg mp := L1.regs mp (by decide) (by decide) (by decide)
  have g1 : st1.reg gp = st.reg gp := L1.regs gp (by decide) (by decide) (by decide)
  -- the push
  have hiST : iMem (st1.reg pc) =
      Instr.RM Opcode.ST ac s.tmpOffset mp "op: push left" := by
    rw [p1, hload _ lL (by rw [eF, eQ]; omega)]
    unfold loadProgram
    rw [iST]
    rfl
  obtain ⟨st2, hstep2, p2, k2, d2, o2, n2⟩ :=
    run_ST iMem st1 ac s.tmpOffset mp "op: push left" hiST (by omega) (by omega)
      hacpc hmppc (by rw [m1]; omega) (by rw [m1]; omega)
  rw [m1, L1.acIs] at d2
  have e2 : s.tmpOffset + st.reg mp = st.reg mp + s.tmpOffset := by omega
  rw [e2] at d2
  -- the right operand
  have hr2 : expVal env (st2.reg gp) st2.dMem c1 = some r := by
    rw [k2 gp hgppc, g1, ← hr]
    refine expVal_congr env (st.reg gp) B st2.dMem st.dMem ?_ c1 hvars.2
    intro a ha
    rw [d2]
    have hne : ¬ a = st.reg mp + s.tmpOffset := by omega
    simp only [setCell, hne, if_false]
    exact L1.mem a (Or.inl (by omega))
  obtain ⟨st3, L3⟩ := ih1 (opPushed env c0 s) st2 r hp1 aP
    (fun i hi1 hi2 => by
      have hi3 : i < (opAfterRight env c0 c1 s).emitLoc := hi2
      rw [hload i (by omega) (by rw [eF, eQ]; omega)]
      unfold loadProgram
      rw [iR i hi3]
      rfl)
    (by rw [p2, p1, eP])
    (by omega)
    (by
      have : (opAfterRight env c0 c1 s).emitLoc ≤ ADDR_SIZE := by omega
      exact this)
    (by rw [k2 gp hgppc, g1]; exact hvars.2)
    (by rw [opPushed_tmpOffset, k2 mp hmppc, m1]; omega)
    (by rw [opPushed_tmpOffset, k2 mp hmppc, m1]; omega) hr2
  rw [opPushed_tmpOffset, k2 mp hmppc, m1] at L3
  have p3 : st3.reg pc = (opAfterRight env c0 c1 s).emitLoc := L3.pcAt
  have m3 : st3.reg mp = st.reg mp := by
    rw [L3.regs mp (by decide) (by decide) (by decide), k2 mp hmppc, m1]
  have c3 : st3.dMem (st.reg mp + s.tmpOffset) = l := by
    rw [L3.mem _ (Or.inr (by omega)), d2]
    simp [setCell]
  -- the pop
  have hiLD : iMem (st3.reg pc) =
      Instr.RM Opcode.LD ac1 s.tmpOffset mp "op: load left" := by
    rw [p3, hload _ (by omega) (by rw [eF, eQ]; omega)]
    unfold loadProgram
    rw [iLD]
    rfl
  obtain ⟨st4, hstep4, p4, a4, k4, d4, o4, n4⟩ :=
    run_LD iMem st3 ac1 s.tmpOffset mp "op: load left" hiLD (by omega) (by omega)
      (by decide) hmppc (by rw [m3]; omega) (by rw [m3]; omega)
  rw [m3, e2, c3] at a4
  have r4 : st4.reg ac = r := by
    rw [k4 ac hacpc (by decide), L3.acIs]
  -- the operator
  obtain ⟨st5, r5, p5, a5, k5, d5, o5, n5⟩ :=
    run_genOp iMem info.attrOp (opPopped env c0 c1 s) st4 v
      (fun i hi1 hi2 => by
        rw [hload i (by omega) (by rw [eF]; exact hi2)]
        unfold loadProgram
        rw [iOP i])
      (by rw [p4, p3, eQ]) (by omega) (by rw [eQ]; exact hfin)
      (by rw [a4, r4]; exact hval)
  have r4' : Reaches iMem st st4 :=
    ((L1.reach.andThen (Reaches.step hstep2)).andThen L3.reach).andThen (Reaches.step hstep4)
  refine ⟨st4, st5, r4', by rw [p4, p3, eQ], a4, r4, r5, r4'.andThen r5, ?_, a5, ?_, ?_, ?_, ?_⟩
  · rw [p5, eF]
  · intro k hk0 hk1 hk7
    rw [k5 k hk0 hk7, k4 k hk7 hk1, L3.regs k hk0 hk1 hk7, k2 k hk7,
      L1.regs k hk0 hk1 hk7]
  · intro a ha
    have hne : ¬ a = st.reg mp + s.tmpOffset := by omega
    rw [d5, d4, L3.mem a (by omega), d2]
    simp only [setCell, hne, if_false]
    exact L1.mem a (by omega)
  · rw [o5, o4, L3.out, o2, L1.out]
  · rw [n5, n4, L3.inp, n2, L1.inp]

/-- The code of every expression tree computes its value. -/
theorem exp_run (env : Env) (iMem : Int → Instr) (B : Int) (hB : -1 ≤ B) (e : TreeNode) :
    Computes env iMem B e := by
  induction e with
  | null =>
    intro s st v hp
    exact hp.elim
  | node info c0 c1 c2 sib ih0 ih1 _ _ =>
    intro s st v hp hs hload hpc h0 h1 hvars htd hZ hval
    obtain ⟨hn, hsib, hkind⟩ := hp
    subst hsib
    rw [cGen_pure env info c0 c1 c2 s hn] at hload h1 ⊢
    have hacpc : ac ≠ pc := by decide
    have hgppc : gp ≠ pc := by decide
    rcases hkind with hk | hk | ⟨hk, hp0, hp1⟩
    · -- a constant
      rw [genExp_constK env info c0 c1 c2 TreeNode.null s hk] at hload h1 ⊢
      obtain ⟨hel, hin⟩ := leaf_code env "-> Const" "<- Const"
        (Instr.RM Opcode.LDC ac info.attrVal 0 "load const") s
      rw [hel] at hload h1 ⊢
      have hi : iMem (st.reg pc) = Instr.RM Opcode.LDC ac info.attrVal 0 "load const" := by
        rw [hpc, hload _ (le_refl _) (by omega), hin]
      obtain ⟨st', hstep, q1, q2, q3, q4, q5, q6⟩ :=
        run_LDC iMem st ac info.attrVal 0 "load const" hi (by omega) (by omega) hacpc
      have hv : info.attrVal = v := by
        unfold expVal at hval
        simpa [hk] using hval
      refine ⟨st', Reaches.step hstep, by rw [q1, hpc], by rw [q2, hv], ?_, ?_, q5, q6⟩
      · intro k hk0 _ hk7
        exact q3 k hk7 hk0
      · intro a _
        rw [q4]
    · -- an identifier
      rw [genExp_idK env info c0 c1 c2 TreeNode.null s hk] at hload h1 ⊢
      obtain ⟨hel, hin⟩ := leaf_code env "-> Id" "<- Id"
        (Instr.RM Opcode.LD ac (env.st_lookup info.attrName) gp "load id value") s
      rw [hel] at hload h1 ⊢
      have hi : iMem (st.reg pc) =
          Instr.RM Opcode.LD ac (env.st_lookup info.attrName) gp "load id value" := by
        rw [hpc, hload _ (le_refl _) (by omega), hin]
      unfold expVal at hval
      simp only [hk] at hval
      split at hval
      · rename_i hadr
        obtain ⟨st', hstep, q1, q2, q3, q4, q5, q6⟩ :=
          run_LD iMem st ac (env.st_lookup info.attrName) gp "load id value" hi (by omega)
            (by omega) hacpc hgppc hadr.1 hadr.2
        have hv : st.dMem (env.st_lookup info.attrName + st.reg gp) = v := by
          simpa using hval
        refine ⟨st', Reaches.step hstep, by rw [q1, hpc], by rw [q2, hv], ?_, ?_, q5, q6⟩
        · intro k hk0 _ hk7
          exact q3 k hk7 hk0
        · intro a _
          rw [q4]
      · exact absurd hval (by simp)
    · -- an operation
      have hd : tempDepth (TreeNode.node info c0 c1 c2 TreeNode.null) =
          max (tempDepth c0) (tempDepth c1 + 1) := by
        simp only [tempDepth, hk]
      have hd0 : tempDepth c0 ≤ tempDepth (TreeNode.node info c0 c1 c2 TreeNode.null) := by
        rw [hd]; exact le_max_left _ _
      have hd1 : tempDepth c1 + 1 ≤ tempDepth (TreeNode.node info c0 c1 c2 TreeNode.null) := by
        rw [hd]; exact le_max_right _ _
      unfold VarsBelow at hvars
      simp only [hk] at hvars
      unfold expVal at hval
      simp only [hk] at hval
      cases hl : expVal env (st.reg gp) st.dMem c0 with
      | none => simp [hl] at hval
      | some l =>
        cases hr : expVal env (st.reg gp) st.dMem c1 with
        | none => simp [hl, hr] at hval
        | some r =>
          simp only [hl, hr] at hval
          obtain ⟨_, st5, _, _, _, _, _, L5⟩ := op_run env iMem B hB info c0 c1 c2 TreeNode.null
            ih0 ih1 s st l r v _ hk hp0 hp1 hs hload hpc h0 h1 hvars hd0 hd1 htd hZ hl hr hval
          exact ⟨st5, L5⟩

/-- C15: for every binary-operation node with `tmpOffset = t` on entry, the
left operand is stored to scratch offset `t`, the matching pop loads the
secondary register from that same offset `t`, and no line emitted for the
right operand, whatever tree it is, stores to a scratch offset `>= t`. When
the operands are expression trees with values `l` and `r`, the node is
generated at the append position and its code is run from its first
instruction (identifiers at addresses up to `B`, the scratch slots above
`B` and inside the data memory), control reaches the operator with `l` in
the secondary register and `r` in the accumulator, and then the end of the
code with `l op r` in the accumulator: `l - r` for `MINUS` and the truncating
quotient of `l` by `r` for `OVER`. -/
theorem operand_push_pop (env : Env) (info : NodeInfo) (p1 p2 c2 sib : TreeNode)
    (s : GenState) (hk : info.kindExp = ExpKind.OpK) :
    instrLines (opPushed env p1 s).code =
      ((opAfterLeft env p1 s).emitLoc, Instr.RM Opcode.ST ac s.tmpOffset mp "op: push left") ::
        instrLines (opAfterLeft env p1 s).code ∧
    instrLines (opPopped env p1 p2 s).code =
      ((opAfterRight env p1 p2 s).emitLoc,
        Instr.RM Opcode.LD ac1 s.tmpOffset mp "op: load left") ::
        instrLines (opAfterRight env p1 p2 s).code ∧
    (∃ new : List Line, (opAfterRight env p1 p2 s).code = new ++ (opPushed env p1 s).code ∧
      ∀ l ∈ new, ∀ d : Int, ScratchStore l d → d < s.tmpOffset) ∧
    genExp env (TreeNode.node info p1 p2 c2 sib) s =
      traceComment env "<- Op" (genOp info.attrOp (opPopped env p1 p2 s)) ∧
    (∀ (iMem : Int → Instr) (st : TMState) (B l r v : Int),
      s.emitLoc = s.highEmitLoc → PureExp p1 → PureExp p2 → -1 ≤ B →
      (∀ i : Int, s.emitLoc ≤ i →
        i < (genExp env (TreeNode.node info p1 p2 c2 sib) s).emitLoc →
        iMem i = loadProgram (genExp env (TreeNode.node info p1 p2 c2 sib) s).code i) →
      st.reg pc = s.emitLoc → 0 ≤ s.emitLoc →
      (genExp env (TreeNode.node info p1 p2 c2 sib) s).emitLoc ≤ ADDR_SIZE →
      VarsBelow env (st.reg gp) B p1 → VarsBelow env (st.reg gp) B p2 →
      B + max (tempDepth p1) (tempDepth p2 + 1) ≤ st.reg mp + s.tmpOffset →
      st.reg mp + s.tmpOffset < ADDR_SIZE →
      expVal env (st.reg gp) st.dMem p1 = some l →
      expVal env (st.reg gp) st.dMem p2 = some r →
      opVal info.attrOp l r = some v →
      ∃ st4 st5 : TMState, Reaches iMem st st4 ∧
        st4.reg pc = (opPopped env p1 p2 s).emitLoc ∧ st4.reg ac1 = l ∧ st4.reg ac = r ∧
        Reaches iMem st4 st5 ∧
        st5.reg pc = (genExp env (TreeNode.node info p1 p2 c2 sib) s).emitLoc ∧
        st5.reg ac = v ∧
        (info.attrOp = TokenType.MINUS → st5.reg ac = l - r) ∧
        (info.attrOp = TokenType.OVER → st5.reg ac = Int.tdiv l r)) := by
  refine ⟨?_, ?_, ?_, genExp_opK env info p1 p2 c2 sib s hk, ?_⟩
  · rw [opPushed_code]
    rfl
  · rw [opPopped_code]
    rfl
  · obtain ⟨_, new, hc, hb⟩ := (gen_tidy env p2 (opPushed env p1 s)).1
    refine ⟨new, hc, fun l hl d hd => ?_⟩
    have := hb l hl d hd
    rw [opPushed_tmpOffset] at this
    omega
  · intro iMem st B l r v hs hp1 hp2 hB hload hpc h0 h1 hv1 hv2 htd hZ hl hr hval
    have htd' : B + ((max (tempDepth p1) (tempDepth p2 + 1) : Nat) : Int) ≤
        st.reg mp + s.tmpOffset := htd
    obtain ⟨st4, st5, r4, p4, a4, b4, r5, L5⟩ := op_run env iMem B hB info p1 p2 c2 sib
      (exp_run env iMem B hB p1) (exp_run env iMem B hB p2) s st l r v
      (max (tempDepth p1) (tempDepth p2 + 1)) hk hp1 hp2 hs hload hpc h0 h1 ⟨hv1, hv2⟩
      (le_max_left _ _) (le_max_right _ _) htd' hZ hl hr hval
    refine ⟨st4, st5, r4, p4, a4, b4, r5, L5.pcAt, L5.acIs, ?_, ?_⟩
    · intro hop
      rw [hop] at hval
      simp only [opVal, Option.some.injEq] at hval
      rw [L5.acIs, hval]
    · intro hop
      rw [hop] at hval
      unfold opVal at hval
      simp only at hval
      split at hval
      · exact absurd hval (by simp)
      · rw [L5.acIs]
        simpa using hval.symm

/-- Witness of C15 on the node `7 - 4 / 2`, generated from the initial state
and run from instruction 0 with `mp` at the top of the data memory. -/
theorem operand_push_pop_witness :
    (mkInfo NodeKind.ExpK (StmtKind.other 0) ExpKind.OpK).kindExp = ExpKind.OpK ∧
    instrLines (genExp env0 minusSample initState).code =
      [(8, Instr.RO Opcode.SUB ac ac1 ac "op -"),
       (7, Instr.RM Opcode.LD ac1 0 mp "op: load left"),
       (6, Instr.RO Opcode.DIV ac ac1 ac "op /"),
       (5, Instr.RM Opcode.LD ac1 (-1) mp "op: load left"),
       (4, Instr.RM Opcode.LDC ac 2 0 "load const"),
       (3, Instr.RM Opcode.ST ac (-1) mp "op: push left"),
       (2, Instr.RM Opcode.LDC ac 4 0 "load const"),
       (1, Instr.RM Opcode.ST ac 0 mp "op: push left"),
       (0, Instr.RM Opcode.LDC ac 7 0 "load const")] ∧
    ∃ st4 st5 : TMState,
      Reaches (loadProgram (genExp env0 minusSample initState).code) tmFrame st4 ∧
      st4.reg pc = 8 ∧ st4.reg ac1 = 7 ∧ st4.reg ac = 2 ∧
      Reaches (loadProgram (genExp env0 minusSample initState).code) st4 st5 ∧
      st5.reg pc = 9 ∧ st5.reg ac = 7 - 2 := by
  have h := operand_push_pop env0
    { mkInfo NodeKind.ExpK (StmtKind.other 0) ExpKind.OpK with attrOp := TokenType.MINUS }
    (constNode 7 TreeNode.null)
    (opNode TokenType.OVER (constNode 4 TreeNode.null) (constNode 2 TreeNode.null)
      TreeNode.null) TreeNode.null TreeNode.null initState rfl
  have e : genExp env0 minusSample initState = genExp env0
      (TreeNode.node
        { mkInfo NodeKind.ExpK (StmtKind.other 0) ExpKind.OpK with attrOp := TokenType.MINUS }
        (constNode 7 TreeNode.null)
        (opNode TokenType.OVER (constNode 4 TreeNode.null) (constNode 2 TreeNode.null)
          TreeNode.null) TreeNode.null TreeNode.null) initState := rfl
  have hE : (genExp env0 minusSample initState).emitLoc = 9 := by
    simp [minusSample, opNode, constNode, mkInfo, cGen, genExp, genOp, emitRM, emitRO, emitLine,
      traceComment, env0, initState]
  have hQ : (opPopped env0 (constNode 7 TreeNode.null)
      (opNode TokenType.OVER (constNode 4 TreeNode.null) (constNode 2 TreeNode.null)
        TreeNode.null) initState).emitLoc = 8 := by
    simp [opPopped, opAfterRight, opPushed, opAfterLeft, opNode, constNode, mkInfo, cGen, genExp,
      genOp, emitRM, emitRO, emitLine, traceComment, env0, initState]
  refine ⟨rfl, ?_, ?_⟩
  · simp [minusSample, opNode, constNode, mkInfo, cGen, genExp, genOp, emitRM, emitRO, emitLine,
      traceComment, env0, initState, instrLines]
  · obtain ⟨st4, st5, r4, p4, a4, b4, r5, p5, _, a5, _⟩ := h.2.2.2.2
      (loadProgram (genExp env0 minusSample initState).code) tmFrame (-1) 7 2 (7 - 2)
      rfl (by simp [PureExp, constNode, mkInfo])
      (by simp [PureExp, opNode, constNode, mkInfo]) (by decide)
      (fun i _ _ => by rw [e]) rfl (by decide) (by rw [← e, hE]; decide)
      (by simp [VarsBelow, constNode, mkInfo])
      (by simp [VarsBelow, opNode, constNode, mkInfo])
      (by simp [tempDepth, opNode, constNode, mkInfo, tmFrame, setCell, mp, initState])
      (by simp [tmFrame, setCell, mp, initState, ADDR_SIZE])
      (by simp [expVal, constNode, mkInfo])
      (by simp [expVal, opVal, opNode, constNode, mkInfo, tmFrame, Int.tdiv])
      rfl
    refine ⟨st4, st5, r4, by rw [p4, hQ], a4, b4, r5, by rw [p5, ← e, hE], a5 rfl⟩

end CGen
